import Mathlib

/-!
# heimdallr / tracealloc: allocation handler and interposer shims

A shallow embedding of `src/tracealloc/src/handler.cpp`,
`src/tracealloc/src/interposer.cpp`, `src/tracealloc/src/common.cpp` and
`src/tracealloc/src/mappings.cpp`.

Conventions of the embedding:

* the passthrough layer of `common.cpp` has its own state `Boot` (flags, arena
  pointers, how often the thread holds `g_initOrigMutex`, the calls through
  the pointers `g_orig_*`); arithmetic on `size_t` and `uintptr_t` there is
  taken modulo `2 ^ 64` with `wrap64`;
* the module map of `mappings.cpp` is the state `Mappings`; what
  `dl_iterate_phdr` reports at the moment of a refresh is an argument;
* a call of the C library that C leaves undefined (a null pointer given to
  `strtoull`) ends the run: the function returns `none`;

* pointers, sizes and kind handles are natural numbers, `0` is `nullptr`;
* a `Handler *` is the index of the handler object in `World.heap` (handler
  objects are created by `Handler::get` and never deleted);
* `std::map<uintptr_t, Alloc>` is a list of pairs kept in key order;
* the backing allocators are outside the program: every call the source makes
  to the passthrough layer (`orig_*`), to memkind or to `memcpy` is appended to
  `World.calls` together with the answer it got, and the answer is taken from
  the `Oracle` argument of the operation; allocations the C++ runtime makes
  for the library's own containers are not listed;
* locks are not modelled, operations run one at a time;
* an operation on a `this` pointer that is no handler object is outside the
  program; the embedding leaves the state as it is there;
* the time stamp of a trace line is left out of `LogLine`.
-/

namespace trac

/-- The type `memkind_t`: a pointer to a kind, `0` is `nullptr`. -/
abbrev memkind_t := Nat

/-- The struct `Handler::Alloc`. -/
structure Alloc where
  size : Nat
  kind : memkind_t
deriving DecidableEq, Repr

/-- The struct `Mappings::LibAddr`. -/
structure LibAddr where
  index : Nat
  offset : Nat
deriving DecidableEq, Repr

/-- One line written by `Handler::log`: sign, base, size and stack. -/
structure LogLine where
  alloc : Bool
  base : Nat
  size : Nat
  stack : List LibAddr
deriving DecidableEq, Repr

/-- A call to a backing allocator (or to `memcpy`) with the answer it returned. -/
inductive Call where
  | orig_malloc (size ret : Nat)
  | orig_calloc (count unit ret : Nat)
  | orig_posix_memalign (bound size err ptr : Nat)
  | orig_realloc (ptr size ret : Nat)
  | orig_free (ptr : Nat)
  | orig_malloc_usable_size (ptr ret : Nat)
  | memkind_malloc (kind : memkind_t) (size ret : Nat)
  | memkind_calloc (kind : memkind_t) (count unit ret : Nat)
  | memkind_posix_memalign (kind : memkind_t) (bound size err ptr : Nat)
  | memkind_realloc (kind : memkind_t) (ptr size ret : Nat)
  | memkind_free (kind : memkind_t) (ptr : Nat)
  | memcpy (dst src n : Nat)
deriving DecidableEq, Repr

/-- What the outside world answers during one operation: the pointer the
backing allocation call returns, the status of `posix_memalign`, the value of
`malloc_usable_size`, and the resolved frames of the call stack. -/
structure Oracle where
  ret : Nat
  err : Nat
  usable : Nat
  bt : List LibAddr
deriving DecidableEq, Repr

/-! ## The allocation table (`std::map<uintptr_t, Alloc>`) -/

/-- The call `m_allocs.find(base)`. -/
def mapFind : List (Nat × Alloc) → Nat → Option Alloc
  | [], _ => none
  | (k, v) :: m, base => if k = base then some v else mapFind m base

/-- The place of a new key in the key order of the map. -/
def mapInsert : List (Nat × Alloc) → Nat → Alloc → List (Nat × Alloc)
  | [], base, info => [(base, info)]
  | (k, v) :: m, base, info =>
    if base < k then (base, info) :: (k, v) :: m
    else (k, v) :: mapInsert m base info

/-- The call `m_allocs.emplace(base, info)`: leaves the map as it is when the
key is already present, and else inserts the pair in key order. -/
def mapEmplace (m : List (Nat × Alloc)) (base : Nat) (info : Alloc) : List (Nat × Alloc) :=
  match mapFind m base with
  | some _ => m
  | none => mapInsert m base info

/-- The call `m_allocs.erase(base)`. -/
def mapErase (m : List (Nat × Alloc)) (base : Nat) : List (Nat × Alloc) :=
  m.filter (fun e => decide (e.1 ≠ base))

/-! ## Handler objects -/

/-- The members of `class Handler`; `m_log = none` is a null `FILE *`, and
`m_stackbuf` is non-null exactly when `m_stacklevels` is non-zero. -/
structure Handler where
  m_id : Nat
  m_allocs : List (Nat × Alloc)
  m_log : Option (List LogLine)
  m_threshold : Nat
  m_stacklevels : Nat
  m_stackoffset : Nat
deriving DecidableEq, Repr

/-- The values the constructor of `Handler` reads from the environment:
whether `fopen` of the log file gave a stream, and the numbers `strtoul`
makes of `TRAC_THRESHOLD` and `TRAC_STACKLEVELS` (`none` when unset). -/
structure Env where
  logOpen : Bool
  threshold : Option Nat
  stacklevels : Option Nat
deriving DecidableEq, Repr

/-- The constructor `Handler::Handler(id)`. -/
def Handler.new (id : Nat) (env : Env) : Handler :=
  { m_id := id
    m_allocs := []
    m_log := if env.logOpen then some [] else none
    m_threshold := env.threshold.getD 0
    m_stacklevels := env.stacklevels.getD 0
    m_stackoffset := 3 }

/-- The method `Handler::localAllocLookup`. -/
def Handler.localAllocLookup (h : Handler) (base : Nat) : Option Alloc :=
  mapFind h.m_allocs base

/-- The method `Handler::stack`: `none` is the null buffer; otherwise the
frames from `m_stackoffset` on, out of the first `m_stacklevels + m_stackoffset`. -/
def Handler.stack (h : Handler) (bt : List LibAddr) : Option (List LibAddr) :=
  if h.m_stacklevels = 0 then none
  else some ((bt.take (h.m_stacklevels + h.m_stackoffset)).drop h.m_stackoffset)

/-- The method `Handler::log`: nothing without a stream, else one line. -/
def Handler.log (h : Handler) (alloc : Bool) (base size : Nat)
    (sbuf : Option (List LibAddr)) : Handler :=
  match h.m_log with
  | none => h
  | some lines => { h with m_log := some (lines ++ [⟨alloc, base, size, sbuf.getD []⟩]) }

/-- The method `Handler::allocInsert`. -/
def Handler.allocInsert (h : Handler) (base : Nat) (info : Alloc) : Handler :=
  { h with m_allocs := mapEmplace h.m_allocs base info }

/-- The method `Handler::allocRemove`. -/
def Handler.allocRemove (h : Handler) (base : Nat) : Handler :=
  { h with m_allocs := mapErase h.m_allocs base }

/-! ## Process state -/

/-- The process-wide state the handlers and shims work on. -/
structure World where
  /-- every handler object made by `Handler::get`, a `Handler *` is an index -/
  heap : List Handler
  /-- the registry `Handler::s_handlers` -/
  s_handlers : List Nat
  /-- the static `Handler::s_memkind`, as `createMemkind` leaves it -/
  s_memkind : memkind_t
  /-- the handle `MEMKIND_DEFAULT` of the memkind library -/
  MEMKIND_DEFAULT : memkind_t
  /-- the environment a new handler reads -/
  env : Env
  g_ready : Bool
  g_fallbackBeg : Nat
  g_fallbackEnd : Nat
  /-- the backing calls made so far, oldest first -/
  calls : List Call
deriving DecidableEq, Repr

/-- The thread-local variables of the interposer. -/
structure Thread where
  t_nested : Bool
  t_handler : Option Nat
deriving DecidableEq, Repr

/-- Applies `f` to the handler object behind pointer `p`. -/
def updHandler (heap : List Handler) (p : Nat) (f : Handler → Handler) : List Handler :=
  match heap[p]? with
  | some h => heap.set p (f h)
  | none => heap

/-- Appends one backing call to the record of calls. -/
def World.call (w : World) (c : Call) : World :=
  { w with calls := w.calls ++ [c] }

/-- The call `p->allocInsert(base, info)`. -/
def World.allocInsert (w : World) (p base : Nat) (info : Alloc) : World :=
  { w with heap := updHandler w.heap p (fun h => h.allocInsert base info) }

/-- The call `p->allocRemove(base)`. -/
def World.allocRemove (w : World) (p base : Nat) : World :=
  { w with heap := updHandler w.heap p (fun h => h.allocRemove base) }

/-- The call `p->log(alloc, base, size, sbuf, snum)`. -/
def World.log (w : World) (p : Nat) (alloc : Bool) (base size : Nat)
    (sbuf : Option (List LibAddr)) : World :=
  { w with heap := updHandler w.heap p (fun h => h.log alloc base size sbuf) }

/-- The loop of `Handler::globalAllocLookup` over the registry. -/
def globalLookupIn (heap : List Handler) (base : Nat) (exclude : Option Nat) :
    List Nat → Option (Nat × Alloc)
  | [] => none
  | p :: ps =>
    if some p ≠ exclude then
      match (heap[p]?).bind (fun h => h.localAllocLookup base) with
      | some info => some (p, info)
      | none => globalLookupIn heap base exclude ps
    else globalLookupIn heap base exclude ps

/-- The static method `Handler::globalAllocLookup`. -/
def World.globalAllocLookup (w : World) (base : Nat) (exclude : Option Nat) :
    Option (Nat × Alloc) :=
  globalLookupIn w.heap base exclude w.s_handlers

/-- The method `Handler::allocLookup` of the handler `self`: the owning
handler and the record. -/
def World.allocLookup (w : World) (self base : Nat) : Option (Nat × Alloc) :=
  match (w.heap[self]?).bind (fun h => h.localAllocLookup base) with
  | some info => some (self, info)
  | none => w.globalAllocLookup base (some self)

/-- The static method `Handler::getMemkind`, once `createMemkind` has run. -/
def World.getMemkind (w : World) : memkind_t :=
  if w.s_memkind = 0 then w.MEMKIND_DEFAULT else w.s_memkind

/-- The method `Handler::select`. -/
def World.select (w : World) (_size : Nat) (_stackbuf : Option (List LibAddr)) : memkind_t :=
  w.getMemkind

/-- The static method `Handler::get`: a new handler object, registered. -/
def Handler.get (w : World) : World × Nat :=
  ({ w with heap := w.heap ++ [Handler.new w.s_handlers.length w.env]
            s_handlers := w.s_handlers ++ [w.heap.length] }, w.heap.length)

/-! ## The operations of `Handler` -/

/-- The product of two `size_t` values: 64 bits, wrapping. -/
def mulSize (a b : Nat) : Nat :=
  (a * b) % 2 ^ 64

/-- The method `Handler::malloc`; `self` is the `this` pointer. -/
def Handler.malloc (w : World) (self size : Nat) (o : Oracle) : World × Nat :=
  match w.heap[self]? with
  | none => (w, 0)
  | some h =>
    if size < h.m_threshold then
      let ptr := o.ret
      let w1 := w.call (.orig_malloc size ptr)
      if ptr ≠ 0 then (w1.allocInsert self ptr ⟨size, 0⟩, ptr) else (w1, ptr)
    else
      let stackbuf := h.stack o.bt
      let kind := w.select size stackbuf
      let ptr := o.ret
      let w1 := w.call (.memkind_malloc kind size ptr)
      if ptr ≠ 0 then
        ((w1.log self true ptr size stackbuf).allocInsert self ptr ⟨size, kind⟩, ptr)
      else (w1, ptr)

/-- The method `Handler::calloc`; the product is taken in `size_t`. -/
def Handler.calloc (w : World) (self count unit : Nat) (o : Oracle) : World × Nat :=
  match w.heap[self]? with
  | none => (w, 0)
  | some h =>
    let size := mulSize count unit
    if size < h.m_threshold then
      let ptr := o.ret
      let w1 := w.call (.orig_calloc count unit ptr)
      if ptr ≠ 0 then (w1.allocInsert self ptr ⟨size, 0⟩, ptr) else (w1, ptr)
    else
      let stackbuf := h.stack o.bt
      let kind := w.select size stackbuf
      let ptr := o.ret
      let w1 := w.call (.memkind_calloc kind count unit ptr)
      if ptr ≠ 0 then
        ((w1.log self true ptr size stackbuf).allocInsert self ptr ⟨size, kind⟩, ptr)
      else (w1, ptr)

/-- The method `Handler::memalign`; `pptr` is the value of `*pptr` on entry,
the result is the status and the value of `*pptr` on return (the backing
writes it on success only). -/
def Handler.memalign (w : World) (self pptr bound size : Nat) (o : Oracle) :
    World × Nat × Nat :=
  match w.heap[self]? with
  | none => (w, o.err, pptr)
  | some h =>
    if size < h.m_threshold then
      let err := o.err
      let w1 := w.call (.orig_posix_memalign bound size err o.ret)
      if err = 0 then (w1.allocInsert self o.ret ⟨size, 0⟩, err, o.ret) else (w1, err, pptr)
    else
      let stackbuf := h.stack o.bt
      let kind := w.select size stackbuf
      let err := o.err
      let w1 := w.call (.memkind_posix_memalign kind bound size err o.ret)
      if err = 0 then
        ((w1.log self true o.ret size stackbuf).allocInsert self o.ret ⟨size, kind⟩, err, o.ret)
      else (w1, err, pptr)

/-- The method `Handler::realloc`; `pptr` is the value of `*pptr` on entry,
the result is the returned flag and the value of `*pptr` on return. -/
def Handler.realloc (w : World) (self pptr size : Nat) (o : Oracle) : World × Bool × Nat :=
  match w.heap[self]? with
  | none => (w, false, pptr)
  | some h =>
    let oldptr := pptr
    match w.allocLookup self oldptr with
    | none => (w, false, pptr)
    | some (home, oldinfo) =>
      let newptr := o.ret
      if size < h.m_threshold then
        let w1 :=
          if oldinfo.kind ≠ 0 then w.call (.memkind_realloc oldinfo.kind oldptr size newptr)
          else w.call (.orig_realloc oldptr size newptr)
        if newptr ≠ 0 then
          let w2 :=
            if oldinfo.size ≥ h.m_threshold then
              w1.log self false oldptr oldinfo.size (h.stack o.bt)
            else w1
          ((w2.allocRemove home oldptr).allocInsert self newptr ⟨size, oldinfo.kind⟩,
            true, newptr)
        else (w1, true, newptr)
      else
        let stackbuf := h.stack o.bt
        let newkind := w.select size stackbuf
        let w1 :=
          if oldinfo.kind = newkind then
            w.call (.memkind_realloc oldinfo.kind oldptr size newptr)
          else
            let wm := w.call (.memkind_malloc newkind size newptr)
            if newptr ≠ 0 then
              let wc := wm.call
                (.memcpy newptr oldptr (if oldinfo.size < size then oldinfo.size else size))
              if oldinfo.kind ≠ 0 then wc.call (.memkind_free oldinfo.kind oldptr)
              else wc.call (.orig_free oldptr)
            else wm
        if newptr ≠ 0 then
          let w2 :=
            if oldinfo.size ≥ h.m_threshold then
              w1.log self false oldptr oldinfo.size stackbuf
            else w1
          let w3 := w2.log self true newptr size stackbuf
          ((w3.allocRemove home oldptr).allocInsert self newptr ⟨size, newkind⟩,
            true, newptr)
        else (w1, true, newptr)

/-- The method `Handler::free`. -/
def Handler.free (w : World) (self ptr : Nat) (o : Oracle) : World × Bool :=
  match w.heap[self]? with
  | none => (w, false)
  | some h =>
    match w.allocLookup self ptr with
    | none => (w, false)
    | some (home, info) =>
      let w1 :=
        if info.kind ≠ 0 then w.call (.memkind_free info.kind ptr)
        else w.call (.orig_free ptr)
      let w2 :=
        if info.size ≥ h.m_threshold then w1.log self false ptr info.size (h.stack o.bt)
        else w1
      (w2.allocRemove home ptr, true)

/-- The method `Handler::getsize`: the recorded size, `none` for `false`. -/
def Handler.getsize (w : World) (self ptr : Nat) : Option Nat :=
  (w.allocLookup self ptr).map (fun r => r.2.size)

end trac

/-! ## The shims of `interposer.cpp` -/

namespace interposer

open trac

/-- The function `trac::check_fallback` of `common.cpp`. -/
def check_fallback (w : World) (ptr : Nat) : Bool :=
  decide (w.g_fallbackBeg ≤ ptr) && decide (ptr < w.g_fallbackEnd)

/-- The lines `if (!t_handler) t_handler = trac::Handler::get();`. -/
def install (w : World) (t : Thread) : World × Nat :=
  match t.t_handler with
  | some hd => (w, hd)
  | none => Handler.get w

/-- The shim `malloc`. -/
def malloc (w : World) (t : Thread) (size : Nat) (o : Oracle) : World × Thread × Nat :=
  if !w.g_ready || t.t_nested then (w.call (.orig_malloc size o.ret), t, o.ret)
  else
    let (w0, hd) := install w t
    let (w1, res) := Handler.malloc w0 hd size o
    (w1, ⟨false, some hd⟩, res)

/-- The shim `realloc`. -/
def realloc (w : World) (t : Thread) (ptr size : Nat) (o : Oracle) : World × Thread × Nat :=
  if !w.g_ready || t.t_nested then (w.call (.orig_realloc ptr size o.ret), t, o.ret)
  else
    let (w0, hd) := install w t
    if ptr = 0 then
      let (w1, res) := Handler.malloc w0 hd size o
      (w1, ⟨false, some hd⟩, res)
    else
      let (w1, known, res) := Handler.realloc w0 hd ptr size o
      if known then (w1, ⟨false, some hd⟩, res)
      else
        let oldsize := o.usable
        let w2 := w1.call (.orig_malloc_usable_size ptr oldsize)
        let (w3, res) := Handler.malloc w2 hd size o
        let size := if oldsize < size then oldsize else size
        let w4 := w3.call (.memcpy res ptr size)
        let w5 := w4.call (.orig_free ptr)
        (w5, ⟨false, some hd⟩, res)

/-- The shim `free`; the test `!g_ready || t_nested || !t_handler` is taken
by cases on `t_handler`. -/
def free (w : World) (t : Thread) (ptr : Nat) (o : Oracle) : World × Thread :=
  if ptr = 0 ∨ check_fallback w ptr = true then (w, t)
  else
    match t.t_handler with
    | none => (w.call (.orig_free ptr), t)
    | some hd =>
      if !w.g_ready || t.t_nested then (w.call (.orig_free ptr), t)
      else
        let (w1, known) := Handler.free w hd ptr o
        let w2 := if known then w1 else w1.call (.orig_free ptr)
        (w2, { t with t_nested := false })

end interposer

/-! ## Sequences of handler operations and the view of the backings -/

namespace trac

/-- One operation of a handler, with the answers of the outside world. -/
inductive Op where
  | malloc (self size : Nat) (o : Oracle)
  | calloc (self count unit : Nat) (o : Oracle)
  | memalign (self pptr bound size : Nat) (o : Oracle)
  | realloc (self pptr size : Nat) (o : Oracle)
  | free (self ptr : Nat) (o : Oracle)
deriving DecidableEq, Repr

/-- The state after one operation. -/
def step (w : World) : Op → World
  | .malloc self size o => (Handler.malloc w self size o).1
  | .calloc self count unit o => (Handler.calloc w self count unit o).1
  | .memalign self pptr bound size o => (Handler.memalign w self pptr bound size o).1
  | .realloc self pptr size o => (Handler.realloc w self pptr size o).1
  | .free self ptr o => (Handler.free w self ptr o).1

/-- The state after a sequence of operations. -/
def run (w : World) (ops : List Op) : World :=
  ops.foldl step w

/-- The handler an operation is issued on. -/
def Op.self : Op → Nat
  | .malloc self _ _ => self
  | .calloc self _ _ _ => self
  | .memalign self _ _ _ _ => self
  | .realloc self _ _ _ => self
  | .free self _ _ => self

/-- Is the operation a reallocation? -/
def Op.isRealloc : Op → Bool
  | .realloc _ _ _ _ => true
  | _ => false

/-- The ledger of live allocations as the callers see it, written after the
specification: an allocation that succeeds (non-null result, status `0` for
`memalign`) adds the pair of the address returned and the size asked for, a
free that succeeds (the handler returns `true`) takes the pair of the freed
address away.  Reallocations are not entered. -/
def ledgerStep (w : World) (live : List (Nat × Nat)) : Op → List (Nat × Nat)
  | .malloc self size o =>
    if (Handler.malloc w self size o).2 ≠ 0 then
      ((Handler.malloc w self size o).2, size) :: live
    else live
  | .calloc self count unit o =>
    if (Handler.calloc w self count unit o).2 ≠ 0 then
      ((Handler.calloc w self count unit o).2, mulSize count unit) :: live
    else live
  | .memalign self pptr bound size o =>
    if (Handler.memalign w self pptr bound size o).2.1 = 0 then
      ((Handler.memalign w self pptr bound size o).2.2, size) :: live
    else live
  | .realloc _ _ _ _ => live
  | .free self ptr o =>
    if (Handler.free w self ptr o).2 = true then live.eraseP (fun e => decide (e.1 = ptr))
    else live

/-- The ledger after a sequence of operations. -/
def ledger (w : World) (live : List (Nat × Nat)) : List Op → List (Nat × Nat)
  | [] => live
  | op :: ops => ledger (step w op) (ledgerStep w live op) ops

/-- An allocator behind the handler: the passthrough or a memkind kind. -/
inductive Backing where
  | passthrough
  | kind (k : memkind_t)
deriving DecidableEq, Repr

/-- The backing a table record names: `nullptr` is the passthrough. -/
def backingOf (k : memkind_t) : Backing :=
  if k = 0 then .passthrough else .kind k

/-- For every address, the backing that holds it at the moment, if any. -/
abbrev Holder := Nat → Option Backing

/-- No address is held. -/
def Holder.empty : Holder := fun _ => none

/-- The holder with address `a` changed. -/
def Holder.put (hold : Holder) (a : Nat) (b : Option Backing) : Holder :=
  fun x => if x = a then b else hold x

/-- The effect of one backing call on who holds what: an allocation that
succeeds gives the returned address to its backing, a free releases the
address, a reallocation that succeeds does both, and a call that fails (null,
or a non-zero status) changes nothing. -/
def holdStep (hold : Holder) : Call → Holder
  | .orig_malloc _ ret => if ret = 0 then hold else hold.put ret (some .passthrough)
  | .orig_calloc _ _ ret => if ret = 0 then hold else hold.put ret (some .passthrough)
  | .orig_posix_memalign _ _ err ptr =>
    if err = 0 then hold.put ptr (some .passthrough) else hold
  | .orig_realloc ptr _ ret =>
    if ret = 0 then hold else (hold.put ptr none).put ret (some .passthrough)
  | .orig_free ptr => hold.put ptr none
  | .orig_malloc_usable_size _ _ => hold
  | .memkind_malloc k _ ret => if ret = 0 then hold else hold.put ret (some (.kind k))
  | .memkind_calloc k _ _ ret => if ret = 0 then hold else hold.put ret (some (.kind k))
  | .memkind_posix_memalign k _ _ err ptr =>
    if err = 0 then hold.put ptr (some (.kind k)) else hold
  | .memkind_realloc k ptr _ ret =>
    if ret = 0 then hold else (hold.put ptr none).put ret (some (.kind k))
  | .memkind_free _ ptr => hold.put ptr none
  | .memcpy _ _ _ => hold

/-- Who holds what after a list of backing calls. -/
def holdAfter (hold : Holder) (cs : List Call) : Holder :=
  cs.foldl holdStep hold

/-- A free or reallocation call is routed when the pointer it hands over is
held by the very backing that is called. -/
def Call.routed (hold : Holder) : Call → Bool
  | .orig_realloc ptr _ _ => decide (hold ptr = some .passthrough)
  | .orig_free ptr => decide (hold ptr = some .passthrough)
  | .memkind_realloc k ptr _ _ => decide (hold ptr = some (.kind k))
  | .memkind_free k ptr => decide (hold ptr = some (.kind k))
  | _ => true

/-- A backing answers well when an address it returns is not held by anyone
at that moment; a reallocation may return the address it was given. -/
def Call.fresh (hold : Holder) : Call → Bool
  | .orig_malloc _ ret => decide (ret = 0 ∨ hold ret = none)
  | .orig_calloc _ _ ret => decide (ret = 0 ∨ hold ret = none)
  | .orig_posix_memalign _ _ err ptr => decide (err ≠ 0 ∨ hold ptr = none)
  | .orig_realloc ptr _ ret => decide (ret = 0 ∨ ret = ptr ∨ hold ret = none)
  | .memkind_malloc _ _ ret => decide (ret = 0 ∨ hold ret = none)
  | .memkind_calloc _ _ _ ret => decide (ret = 0 ∨ hold ret = none)
  | .memkind_posix_memalign _ _ _ err ptr => decide (err ≠ 0 ∨ hold ptr = none)
  | .memkind_realloc _ ptr _ ret => decide (ret = 0 ∨ ret = ptr ∨ hold ret = none)
  | _ => true

/-- The check `P` holds of every call of the list, each at its moment. -/
def traceAll (P : Holder → Call → Bool) (hold : Holder) : List Call → Bool
  | [] => true
  | c :: cs => P hold c && traceAll P (holdStep hold c) cs

/-- Every record of every handler object, table after table. -/
def allRecords (heap : List Handler) : List (Nat × Alloc) :=
  heap.flatMap (fun h => h.m_allocs)

/-- The pairs (address, size) of all records. -/
def liveRecords (heap : List Handler) : List (Nat × Nat) :=
  (allRecords heap).map (fun e => (e.1, e.2.size))

/-- The tables agree with the backings: no address is recorded twice (in one
table or in two), and every record names the backing that holds its address. -/
def Inv (heap : List Handler) (hold : Holder) : Prop :=
  ((allRecords heap).map Prod.fst).Nodup ∧
    ∀ e ∈ allRecords heap, hold e.1 = some (backingOf e.2.kind)

/-- The state `L` comes from `w` by the backing calls `cs` and by writing to
logs: the tables are those of `w`. -/
def Ext (w L : World) (cs : List Call) : Prop :=
  L.calls = w.calls ++ cs ∧ L.MEMKIND_DEFAULT = w.MEMKIND_DEFAULT ∧
    L.s_memkind = w.s_memkind ∧ L.heap.map Handler.m_allocs = w.heap.map Handler.m_allocs

/-- What one operation does to the record of calls and to the tables, as far
as the routing is concerned: it appends calls, and when the backings answer
these well the tables agree with the backings again and the new calls are
routed. -/
def Keeps (w w2 : World) : Prop :=
  w2.MEMKIND_DEFAULT = w.MEMKIND_DEFAULT ∧ w2.s_memkind = w.s_memkind ∧
  ∃ new, w2.calls = w.calls ++ new ∧
    (traceAll Call.fresh (holdAfter Holder.empty w.calls) new = true →
      Inv w.heap (holdAfter Holder.empty w.calls) → w.MEMKIND_DEFAULT ≠ 0 →
      Inv w2.heap (holdAfter Holder.empty w2.calls) ∧
        traceAll Call.routed (holdAfter Holder.empty w.calls) new = true)

end trac

namespace trac

/-- The allocation policy of a handler, for a request of `size` bytes whose
passthrough call is `passCall` and whose call on kind `k` is `kindCall k`, with
`res` the state and pointer the operation gives: the result is the answer of
the backing; the one backing call is the passthrough below the threshold and
the selected kind from the threshold on; a null answer leaves every handler
object (tables and logs) as it was; a non-null answer changes the calling
handler only: below the threshold it emplaces `{size, nullptr}` under the
address and writes no line, from the threshold on it writes the one line `+`
for (address, size) and emplaces `{size, kind}`; and the emplaced record is the
one found under the address when the address was not a key before. -/
def AllocPolicy (w : World) (self : Nat) (hs : Handler) (o : Oracle) (size : Nat)
    (passCall : Call) (kindCall : memkind_t → Call) (res : World × Nat) : Prop :=
  res.2 = o.ret ∧
  res.1.calls = w.calls ++
    [if size < hs.m_threshold then passCall else kindCall (w.select size (hs.stack o.bt))] ∧
  (o.ret = 0 → res.1.heap = w.heap) ∧
  (o.ret ≠ 0 → ∀ (q : Nat) (hq : Handler), w.heap[q]? = some hq →
    res.1.heap[q]? = some
      (if q = self then
        if size < hs.m_threshold then
          { hq with m_allocs := mapEmplace hq.m_allocs o.ret ⟨size, 0⟩ }
        else
          { hq with
            m_log := hq.m_log.map
              (fun l => l ++ [⟨true, o.ret, size, (hs.stack o.bt).getD []⟩])
            m_allocs :=
              mapEmplace hq.m_allocs o.ret ⟨size, w.select size (hs.stack o.bt)⟩ }
      else hq)) ∧
  (∀ info : Alloc, mapFind hs.m_allocs o.ret = none →
    mapFind (mapEmplace hs.m_allocs o.ret info) o.ret = some info)

end trac

/-! ## Sample states -/

namespace Sample

open trac

/-- An oracle whose allocation answer is `ret`, with usable size `16`. -/
def answer (ret : Nat) : Oracle := ⟨ret, 0, 16, []⟩

/-- Handler `A`: threshold `0x40`, a stream, and one record `100 ↦ {128, kind 7}`. -/
def hA : Handler := ⟨0, [(100, ⟨128, 7⟩)], some [], 64, 0, 3⟩

/-- Handler `B`: threshold `0x40`, a stream, and one record `200 ↦ {32, untagged}`. -/
def hB : Handler := ⟨1, [(200, ⟨32, 0⟩)], some [], 64, 0, 3⟩

/-- A ready process with the handlers `A` and `B`, the pmem kind `7`. -/
def world : World :=
  ⟨[hA, hB], [0, 1], 7, 1, ⟨true, some 64, none⟩, true, 5000, 6000, []⟩

/-- The same process before any allocation: both tables empty. -/
def fresh : World :=
  ⟨[{ hA with m_allocs := [] }, { hB with m_allocs := [] }], [0, 1], 7, 1,
    ⟨true, some 64, none⟩, true, 5000, 6000, []⟩

/-- A run: `A` allocates 128 bytes, `B` allocates 16 bytes, `B` reallocates the
block of `A` to 32 bytes, `A` frees the block of `B`. -/
def ops : List Op :=
  [.malloc 0 128 (answer 100), .malloc 1 16 (answer 200), .realloc 1 100 32 (answer 300),
    .free 0 200 (answer 0)]

/-- A run of allocations and frees only. -/
def opsAF : List Op :=
  [.malloc 0 128 (answer 100), .calloc 1 4 4 (answer 200), .free 1 100 (answer 0),
    .memalign 0 0 64 256 (answer 100)]

end Sample


/-! ## The passthrough layer of `common.cpp` -/

namespace trac

/-- The value of a sum or difference in `size_t` or `uintptr_t`: 64 bits. -/
def wrap64 (n : Nat) : Nat :=
  n % 2 ^ 64

/-- Leading zero bits of `x` among the lowest `fuel` bits. -/
def clzlAux : Nat → Nat → Nat
  | 0, _ => 0
  | fuel + 1, x => if x / 2 ^ fuel % 2 = 1 then 0 else clzlAux fuel x + 1

/-- The builtin `__builtin_clzl(x)` on 64 bits; C leaves it undefined at `0`. -/
def clzl (x : Nat) : Nat :=
  clzlAux 64 x

/-- The function `align(value, bound)`: the mask is `(1ul << (64 - clzl(bound))) - 1`,
the result `(value + mask) & ~mask`, all in 64 bits.  For a bound of `2 ^ 63`
or more the shift is by 64, which C leaves undefined. -/
def align (value bound : Nat) : Nat :=
  let mask := wrap64 (wrap64 (1 <<< (64 - clzl bound)) + (2 ^ 64 - 1))
  wrap64 (value + mask) &&& (2 ^ 64 - 1 - mask)

/-- The value `ENOMEM` of `errno.h`. -/
def ENOMEM : Nat := 12

/-- A call through one of the resolved function pointers `g_orig_*`, with the
answer it returned. -/
inductive UCall where
  | dlopen (ret : Nat)
  | dlclose (handle ret : Nat)
  | malloc (size ret : Nat)
  | calloc (count unit ret : Nat)
  | posix_memalign (bound size err ptr : Nat)
  | realloc (ptr size ret : Nat)
  | free (ptr : Nat)
  | malloc_usable_size (ptr ret : Nat)
deriving DecidableEq, Repr

/-- A request that reaches the passthrough layer from inside `dlsym`, while
`initOrig` resolves the symbols. -/
inductive Req where
  | malloc (size : Nat)
  | calloc (count unit : Nat)
  | posix_memalign (pptr bound size : Nat)
  | realloc (ptr size : Nat)
  | free (ptr : Nat)
  | malloc_usable_size (ptr : Nat)
deriving DecidableEq, Repr

/-- The globals of `common.cpp`, as one thread sees them: the flags
`g_haveOrig` and `g_recurse`, the arena pointers, how often the thread holds
the recursive mutex `g_initOrigMutex`, and the calls made through `g_orig_*`,
oldest first. -/
structure Boot where
  g_haveOrig : Bool
  g_recurse : Bool
  g_fallbackBeg : Nat
  g_fallbackCur : Nat
  g_fallbackEnd : Nat
  held : Nat
  under : List UCall
deriving DecidableEq, Repr

/-- The globals at process start, with the buffer `g_fallbackBuffer` of
`1024 * 1024` bytes at address `buffer`. -/
def Boot.start (buffer : Nat) : Boot :=
  { g_haveOrig := false
    g_recurse := false
    g_fallbackBeg := buffer
    g_fallbackCur := buffer
    g_fallbackEnd := buffer + 1024 * 1024
    held := 0
    under := [] }

/-- The call `pthread_mutex_lock(&g_initOrigMutex)`. -/
def Boot.lock (b : Boot) : Boot :=
  { b with held := b.held + 1 }

/-- The call `pthread_mutex_unlock(&g_initOrigMutex)`. -/
def Boot.unlock (b : Boot) : Boot :=
  { b with held := b.held - 1 }

/-- Appends one call through a pointer `g_orig_*`. -/
def Boot.call (b : Boot) (c : UCall) : Boot :=
  { b with under := b.under ++ [c] }

/-- The function `fallback_alloc(bound, size)`: the new state and the pointer. -/
def Boot.fallback_alloc (b : Boot) (bound size : Nat) : Boot × Nat :=
  let ptr := align b.g_fallbackCur bound
  let cur := wrap64 (ptr + size)
  if cur ≤ b.g_fallbackEnd then ({ b with g_fallbackCur := cur }, ptr) else (b, 0)

/-- The function `check_fallback(ptr)`. -/
def Boot.check_fallback (b : Boot) (ptr : Nat) : Bool :=
  decide (b.g_fallbackBeg ≤ ptr) && decide (ptr < b.g_fallbackEnd)

/-- The lines `else if (!g_haveOrig) { initOrig(); }` and the unlock after
them, with `init` for `initOrig`. -/
def Boot.resolve (init : Boot → Boot) (b : Boot) : Boot :=
  (if !b.g_haveOrig then init b else b).unlock

/-- The function `orig_malloc`, with `init` for `initOrig`. -/
def Boot.mallocWith (init : Boot → Boot) (b : Boot) (size : Nat) (o : Oracle) : Boot × Nat :=
  if b.g_haveOrig then (b.call (.malloc size o.ret), o.ret)
  else
    let b1 := b.lock
    if b1.g_recurse then b1.fallback_alloc 16 size
    else ((b1.resolve init).call (.malloc size o.ret), o.ret)

/-- The function `orig_calloc`, with `init` for `initOrig`. -/
def Boot.callocWith (init : Boot → Boot) (b : Boot) (count unit : Nat) (o : Oracle) :
    Boot × Nat :=
  if b.g_haveOrig then (b.call (.calloc count unit o.ret), o.ret)
  else
    let b1 := b.lock
    if b1.g_recurse then b1.fallback_alloc 16 (mulSize count unit)
    else ((b1.resolve init).call (.calloc count unit o.ret), o.ret)

/-- The function `orig_posix_memalign`, with `init` for `initOrig`; `pptr` is
the value of `*pptr` on entry, the result is the status and the value of
`*pptr` on return (the underlying function writes it on success only). -/
def Boot.memalignWith (init : Boot → Boot) (b : Boot) (pptr bound size : Nat) (o : Oracle) :
    Boot × Nat × Nat :=
  if b.g_haveOrig then
    (b.call (.posix_memalign bound size o.err o.ret), o.err, if o.err = 0 then o.ret else pptr)
  else
    let b1 := b.lock
    if b1.g_recurse then
      let (b2, res) := b1.fallback_alloc bound size
      if res ≠ 0 then (b2, 0, res) else (b2, ENOMEM, pptr)
    else
      ((b1.resolve init).call (.posix_memalign bound size o.err o.ret), o.err,
        if o.err = 0 then o.ret else pptr)

/-- The function `orig_realloc`, with `init` for `initOrig`. -/
def Boot.reallocWith (init : Boot → Boot) (b : Boot) (ptr size : Nat) (o : Oracle) :
    Boot × Nat :=
  if b.g_fallbackBeg ≤ ptr ∧ ptr < b.g_fallbackEnd then (b, 0)
  else if b.g_haveOrig then (b.call (.realloc ptr size o.ret), o.ret)
  else
    let b1 := b.lock
    if b1.g_recurse then
      if ptr = 0 then b1.fallback_alloc 16 size else (b1, 0)
    else ((b1.resolve init).call (.realloc ptr size o.ret), o.ret)

/-- The function `orig_free`, with `init` for `initOrig`. -/
def Boot.freeWith (init : Boot → Boot) (b : Boot) (ptr : Nat) : Boot :=
  if ptr = 0 ∨ (b.g_fallbackBeg ≤ ptr ∧ ptr < b.g_fallbackEnd) then b
  else if b.g_haveOrig then b.call (.free ptr)
  else
    let b1 := b.lock
    if b1.g_recurse then b1
    else (b1.resolve init).call (.free ptr)

/-- The function `orig_malloc_usable_size`, with `init` for `initOrig`. -/
def Boot.usableWith (init : Boot → Boot) (b : Boot) (ptr : Nat) (o : Oracle) : Boot × Nat :=
  if ptr = 0 ∨ (b.g_fallbackBeg ≤ ptr ∧ ptr < b.g_fallbackEnd) then (b, 0)
  else if b.g_haveOrig then (b.call (.malloc_usable_size ptr o.usable), o.usable)
  else
    let b1 := b.lock
    if b1.g_recurse then (b1, 0)
    else ((b1.resolve init).call (.malloc_usable_size ptr o.usable), o.usable)

/-- The function `orig_dlopen`, with `init` for `initOrig`. -/
def Boot.dlopenWith (init : Boot → Boot) (b : Boot) (o : Oracle) : Boot × Nat :=
  if b.g_haveOrig then (b.call (.dlopen o.ret), o.ret)
  else
    let b1 := b.lock
    if b1.g_recurse then (b1, 0)
    else ((b1.resolve init).call (.dlopen o.ret), o.ret)

/-- The function `orig_dlclose`, with `init` for `initOrig`; the status `-1`
is the value `2 ^ 32 - 1` of the `int`. -/
def Boot.dlcloseWith (init : Boot → Boot) (b : Boot) (handle : Nat) (o : Oracle) :
    Boot × Nat :=
  if b.g_haveOrig then (b.call (.dlclose handle o.err), o.err)
  else
    let b1 := b.lock
    if b1.g_recurse then (b1, 2 ^ 32 - 1)
    else ((b1.resolve init).call (.dlclose handle o.err), o.err)

/-- One request of the linker served by the passthrough layer while
`g_recurse` is set; `initOrig` is not entered again there, and no pointer
`g_orig_*` is used, so the stand-ins for both are never consulted. -/
def Boot.serve (b : Boot) : Req → Boot
  | .malloc size => (b.mallocWith id size ⟨0, 0, 0, []⟩).1
  | .calloc count unit => (b.callocWith id count unit ⟨0, 0, 0, []⟩).1
  | .posix_memalign pptr bound size => (b.memalignWith id pptr bound size ⟨0, 0, 0, []⟩).1
  | .realloc ptr size => (b.reallocWith id ptr size ⟨0, 0, 0, []⟩).1
  | .free ptr => b.freeWith id ptr
  | .malloc_usable_size ptr => (b.usableWith id ptr ⟨0, 0, 0, []⟩).1

/-- The function `initOrig`: sets `g_recurse`, resolves the symbols with
`dlsym`, during which the linker issues the requests `linker`, clears
`g_recurse` and sets `g_haveOrig`. -/
def Boot.initOrig (linker : List Req) (b : Boot) : Boot :=
  let b1 := linker.foldl Boot.serve { b with g_recurse := true }
  { b1 with g_recurse := false, g_haveOrig := true }

/-- The function `orig_malloc`. -/
def Boot.orig_malloc (b : Boot) (size : Nat) (o : Oracle) (linker : List Req) : Boot × Nat :=
  b.mallocWith (Boot.initOrig linker) size o

/-- The function `orig_calloc`. -/
def Boot.orig_calloc (b : Boot) (count unit : Nat) (o : Oracle) (linker : List Req) :
    Boot × Nat :=
  b.callocWith (Boot.initOrig linker) count unit o

/-- The function `orig_posix_memalign`. -/
def Boot.orig_posix_memalign (b : Boot) (pptr bound size : Nat) (o : Oracle)
    (linker : List Req) : Boot × Nat × Nat :=
  b.memalignWith (Boot.initOrig linker) pptr bound size o

/-- The function `orig_realloc`. -/
def Boot.orig_realloc (b : Boot) (ptr size : Nat) (o : Oracle) (linker : List Req) :
    Boot × Nat :=
  b.reallocWith (Boot.initOrig linker) ptr size o

/-- The function `orig_free`. -/
def Boot.orig_free (b : Boot) (ptr : Nat) (linker : List Req) : Boot :=
  b.freeWith (Boot.initOrig linker) ptr

/-- The function `orig_malloc_usable_size`. -/
def Boot.orig_malloc_usable_size (b : Boot) (ptr : Nat) (o : Oracle) (linker : List Req) :
    Boot × Nat :=
  b.usableWith (Boot.initOrig linker) ptr o

/-- The function `orig_dlopen`. -/
def Boot.orig_dlopen (b : Boot) (o : Oracle) (linker : List Req) : Boot × Nat :=
  b.dlopenWith (Boot.initOrig linker) o

/-- The function `orig_dlclose`. -/
def Boot.orig_dlclose (b : Boot) (handle : Nat) (o : Oracle) (linker : List Req) :
    Boot × Nat :=
  b.dlcloseWith (Boot.initOrig linker) handle o

end trac


/-! ## The module map of `mappings.cpp` -/

namespace trac

/-- The struct `Mappings::Entry`. -/
structure Entry where
  index : Nat
  base : Nat
  size : Nat
  offset : Nat
deriving DecidableEq, Repr

/-- The fields of a program header of `link.h` that the callback reads. -/
structure Phdr where
  p_type : Nat
  p_vaddr : Nat
  p_memsz : Nat
  p_offset : Nat
deriving DecidableEq, Repr

/-- The fields of `struct dl_phdr_info` that the callback reads; `dlpi_phdr`
holds the `dlpi_phnum` program headers. -/
structure PhdrInfo where
  dlpi_name : String
  dlpi_addr : Nat
  dlpi_phdr : List Phdr
deriving DecidableEq, Repr

/-- The value `PT_LOAD` of `elf.h`. -/
def PT_LOAD : Nat := 1

/-- The members of `class Mappings`: `m_libs` lists its pairs in the order of
insertion (only `find`, `size` and `emplace` are used on it), `m_entries` is
kept in key order, the key of an entry being its `base`, and `m_log = none`
is a null `FILE *`; a line of the log is an id and a pathname. -/
structure Mappings where
  m_libs : List (String × Nat)
  m_entries : List Entry
  m_log : Option (List (Nat × String))
deriving DecidableEq, Repr

/-- The call `m_libs.find(filename)`. -/
def libsFind : List (String × Nat) → String → Option Nat
  | [], _ => none
  | (k, v) :: m, name => if k = name then some v else libsFind m name

/-- The method `Mappings::getIndex`: the state after it and the id. -/
def Mappings.getIndex (m : Mappings) (filename : String) : Mappings × Nat :=
  match libsFind m.m_libs filename with
  | some id => (m, id)
  | none =>
    let idx := m.m_libs.length + 1
    ({ m with
        m_libs := m.m_libs ++ [(filename, idx)]
        m_log := m.m_log.map (fun l => l ++ [(idx, filename)]) }, idx)

/-- The call `m_entries.emplace(base, entry)`: nothing when the key `base` is
present, and else the entry at its place in key order. -/
def entriesEmplace : List Entry → Entry → List Entry
  | [], e => [e]
  | x :: m, e =>
    if e.base < x.base then e :: x :: m
    else if e.base = x.base then x :: m
    else x :: entriesEmplace m e

/-- The method `Mappings::putMapping`. -/
def Mappings.putMapping (m : Mappings) (index base size offset : Nat) : Mappings :=
  { m with m_entries := entriesEmplace m.m_entries ⟨index, base, size, offset⟩ }

/-- The loop of `Mappings::updateCallback` over the program headers. -/
def Mappings.putSegments (m : Mappings) (index addr : Nat) : List Phdr → Mappings
  | [] => m
  | ph :: phs =>
    let m1 :=
      if ph.p_type = PT_LOAD then
        m.putMapping index (wrap64 (addr + ph.p_vaddr)) ph.p_memsz ph.p_offset
      else m
    m1.putSegments index addr phs

/-- The function `Mappings::updateCallback`. -/
def Mappings.updateCallback (m : Mappings) (info : PhdrInfo) : Mappings :=
  let (m1, index) := m.getIndex info.dlpi_name
  m1.putSegments index info.dlpi_addr info.dlpi_phdr

/-- The method `Mappings::doUpdate`; `report` is what `dl_iterate_phdr` walks
through at that moment. -/
def Mappings.doUpdate (m : Mappings) (report : List PhdrInfo) : Mappings :=
  report.foldl Mappings.updateCallback { m with m_entries := [] }

/-- The members as the constructor initialises them; `logOpen` tells whether
`fopen` of the map log gave a stream. -/
def Mappings.blank (logOpen : Bool) : Mappings :=
  ⟨[], [], if logOpen then some [] else none⟩

/-- The constructor `Mappings::Mappings()`, which ends with `doUpdate()`. -/
def Mappings.new (logOpen : Bool) (report : List PhdrInfo) : Mappings :=
  (Mappings.blank logOpen).doUpdate report

/-- The entry before the position `m_entries.upper_bound(vaddr)`: the last
entry whose key is at most `vaddr`; `none` when the position is `cbegin()`. -/
def entriesBefore : List Entry → Nat → Option Entry
  | [], _ => none
  | x :: m, vaddr =>
    if x.base ≤ vaddr then
      match entriesBefore m vaddr with
      | some y => some y
      | none => some x
    else none

/-- The method `Mappings::doLookup`; the entry before the upper bound has
`base <= vaddr`, so the difference `rel` does not wrap. -/
def Mappings.doLookup (m : Mappings) (vaddr : Nat) : LibAddr :=
  match entriesBefore m.m_entries vaddr with
  | none => ⟨0, vaddr⟩
  | some e =>
    let rel := vaddr - e.base
    if rel < e.size then ⟨e.index, wrap64 (rel + e.offset)⟩ else ⟨0, vaddr⟩

/-- The static method `Mappings::update` on the pointer `s_instance`. -/
def Mappings.update (s : Option Mappings) (logOpen : Bool) (report : List PhdrInfo) :
    Option Mappings :=
  match s with
  | none => some ((Mappings.new logOpen report).doUpdate report)
  | some m => some (m.doUpdate report)

/-- The static method `Mappings::lookup` on the pointer `s_instance`. -/
def Mappings.lookup (s : Option Mappings) (logOpen : Bool) (report : List PhdrInfo)
    (vaddr : Nat) : Option Mappings × LibAddr :=
  match s with
  | none => (some (Mappings.new logOpen report), (Mappings.new logOpen report).doLookup vaddr)
  | some m => (some m, m.doLookup vaddr)

/-- The segment of an entry covers the address: `base <= v < base + size`. -/
def Entry.covers (e : Entry) (v : Nat) : Prop :=
  e.base ≤ v ∧ v < e.base + e.size

/-- The entries after the loop of `updateCallback` for an object with id
`index` loaded at `addr`. -/
def placeSegments (es : List Entry) (index addr : Nat) : List Phdr → List Entry
  | [] => es
  | ph :: phs =>
    placeSegments
      (if ph.p_type = PT_LOAD then
        entriesEmplace es ⟨index, wrap64 (addr + ph.p_vaddr), ph.p_memsz, ph.p_offset⟩
      else es) index addr phs

/-- The entries after a walk through `report` in which the object of a
pathname gets the id `ids pathname`. -/
def placeAll (ids : String → Nat) (es : List Entry) (report : List PhdrInfo) : List Entry :=
  report.foldl (fun es info => placeSegments es (ids info.dlpi_name) info.dlpi_addr
    info.dlpi_phdr) es

/-- The id the table `m_libs` has for a pathname, `0` for none. -/
def libsId (libs : List (String × Nat)) (name : String) : Nat :=
  (libsFind libs name).getD 0

/-- A loadable segment of the report covers the address. -/
def reportCovers (report : List PhdrInfo) (v : Nat) : Prop :=
  ∃ info ∈ report, ∃ ph ∈ info.dlpi_phdr, ph.p_type = PT_LOAD ∧
    wrap64 (info.dlpi_addr + ph.p_vaddr) ≤ v ∧
    v < wrap64 (info.dlpi_addr + ph.p_vaddr) + ph.p_memsz

/-- The pathnames of the objects of a sequence of reports. -/
def seenNames (reports : List (List PhdrInfo)) : List String :=
  reports.flatten.map (fun info => info.dlpi_name)

/-- The state after a sequence of refreshes. -/
def Mappings.refreshAll (m : Mappings) (reports : List (List PhdrInfo)) : Mappings :=
  reports.foldl Mappings.doUpdate m

instance (e : Entry) (v : Nat) : Decidable (e.covers v) :=
  inferInstanceAs (Decidable (e.base ≤ v ∧ v < e.base + e.size))

/-- The pathnames met so far, in the order of first sight, after one more. -/
def noteName (acc : List String) (name : String) : List String :=
  if name ∈ acc then acc else acc ++ [name]

/-- The distinct pathnames of a sequence, in the order of first sight. -/
def firstSeen (names : List String) : List String :=
  names.foldl noteName []

/-- The state of a module map is in order: the ids of `m_libs` are `1, 2, ...`
in the order of insertion, the entries are in strict key order, and no entry
has the id `0`. -/
def Mappings.Good (m : Mappings) : Prop :=
  m.m_libs.map Prod.snd = List.range' 1 m.m_libs.length ∧
    m.m_entries.Pairwise (fun a b => a.base < b.base) ∧
    ∀ e ∈ m.m_entries, e.index ≠ 0

/-- Each segment of the index ends at or before the base of every later one. -/
def Mappings.Separated (m : Mappings) : Prop :=
  ∀ e1 ∈ m.m_entries, ∀ e2 ∈ m.m_entries, e1.base < e2.base → e1.base + e1.size ≤ e2.base

instance (m : Mappings) : Decidable m.Separated :=
  inferInstanceAs (Decidable (∀ e1 ∈ m.m_entries, ∀ e2 ∈ m.m_entries,
    e1.base < e2.base → e1.base + e1.size ≤ e2.base))

instance (report : List PhdrInfo) (v : Nat) : Decidable (reportCovers report v) :=
  inferInstanceAs (Decidable (∃ info ∈ report, ∃ ph ∈ info.dlpi_phdr, ph.p_type = PT_LOAD ∧
    wrap64 (info.dlpi_addr + ph.p_vaddr) ≤ v ∧
    v < wrap64 (info.dlpi_addr + ph.p_vaddr) + ph.p_memsz))

end trac

/-! ## Reading `realloc(null, n)` as `malloc(n)` -/

namespace trac

/-- A call `orig_realloc(nullptr, size)` read as the call `orig_malloc(size)`
with the same answer; every other call as it is. -/
def Call.asMalloc : Call → Call
  | .orig_realloc 0 size ret => .orig_malloc size ret
  | c => c

/-- The process state with each `orig_realloc(nullptr, size)` in the record of
calls read as `orig_malloc(size)`. -/
def World.relabel (w : World) : World :=
  { w with calls := w.calls.map Call.asMalloc }

/-- An underlying call `realloc(nullptr, size)` read as the underlying call
`malloc(size)` with the same answer; every other call as it is. -/
def UCall.asMalloc : UCall → UCall
  | .realloc 0 size ret => .malloc size ret
  | c => c

/-- The globals of `common.cpp` with each underlying `realloc(nullptr, size)`
read as `malloc(size)`. -/
def Boot.relabel (b : Boot) : Boot :=
  { b with under := b.under.map UCall.asMalloc }

end trac

namespace Sample

open trac

/-- The globals of `common.cpp` that go with `world`: symbols resolved, the
arena from `5000` to `6000` with `40` bytes used. -/
def boot : Boot :=
  ⟨true, false, 5000, 5040, 6000, 0, []⟩

end Sample

namespace interposer

open trac

/-- The shim `posix_memalign`; `pptr` is the value of `*pptr` on entry, the
result is the status and the value of `*pptr` on return. -/
def posix_memalign (w : World) (t : Thread) (pptr bound size : Nat) (o : Oracle) :
    World × Thread × Nat × Nat :=
  if !w.g_ready || t.t_nested then
    (w.call (.orig_posix_memalign bound size o.err o.ret), t, o.err,
      if o.err = 0 then o.ret else pptr)
  else
    let (w0, hd) := install w t
    let (w1, err, res) := Handler.memalign w0 hd pptr bound size o
    (w1, ⟨false, some hd⟩, err, res)

/-- The shim `valloc`; `pagesize` is the value of `sysconf(_SC_PAGESIZE)`.  The
local `res` is not initialised in the source and is read on success only,
after `posix_memalign` wrote it; it enters as `0` here. -/
def valloc (w : World) (t : Thread) (pagesize size : Nat) (o : Oracle) :
    World × Thread × Nat :=
  let bound := pagesize
  let (w1, t1, err, res) := posix_memalign w t 0 bound size o
  if err = 0 then (w1, t1, res) else (w1, t1, 0)

/-- The shim `pvalloc`; `pagesize` is the value of `sysconf(_SC_PAGESIZE)`,
and `res` enters as `0` as in `valloc`. -/
def pvalloc (w : World) (t : Thread) (pagesize size : Nat) (o : Oracle) :
    World × Thread × Nat :=
  let bound := pagesize
  let size := align size bound
  let (w1, t1, err, res) := posix_memalign w t 0 bound size o
  if err = 0 then (w1, t1, res) else (w1, t1, 0)

end interposer

/-! ## `Handler::createMemkind` and `Handler::onEnd` -/

namespace trac

/-- The test `isspace` of the C locale on a character code. -/
def isSpace (c : Nat) : Bool :=
  c = 32 || (9 ≤ c && c ≤ 13)

/-- The value of a character code as a digit, letters counting from ten. -/
def digitOf (c : Nat) : Option Nat :=
  if 48 ≤ c ∧ c ≤ 57 then some (c - 48)
  else if 97 ≤ c ∧ c ≤ 122 then some (c - 97 + 10)
  else if 65 ≤ c ∧ c ≤ 90 then some (c - 65 + 10)
  else none

/-- The number made of the leading digits of the base, starting from `acc`. -/
def readDigits (base : Nat) : List Nat → Nat → Nat
  | [], acc => acc
  | c :: cs, acc =>
    match digitOf c with
    | some d => if d < base then readDigits base cs (acc * base + d) else acc
    | none => acc

/-- The digits after a prefix `0x` or `0X`, when a hexadecimal digit follows it. -/
def hexStart : List Nat → Option (List Nat)
  | 48 :: x :: d :: rest =>
    if (x = 120 ∨ x = 88) ∧ (digitOf d).any (fun n => decide (n < 16)) then some (d :: rest)
    else none
  | _ => none

/-- The number `strtoull` reads with base `0` after blanks and sign:
hexadecimal after `0x`, octal after a leading `0`, decimal otherwise. -/
def magnitude (cs : List Nat) : Nat :=
  match hexStart cs with
  | some ds => readDigits 16 ds 0
  | none =>
    match cs with
    | 48 :: rest => readDigits 8 rest 0
    | _ => readDigits 10 cs 0

/-- The C library call `strtoull(nptr, nullptr, 0)`: leading blanks and a
sign are skipped, a text without digits gives `0`, a number out of range
gives `ULLONG_MAX`, a minus sign negates in 64 bits.  A null `nptr` is
outside what the C library defines (the call reads through it): `none`. -/
def strtoull (nptr : Option String) : Option Nat :=
  match nptr with
  | none => none
  | some s =>
    let cs := (s.toList.map Char.toNat).dropWhile isSpace
    let v :=
      match cs with
      | 45 :: rest => (true, magnitude rest)
      | 43 :: rest => (false, magnitude rest)
      | _ => (false, magnitude cs)
    some (if 2 ^ 64 ≤ v.2 then 2 ^ 64 - 1 else if v.1 then wrap64 (2 ^ 64 - v.2) else v.2)

/-- The static method `Handler::createMemkind`.  The arguments are the values
of `getenv("TRAC_PMEMDIR")` and `getenv("TRAC_PMEMSIZE")` (`none` for a null
pointer) and the answer of `memkind_create_pmem` (status and kind handle).
The result is the value of `s_memkind` and the calls made to
`memkind_create_pmem` (directory and size); `none` when the run leaves
defined behaviour. -/
def Handler.createMemkind (pmemdir pmemsize : Option String) (err : Nat) (kind : memkind_t) :
    Option (memkind_t × List (String × Nat)) :=
  match pmemdir with
  | some dir =>
    match strtoull pmemsize with
    | none => none
    | some n =>
      let size := if n = 0 then 2 ^ 32 else n
      if err ≠ 0 then some (0, [(dir, size)]) else some (kind, [(dir, size)])
  | none => some (0, [])

/-- The loop of `Handler::onEnd` over the entries of `m_allocs`. -/
def Handler.onEndLoop (h : Handler) : List (Nat × Alloc) → Handler
  | [] => h
  | (base, info) :: rest =>
    (if info.size > h.m_threshold then h.log false base info.size none else h).onEndLoop rest

/-- The method `Handler::onEnd`; closing the stream leaves its lines as they
are. -/
def Handler.onEnd (h : Handler) : Handler :=
  { h.onEndLoop h.m_allocs with m_allocs := [] }

/-- The call `p->onEnd()`. -/
def World.onEnd (w : World) (p : Nat) : World :=
  { w with heap := updHandler w.heap p Handler.onEnd }

/-- The `-` lines `onEnd` writes for a table: one for each entry whose size
is above the threshold, in key order. -/
def residualLines (threshold : Nat) (allocs : List (Nat × Alloc)) : List LogLine :=
  (allocs.filter (fun r => decide (r.2.size > threshold))).map
    (fun r => ⟨false, r.1, r.2.size, []⟩)

/-- No entry of the index has size `0`. -/
def Mappings.NonEmpty (m : Mappings) : Prop :=
  ∀ e ∈ m.m_entries, 0 < e.size

/-- The ranges `[base, base + size)` of two different entries of the index
have no address in common. -/
def Mappings.Disjoint (m : Mappings) : Prop :=
  ∀ e1 ∈ m.m_entries, ∀ e2 ∈ m.m_entries, e1 ≠ e2 → ∀ x : Nat, ¬ (e1.covers x ∧ e2.covers x)

end trac

namespace Sample

open trac

/-- A ready process with one handler: threshold `0x40`, a stream, an empty
table. -/
def single : World :=
  ⟨[⟨0, [], some [], 64, 0, 3⟩], [0], 7, 1, ⟨true, some 64, none⟩, true, 5000, 6000, []⟩

end Sample

namespace trac

/-- Whether a request served while `g_recurse` is set reaches
`pthread_mutex_lock`: the allocation functions always, `realloc` unless the
pointer is in the arena, `free` and `malloc_usable_size` unless the pointer is
null or in the arena. -/
def Req.takesMutex (beg stop : Nat) : Req → Bool
  | .malloc _ => true
  | .calloc _ _ => true
  | .posix_memalign _ _ _ => true
  | .realloc ptr _ => !decide (beg ≤ ptr ∧ ptr < stop)
  | .free ptr => !decide (ptr = 0 ∨ (beg ≤ ptr ∧ ptr < stop))
  | .malloc_usable_size ptr => !decide (ptr = 0 ∨ (beg ≤ ptr ∧ ptr < stop))

instance (m : Mappings) : Decidable m.NonEmpty :=
  inferInstanceAs (Decidable (∀ e ∈ m.m_entries, 0 < e.size))

end trac

/-! ## Facts about the allocation table -/

namespace trac

theorem mapFind_mem {m : List (Nat × Alloc)} {a : Nat} {info : Alloc}
    (h : mapFind m a = some info) : (a, info) ∈ m := by
  induction m with
  | nil => simp [mapFind] at h
  | cons e m ih =>
    obtain ⟨k, v⟩ := e
    by_cases hk : k = a
    · subst hk
      simp [mapFind] at h
      simp [h]
    · simp [mapFind, hk] at h
      exact List.mem_cons_of_mem _ (ih h)

theorem mapFind_eq_none {m : List (Nat × Alloc)} {a : Nat} :
    mapFind m a = none ↔ a ∉ m.map Prod.fst := by
  induction m with
  | nil => simp [mapFind]
  | cons e m ih =>
    obtain ⟨k, v⟩ := e
    by_cases hk : k = a
    · simp [mapFind, hk]
    · have hk2 : ¬ a = k := fun h => hk h.symm
      simp [mapFind, hk, hk2, ih]

theorem mapInsert_perm (m : List (Nat × Alloc)) (a : Nat) (info : Alloc) :
    (mapInsert m a info).Perm ((a, info) :: m) := by
  induction m with
  | nil => simp [mapInsert]
  | cons e m ih =>
    obtain ⟨k, v⟩ := e
    by_cases h1 : a < k
    · simp [mapInsert, h1]
    · simp only [mapInsert, h1, if_false]
      exact (ih.cons (k, v)).trans (List.Perm.swap _ _ _)

theorem mapEmplace_perm {m : List (Nat × Alloc)} {a : Nat} (info : Alloc)
    (h : mapFind m a = none) : (mapEmplace m a info).Perm ((a, info) :: m) := by
  simp only [mapEmplace, h]
  exact mapInsert_perm m a info

theorem mapEmplace_of_found {m : List (Nat × Alloc)} {a : Nat} (info : Alloc)
    (h : mapFind m a ≠ none) : mapEmplace m a info = m := by
  cases hf : mapFind m a with
  | none => exact absurd hf h
  | some v => simp [mapEmplace, hf]

theorem mapFind_insert (m : List (Nat × Alloc)) (a b : Nat) (info : Alloc)
    (ha : mapFind m a = none) :
    mapFind (mapInsert m a info) b = if a = b then some info else mapFind m b := by
  induction m with
  | nil => simp [mapInsert, mapFind]
  | cons e m ih =>
    obtain ⟨k, v⟩ := e
    have hka : ¬ k = a := by
      intro h
      simp [mapFind, h] at ha
    simp only [mapFind, hka, if_false] at ha
    by_cases h1 : a < k
    · simp [mapInsert, h1, mapFind]
    · simp only [mapInsert, h1, if_false, mapFind, ih ha]
      by_cases h2 : k = b
      · subst h2
        have h3 : ¬ a = k := fun h => hka h.symm
        simp [h3]
      · simp [h2]

theorem mapFind_emplace (m : List (Nat × Alloc)) (a b : Nat) (info : Alloc) :
    mapFind (mapEmplace m a info) b =
      if a = b then some ((mapFind m a).getD info) else mapFind m b := by
  cases hf : mapFind m a with
  | none =>
    simp [mapEmplace, hf, mapFind_insert m a b info hf]
  | some v =>
    simp only [mapEmplace, hf, Option.getD_some]
    by_cases h : a = b
    · subst h
      simp [hf]
    · simp [h]

theorem mapFind_erase (m : List (Nat × Alloc)) (a b : Nat) :
    mapFind (mapErase m a) b = if a = b then none else mapFind m b := by
  induction m with
  | nil => simp [mapErase, mapFind]
  | cons e m ih =>
    obtain ⟨k, v⟩ := e
    simp only [mapErase] at ih
    by_cases h1 : k = a
    · subst h1
      simp only [mapErase, List.filter, ne_eq, not_true_eq_false, decide_False, ih, mapFind]
      by_cases h2 : k = b
      · simp [h2]
      · simp [h2]
    · simp only [mapErase, List.filter, ne_eq, h1, not_false_eq_true, decide_True, mapFind, ih]
      by_cases h2 : k = b
      · subst h2
        have : ¬ a = k := fun h => h1 h.symm
        simp [this]
      · simp [h2]

/-- A table splits into the records under address `a` and the rest. -/
theorem mapErase_perm (m : List (Nat × Alloc)) (a : Nat) :
    m.Perm (m.filter (fun e => decide (e.1 = a)) ++ mapErase m a) := by
  have h := (List.filter_append_perm (fun e : Nat × Alloc => decide (e.1 = a)) m).symm
  have e : (fun x : Nat × Alloc => !decide (x.1 = a)) = (fun e => decide (e.1 ≠ a)) := by
    funext x
    simp
  rw [e] at h
  exact h

/-! ## Facts about the heap of handler objects -/

theorem flatMap_set_grow {α β : Type} (g : α → List β) :
    ∀ (l : List α) (i : Nat) (x y : α) (A : List β), l[i]? = some x →
      (g y).Perm (A ++ g x) → ((l.set i y).flatMap g).Perm (A ++ l.flatMap g) := by
  intro l
  induction l with
  | nil => intro i x y A h; simp at h
  | cons z l ih =>
    intro i x y A h hp
    cases i with
    | zero =>
      simp only [List.getElem?_cons_zero, Option.some.injEq] at h
      subst h
      simp only [List.set_cons_zero, List.flatMap_cons]
      exact (hp.append_right _).trans (by simp)
    | succ i =>
      simp only [List.getElem?_cons_succ] at h
      simp only [List.set_cons_succ, List.flatMap_cons]
      have h1 := (ih i x y A h hp).append_left (g z)
      refine h1.trans ?_
      simp only [← List.append_assoc]
      exact List.Perm.append_right _ List.perm_append_comm

theorem flatMap_set_shrink {α β : Type} (g : α → List β) :
    ∀ (l : List α) (i : Nat) (x y : α) (A : List β), l[i]? = some x →
      (g x).Perm (A ++ g y) → (l.flatMap g).Perm (A ++ (l.set i y).flatMap g) := by
  intro l
  induction l with
  | nil => intro i x y A h; simp at h
  | cons z l ih =>
    intro i x y A h hp
    cases i with
    | zero =>
      simp only [List.getElem?_cons_zero, Option.some.injEq] at h
      subst h
      simp only [List.set_cons_zero, List.flatMap_cons]
      exact (hp.append_right _).trans (by simp)
    | succ i =>
      simp only [List.getElem?_cons_succ] at h
      simp only [List.set_cons_succ, List.flatMap_cons]
      have h1 := (ih i x y A h hp).append_left (g z)
      refine h1.trans ?_
      simp only [← List.append_assoc]
      exact List.Perm.append_right _ List.perm_append_comm

theorem flatMap_set_same {α β : Type} (g : α → List β) :
    ∀ (l : List α) (i : Nat) (x y : α), l[i]? = some x → g y = g x →
      (l.set i y).flatMap g = l.flatMap g := by
  intro l
  induction l with
  | nil => intro i x y h; simp at h
  | cons z l ih =>
    intro i x y h hp
    cases i with
    | zero =>
      simp only [List.getElem?_cons_zero, Option.some.injEq] at h
      subst h
      simp [hp]
    | succ i =>
      simp only [List.getElem?_cons_succ] at h
      simp only [List.set_cons_succ, List.flatMap_cons, ih i x y h hp]

theorem updHandler_get (heap : List Handler) (p q : Nat) (f : Handler → Handler) :
    (updHandler heap p f)[q]? = if q = p then (heap[p]?).map f else heap[q]? := by
  unfold updHandler
  cases hp : heap[p]? with
  | none =>
    by_cases hq : q = p
    · subst hq
      simp [hp]
    · simp [hq]
  | some h =>
    have hlt : p < heap.length := (List.getElem?_eq_some.mp hp).1
    by_cases hq : q = p
    · subst hq
      simp [List.getElem?_set, hlt]
    · have hq2 : ¬ p = q := fun h => hq h.symm
      simp [List.getElem?_set, hq, hq2]

theorem updHandler_length (heap : List Handler) (p : Nat) (f : Handler → Handler) :
    (updHandler heap p f).length = heap.length := by
  unfold updHandler
  cases heap[p]? <;> simp

theorem allRecords_upd_same (heap : List Handler) (p : Nat) (f : Handler → Handler)
    (hf : ∀ h, (f h).m_allocs = h.m_allocs) :
    allRecords (updHandler heap p f) = allRecords heap := by
  unfold updHandler allRecords
  cases hp : heap[p]? with
  | none => rfl
  | some h => exact flatMap_set_same _ heap p h (f h) hp (hf h)

theorem allRecords_insert (heap : List Handler) (p a : Nat) (info : Alloc) (h : Handler)
    (hp : heap[p]? = some h) (ha : mapFind h.m_allocs a = none) :
    (allRecords (updHandler heap p (fun h => h.allocInsert a info))).Perm
      ((a, info) :: allRecords heap) := by
  unfold updHandler allRecords
  simp only [hp]
  exact flatMap_set_grow _ heap p h _ [(a, info)] hp (mapEmplace_perm info ha)

theorem allRecords_remove (heap : List Handler) (p a : Nat) (h : Handler)
    (hp : heap[p]? = some h) :
    (allRecords heap).Perm (h.m_allocs.filter (fun e => decide (e.1 = a)) ++
      allRecords (updHandler heap p (fun h => h.allocRemove a))) := by
  unfold updHandler allRecords
  simp only [hp]
  exact flatMap_set_shrink _ heap p h _ _ hp (mapErase_perm h.m_allocs a)

theorem mem_allRecords {heap : List Handler} {p : Nat} {h : Handler} {e : Nat × Alloc}
    (hp : heap[p]? = some h) (he : e ∈ h.m_allocs) : e ∈ allRecords heap := by
  unfold allRecords
  exact List.mem_flatMap.mpr ⟨h, List.mem_iff_getElem?.mpr ⟨p, hp⟩, he⟩

/-! ## The invariant under the changes of a table -/

theorem Inv.congr {heap : List Handler} {hold hold2 : Holder}
    (h : Inv heap hold) (he : ∀ a, hold2 a = hold a) : Inv heap hold2 :=
  ⟨h.1, fun e hm => (he e.1).trans (h.2 e hm)⟩

theorem Inv.same_tables {heap heap2 : List Handler} {hold : Holder}
    (h : Inv heap hold) (he : allRecords heap2 = allRecords heap) : Inv heap2 hold := by
  unfold Inv
  rw [he]
  exact h

/-- An address nobody holds is in no table. -/
theorem Inv.absent {heap : List Handler} {hold : Holder} (h : Inv heap hold) {a : Nat}
    (ha : hold a = none) : a ∉ (allRecords heap).map Prod.fst := by
  intro hm
  obtain ⟨e, he, rfl⟩ := List.mem_map.mp hm
  have := h.2 e he
  rw [ha] at this
  exact absurd this (by simp)

theorem Inv.absent_table {heap : List Handler} {hold : Holder} (h : Inv heap hold) {a p : Nat}
    {hd : Handler} (hp : heap[p]? = some hd) (ha : hold a = none) :
    mapFind hd.m_allocs a = none := by
  cases hf : mapFind hd.m_allocs a with
  | none => rfl
  | some info =>
    exact absurd (List.mem_map.mpr ⟨_, mem_allRecords hp (mapFind_mem hf), rfl⟩) (h.absent ha)

/-- Recording a fresh address under the backing that now holds it. -/
theorem Inv.insert {heap : List Handler} {hold : Holder} (h : Inv heap hold) {p a : Nat}
    {hd : Handler} (info : Alloc) (hp : heap[p]? = some hd) (ha : hold a = none) :
    Inv (updHandler heap p (fun h => h.allocInsert a info))
      (hold.put a (some (backingOf info.kind))) := by
  have hperm := allRecords_insert heap p a info hd hp (h.absent_table hp ha)
  have habs := h.absent ha
  constructor
  · rw [(hperm.map Prod.fst).nodup_iff]
    simp only [List.map_cons, List.nodup_cons]
    exact ⟨habs, h.1⟩
  · intro e he
    rcases List.mem_cons.mp (hperm.mem_iff.mp he) with rfl | he
    · simp [Holder.put]
    · have hne : e.1 ≠ a := by
        intro heq
        exact habs (List.mem_map.mpr ⟨e, he, heq⟩)
      simp only [Holder.put, hne, if_false]
      exact h.2 e he

/-- Removing a recorded address that its backing has released. -/
theorem Inv.remove {heap : List Handler} {hold : Holder} (h : Inv heap hold) {p a : Nat}
    {hd : Handler} {info : Alloc} (hp : heap[p]? = some hd)
    (hf : mapFind hd.m_allocs a = some info) :
    Inv (updHandler heap p (fun h => h.allocRemove a)) (hold.put a none) ∧
      a ∉ (allRecords (updHandler heap p (fun h => h.allocRemove a))).map Prod.fst := by
  have hperm := allRecords_remove heap p a hd hp
  have hnd := ((hperm.map Prod.fst).nodup_iff).mp h.1
  rw [List.map_append, List.nodup_append] at hnd
  have hin : a ∈ (hd.m_allocs.filter (fun e => decide (e.1 = a))).map Prod.fst := by
    refine List.mem_map.mpr ⟨(a, info), ?_, rfl⟩
    simp [List.mem_filter, mapFind_mem hf]
  have hout : a ∉ (allRecords (updHandler heap p (fun h => h.allocRemove a))).map Prod.fst :=
    fun hm => hnd.2.2 hin hm
  refine ⟨⟨hnd.2.1, ?_⟩, hout⟩
  intro e he
  have hne : e.1 ≠ a := by
    intro heq
    exact hout (List.mem_map.mpr ⟨e, he, heq⟩)
  simp only [Holder.put, hne, if_false]
  exact h.2 e (hperm.mem_iff.mpr (List.mem_append_right _ he))

/-! ## Facts about the record of calls -/

@[simp] theorem holdAfter_nil (hold : Holder) : holdAfter hold [] = hold := rfl

@[simp] theorem holdAfter_cons (hold : Holder) (c : Call) (cs : List Call) :
    holdAfter hold (c :: cs) = holdAfter (holdStep hold c) cs := rfl

theorem holdAfter_append (hold : Holder) (cs ds : List Call) :
    holdAfter hold (cs ++ ds) = holdAfter (holdAfter hold cs) ds := by
  simp [holdAfter, List.foldl_append]

theorem traceAll_append (P : Holder → Call → Bool) (hold : Holder) (cs ds : List Call) :
    traceAll P hold (cs ++ ds) = (traceAll P hold cs && traceAll P (holdAfter hold cs) ds) := by
  induction cs generalizing hold with
  | nil => simp [traceAll, holdAfter]
  | cons c cs ih => simp [traceAll, holdAfter, ih, Bool.and_assoc]

theorem getMemkind_ne_zero (w : World) (h : w.MEMKIND_DEFAULT ≠ 0) : w.getMemkind ≠ 0 := by
  unfold World.getMemkind
  by_cases hs : w.s_memkind = 0
  · simp [hs, h]
  · simp [hs]

theorem select_ne_zero (w : World) (h : w.MEMKIND_DEFAULT ≠ 0) (size : Nat)
    (sbuf : Option (List LibAddr)) : w.select size sbuf ≠ 0 :=
  getMemkind_ne_zero w h

theorem backingOf_zero : backingOf 0 = Backing.passthrough := by
  simp [backingOf]

theorem backingOf_ne_zero {k : memkind_t} (h : k ≠ 0) : backingOf k = Backing.kind k := by
  simp [backingOf, h]

theorem Keeps.of_calls {w w2 : World} (new : List Call)
    (hd : w2.MEMKIND_DEFAULT = w.MEMKIND_DEFAULT) (hk : w2.s_memkind = w.s_memkind)
    (hc : w2.calls = w.calls ++ new)
    (hmain : ∀ H : Holder, traceAll Call.fresh H new = true → Inv w.heap H →
      w.MEMKIND_DEFAULT ≠ 0 → Inv w2.heap (holdAfter H new) ∧ traceAll Call.routed H new = true) :
    Keeps w w2 := by
  refine ⟨hd, hk, new, hc, ?_⟩
  intro hf hi hdef
  rw [hc, holdAfter_append]
  exact hmain _ hf hi hdef

theorem Keeps_refl (w : World) : Keeps w w :=
  Keeps.of_calls [] rfl rfl (by simp) (fun H _ hi _ => ⟨hi, rfl⟩)

/-- Recording a fresh address in a heap whose tables are those of `heap`. -/
theorem Inv.insert_in {heap heap1 : List Handler} {hold : Holder} (h : Inv heap hold)
    {p a : Nat} {hd : Handler} (info : Alloc) (he : allRecords heap1 = allRecords heap)
    (hp : heap1[p]? = some hd) (ha : hold a = none) :
    Inv (updHandler heap1 p (fun h => h.allocInsert a info))
      (hold.put a (some (backingOf info.kind))) :=
  (h.same_tables he).insert info hp ha

theorem allRecords_log (heap : List Handler) (p : Nat) (alloc : Bool) (base size : Nat)
    (sbuf : Option (List LibAddr)) :
    allRecords (updHandler heap p (fun h => h.log alloc base size sbuf)) = allRecords heap := by
  apply allRecords_upd_same
  intro h
  unfold Handler.log
  cases h.m_log <;> rfl

theorem log_get (heap : List Handler) (p : Nat) (h : Handler) (alloc : Bool) (base size : Nat)
    (sbuf : Option (List LibAddr)) (hp : heap[p]? = some h) :
    (updHandler heap p (fun h => h.log alloc base size sbuf))[p]? =
      some (h.log alloc base size sbuf) := by
  simp [updHandler_get, hp]

/-! ## Facts about the lookups -/

theorem globalLookupIn_some {heap : List Handler} {base : Nat} {ex : Option Nat}
    {ps : List Nat} {home : Nat} {info : Alloc}
    (h : globalLookupIn heap base ex ps = some (home, info)) :
    home ∈ ps ∧ some home ≠ ex ∧
      ∃ hh, heap[home]? = some hh ∧ mapFind hh.m_allocs base = some info := by
  induction ps with
  | nil => simp [globalLookupIn] at h
  | cons p ps ih =>
    unfold globalLookupIn at h
    by_cases hex : some p ≠ ex
    · rw [if_pos hex] at h
      cases hl : (heap[p]?).bind (fun h => h.localAllocLookup base) with
      | none =>
        simp only [hl] at h
        obtain ⟨h1, h2⟩ := ih h
        exact ⟨List.mem_cons_of_mem _ h1, h2⟩
      | some i =>
        simp only [hl, Option.some.injEq, Prod.mk.injEq] at h
        obtain ⟨rfl, rfl⟩ := h
        obtain ⟨hh, h1, h2⟩ := Option.bind_eq_some.mp hl
        exact ⟨List.mem_cons_self _ _, hex, hh, h1, h2⟩
    · rw [if_neg hex] at h
      obtain ⟨h1, h2⟩ := ih h
      exact ⟨List.mem_cons_of_mem _ h1, h2⟩

theorem globalLookupIn_none {heap : List Handler} {base : Nat} {ex : Option Nat}
    {ps : List Nat} :
    globalLookupIn heap base ex ps = none ↔
      ∀ p ∈ ps, some p ≠ ex → ∀ hh, heap[p]? = some hh → mapFind hh.m_allocs base = none := by
  induction ps with
  | nil => simp [globalLookupIn]
  | cons p ps ih =>
    unfold globalLookupIn
    by_cases hex : some p ≠ ex
    · rw [if_pos hex]
      cases hl : (heap[p]?).bind (fun h => h.localAllocLookup base) with
      | none =>
        simp only [ih, List.mem_cons, forall_eq_or_imp]
        constructor
        · intro h
          refine ⟨fun _ hh hp => ?_, h⟩
          simpa [hp, Handler.localAllocLookup] using hl
        · exact fun h => h.2
      | some i =>
        simp only [List.mem_cons, forall_eq_or_imp]
        constructor
        · intro h
          exact absurd h (by simp)
        · intro h
          obtain ⟨hh, h1, h2⟩ := Option.bind_eq_some.mp hl
          have := h.1 hex hh h1
          simp [Handler.localAllocLookup, this] at h2
    · rw [if_neg hex, ih]
      simp only [List.mem_cons, forall_eq_or_imp]
      exact ⟨fun h => ⟨fun h2 => absurd h2 hex, h⟩, fun h => h.2⟩

theorem allocLookup_some {w : World} {self base home : Nat} {info : Alloc}
    (h : w.allocLookup self base = some (home, info)) :
    ∃ hh, w.heap[home]? = some hh ∧ mapFind hh.m_allocs base = some info := by
  unfold World.allocLookup at h
  cases hl : (w.heap[self]?).bind (fun h => h.localAllocLookup base) with
  | none =>
    simp only [hl] at h
    exact (globalLookupIn_some h).2.2
  | some i =>
    simp only [hl, Option.some.injEq, Prod.mk.injEq] at h
    obtain ⟨rfl, rfl⟩ := h
    exact Option.bind_eq_some.mp hl

/-- The tables of a heap are not changed by writing to logs. -/
theorem tables_upd_same (heap : List Handler) (p : Nat) (f : Handler → Handler)
    (hf : ∀ h, (f h).m_allocs = h.m_allocs) :
    (updHandler heap p f).map Handler.m_allocs = heap.map Handler.m_allocs := by
  apply List.ext_getElem?
  intro q
  simp only [List.getElem?_map, updHandler_get]
  by_cases hq : q = p
  · subst hq
    cases heap[q]? <;> simp [hf]
  · simp [hq]

theorem log_allocs (h : Handler) (alloc : Bool) (base size : Nat)
    (sbuf : Option (List LibAddr)) : (h.log alloc base size sbuf).m_allocs = h.m_allocs := by
  unfold Handler.log
  cases h.m_log <;> rfl

theorem tables_log (heap : List Handler) (p : Nat) (alloc : Bool) (base size : Nat)
    (sbuf : Option (List LibAddr)) :
    (updHandler heap p (fun h => h.log alloc base size sbuf)).map Handler.m_allocs =
      heap.map Handler.m_allocs :=
  tables_upd_same heap p _ (fun h => log_allocs h alloc base size sbuf)

theorem allRecords_of_tables {heap1 heap : List Handler}
    (h : heap1.map Handler.m_allocs = heap.map Handler.m_allocs) :
    allRecords heap1 = allRecords heap := by
  have e : ∀ l : List Handler, allRecords l = (l.map Handler.m_allocs).flatten := by
    intro l
    simp [allRecords, List.flatMap]
  rw [e, e, h]

theorem get_of_tables {heap1 heap : List Handler}
    (h : heap1.map Handler.m_allocs = heap.map Handler.m_allocs) {q : Nat} {hq : Handler}
    (hg : heap[q]? = some hq) : ∃ hq1, heap1[q]? = some hq1 ∧ hq1.m_allocs = hq.m_allocs := by
  have := congrArg (fun l => l[q]?) h
  simp only [List.getElem?_map, hg, Option.map_some'] at this
  cases h1 : heap1[q]? with
  | none => simp [h1] at this
  | some hq1 =>
    simp only [h1, Option.map_some', Option.some.injEq] at this
    exact ⟨hq1, rfl, this⟩

/-- Removing a released address in a heap whose tables are those of `heap`. -/
theorem Inv.remove_in {heap L : List Handler} {hold : Holder} (h : Inv heap hold)
    {p a : Nat} {hd : Handler} {info : Alloc}
    (he : L.map Handler.m_allocs = heap.map Handler.m_allocs)
    (hp : heap[p]? = some hd) (hf : mapFind hd.m_allocs a = some info) :
    Inv (updHandler L p (fun h => h.allocRemove a)) (hold.put a none) ∧
      a ∉ (allRecords (updHandler L p (fun h => h.allocRemove a))).map Prod.fst := by
  obtain ⟨hd1, hp1, ha1⟩ := get_of_tables he hp
  exact (h.same_tables (allRecords_of_tables he)).remove hp1 (ha1 ▸ hf)

/-- A recorded address is held by the backing its record names. -/
theorem Inv.held {heap : List Handler} {hold : Holder} (h : Inv heap hold)
    {p a : Nat} {hd : Handler} {info : Alloc}
    (hp : heap[p]? = some hd) (hf : mapFind hd.m_allocs a = some info) :
    hold a = some (backingOf info.kind) :=
  h.2 (a, info) (mem_allRecords hp (mapFind_mem hf))

theorem Keeps_malloc (w : World) (self size : Nat) (o : Oracle) :
    Keeps w (Handler.malloc w self size o).1 := by
  unfold Handler.malloc
  cases hs : w.heap[self]? with
  | none => exact Keeps_refl w
  | some h =>
    simp only
    by_cases hthr : size < h.m_threshold
    · simp only [hthr, if_true]
      by_cases hret : o.ret = 0
      · simp only [hret, ne_eq, not_true_eq_false, if_false]
        refine Keeps.of_calls [Call.orig_malloc size 0] rfl rfl rfl ?_
        intro H _ hi _
        simpa [holdStep, traceAll, Call.routed] using hi
      · simp only [hret, ne_eq, not_false_eq_true, if_true]
        refine Keeps.of_calls [Call.orig_malloc size o.ret] rfl rfl rfl ?_
        intro H hf hi _
        simp only [traceAll, Call.fresh, hret, false_or, Bool.and_true, decide_eq_true_eq] at hf
        have := hi.insert (p := self) ⟨size, 0⟩ hs hf
        simpa [World.call, World.allocInsert, holdStep, hret, traceAll, Call.routed,
          backingOf_zero] using this
    · simp only [hthr, if_false]
      have hk := getMemkind_ne_zero w
      by_cases hret : o.ret = 0
      · simp only [hret, ne_eq, not_true_eq_false, if_false]
        refine Keeps.of_calls [Call.memkind_malloc _ size 0] rfl rfl rfl ?_
        intro H _ hi _
        simpa [holdStep, traceAll, Call.routed] using hi
      · simp only [hret, ne_eq, not_false_eq_true, if_true]
        refine Keeps.of_calls [Call.memkind_malloc _ size o.ret] rfl rfl rfl ?_
        intro H hf hi hdef
        simp only [traceAll, Call.fresh, hret, false_or, Bool.and_true, decide_eq_true_eq] at hf
        have := hi.insert_in (p := self) ⟨size, w.select size (h.stack o.bt)⟩
          (allRecords_log w.heap self true o.ret size (h.stack o.bt))
          (log_get w.heap self h true o.ret size (h.stack o.bt) hs) hf
        simpa [World.call, World.allocInsert, World.log, holdStep, hret, traceAll, Call.routed,
          backingOf_ne_zero (hk hdef), World.select] using this

theorem Keeps_free (w : World) (self ptr : Nat) (o : Oracle) :
    Keeps w (Handler.free w self ptr o).1 := by
  unfold Handler.free
  cases hs : w.heap[self]? with
  | none => exact Keeps_refl w
  | some h =>
    simp only
    cases hl : w.allocLookup self ptr with
    | none => exact Keeps_refl w
    | some r =>
      obtain ⟨home, info⟩ := r
      obtain ⟨hh, hhome, hfind⟩ := allocLookup_some hl
      simp only
      refine Keeps.of_calls
        [if info.kind ≠ 0 then Call.memkind_free info.kind ptr else Call.orig_free ptr]
        ?_ ?_ ?_ ?_
      · simp only [World.allocRemove]; split <;> split <;> rfl
      · simp only [World.allocRemove]; split <;> split <;> rfl
      · simp only [World.allocRemove]; split <;> split <;> rfl
      · intro H _ hi _
        have hheld := hi.held hhome hfind
        have hstep : holdStep H
            (if info.kind ≠ 0 then Call.memkind_free info.kind ptr else Call.orig_free ptr) =
            H.put ptr none := by
          split <;> rfl
        have hrouted : Call.routed H
            (if info.kind ≠ 0 then Call.memkind_free info.kind ptr else Call.orig_free ptr) =
            true := by
          by_cases hk : info.kind = 0
          · simpa [hk, Call.routed, backingOf_zero] using hheld
          · simpa [hk, Call.routed, backingOf_ne_zero hk] using hheld
        simp only [holdAfter_cons, holdAfter_nil, hstep, traceAll, hrouted, Bool.and_true,
          and_true]
        by_cases hsz : info.size ≥ h.m_threshold
        · simp only [hsz, if_true]
          have := (hi.remove_in (L := (World.log (if info.kind ≠ 0 then
              w.call (Call.memkind_free info.kind ptr) else w.call (Call.orig_free ptr))
              self false ptr info.size (h.stack o.bt)).heap) (by
                simp only [World.log]
                split <;> exact tables_log _ _ _ _ _ _) hhome hfind).1
          simpa [World.allocRemove] using this
        · simp only [hsz, if_false]
          have := (hi.remove_in (L := w.heap) rfl hhome hfind).1
          split <;> simpa [World.allocRemove, World.call] using this

theorem Keeps_calloc (w : World) (self count unit : Nat) (o : Oracle) :
    Keeps w (Handler.calloc w self count unit o).1 := by
  unfold Handler.calloc
  cases hs : w.heap[self]? with
  | none => exact Keeps_refl w
  | some h =>
    simp only
    by_cases hthr : mulSize count unit < h.m_threshold
    · simp only [hthr, if_true]
      by_cases hret : o.ret = 0
      · simp only [hret, ne_eq, not_true_eq_false, if_false]
        refine Keeps.of_calls [Call.orig_calloc count unit 0] rfl rfl rfl ?_
        intro H _ hi _
        simpa [holdStep, traceAll, Call.routed] using hi
      · simp only [hret, ne_eq, not_false_eq_true, if_true]
        refine Keeps.of_calls [Call.orig_calloc count unit o.ret] rfl rfl rfl ?_
        intro H hf hi _
        simp only [traceAll, Call.fresh, hret, false_or, Bool.and_true, decide_eq_true_eq] at hf
        have := hi.insert (p := self) ⟨mulSize count unit, 0⟩ hs hf
        simpa [World.call, World.allocInsert, holdStep, hret, traceAll, Call.routed,
          backingOf_zero] using this
    · simp only [hthr, if_false]
      have hk := getMemkind_ne_zero w
      by_cases hret : o.ret = 0
      · simp only [hret, ne_eq, not_true_eq_false, if_false]
        refine Keeps.of_calls [Call.memkind_calloc _ count unit 0] rfl rfl rfl ?_
        intro H _ hi _
        simpa [holdStep, traceAll, Call.routed] using hi
      · simp only [hret, ne_eq, not_false_eq_true, if_true]
        refine Keeps.of_calls [Call.memkind_calloc _ count unit o.ret] rfl rfl rfl ?_
        intro H hf hi hdef
        simp only [traceAll, Call.fresh, hret, false_or, Bool.and_true, decide_eq_true_eq] at hf
        have := hi.insert_in (p := self)
          ⟨mulSize count unit, w.select (mulSize count unit) (h.stack o.bt)⟩
          (allRecords_log w.heap self true o.ret (mulSize count unit) (h.stack o.bt))
          (log_get w.heap self h true o.ret (mulSize count unit) (h.stack o.bt) hs) hf
        simpa [World.call, World.allocInsert, World.log, holdStep, hret, traceAll, Call.routed,
          backingOf_ne_zero (hk hdef), World.select] using this

theorem Keeps_memalign (w : World) (self pptr bound size : Nat) (o : Oracle) :
    Keeps w (Handler.memalign w self pptr bound size o).1 := by
  unfold Handler.memalign
  cases hs : w.heap[self]? with
  | none => exact Keeps_refl w
  | some h =>
    simp only
    by_cases hthr : size < h.m_threshold
    · simp only [hthr, if_true]
      by_cases herr : o.err = 0
      · simp only [herr, if_true]
        refine Keeps.of_calls [Call.orig_posix_memalign bound size 0 o.ret] rfl rfl rfl ?_
        intro H hf hi _
        simp only [traceAll, Call.fresh, ne_eq, not_true_eq_false, false_or, Bool.and_true,
          decide_eq_true_eq] at hf
        have := hi.insert (p := self) ⟨size, 0⟩ hs hf
        simpa [World.call, World.allocInsert, holdStep, traceAll, Call.routed,
          backingOf_zero] using this
      · simp only [herr, if_false]
        refine Keeps.of_calls [Call.orig_posix_memalign bound size o.err o.ret] rfl rfl rfl ?_
        intro H _ hi _
        simpa [holdStep, herr, traceAll, Call.routed] using hi
    · simp only [hthr, if_false]
      have hk := getMemkind_ne_zero w
      by_cases herr : o.err = 0
      · simp only [herr, if_true]
        refine Keeps.of_calls [Call.memkind_posix_memalign _ bound size 0 o.ret] rfl rfl rfl ?_
        intro H hf hi hdef
        simp only [traceAll, Call.fresh, ne_eq, not_true_eq_false, false_or, Bool.and_true,
          decide_eq_true_eq] at hf
        have := hi.insert_in (p := self) ⟨size, w.select size (h.stack o.bt)⟩
          (allRecords_log w.heap self true o.ret size (h.stack o.bt))
          (log_get w.heap self h true o.ret size (h.stack o.bt) hs) hf
        simpa [World.call, World.allocInsert, World.log, holdStep, traceAll, Call.routed,
          backingOf_ne_zero (hk hdef), World.select] using this
      · simp only [herr, if_false]
        refine Keeps.of_calls [Call.memkind_posix_memalign _ bound size o.err o.ret]
          rfl rfl rfl ?_
        intro H _ hi _
        simpa [holdStep, herr, traceAll, Call.routed] using hi

theorem upd_get_some {heap : List Handler} {q : Nat} {x : Handler} (p : Nat)
    (f : Handler → Handler) (h : heap[q]? = some x) :
    ∃ y, (updHandler heap p f)[q]? = some y := by
  rw [updHandler_get]
  by_cases hq : q = p
  · subst hq
    simp [h]
  · simp [hq, h]

/-- Moving a record: the old address is released and removed, the new address
(the same one, or one nobody held) is recorded under the backing holding it. -/
theorem Inv.move {heap L : List Handler} {H : Holder} (hi : Inv heap H)
    {home self old new : Nat} {hh h : Handler} {oldinfo : Alloc} (info : Alloc)
    (hL : L.map Handler.m_allocs = heap.map Handler.m_allocs)
    (hhome : heap[home]? = some hh) (hfind : mapFind hh.m_allocs old = some oldinfo)
    (hself : heap[self]? = some h) (hfresh : new = old ∨ H new = none) :
    Inv (updHandler (updHandler L home (fun h => h.allocRemove old)) self
        (fun h => h.allocInsert new info))
      ((H.put old none).put new (some (backingOf info.kind))) := by
  have h1 := (hi.remove_in hL hhome hfind).1
  obtain ⟨hs1, hself1, _⟩ := get_of_tables hL hself
  obtain ⟨y, hy⟩ := upd_get_some home (fun h => h.allocRemove old) hself1
  refine h1.insert info hy ?_
  rcases hfresh with rfl | hn
  · simp [Holder.put]
  · by_cases e : new = old
    · simp [Holder.put, e]
    · simp [Holder.put, e, hn]

theorem put_comm (H : Holder) {a b : Nat} (x y : Option Backing) (hab : a ≠ b) (c : Nat) :
    ((H.put a x).put b y) c = ((H.put b y).put a x) c := by
  simp only [Holder.put]
  by_cases h1 : c = a
  · by_cases h2 : c = b
    · exact absurd (h1.symm.trans h2) hab
    · simp [h1, h2]
      intro h3
      exact absurd h3 hab
  · simp [h1]

theorem Ext_refl (w : World) : Ext w w [] :=
  ⟨by simp, rfl, rfl, rfl⟩

theorem Ext.call {w L : World} {cs : List Call} (h : Ext w L cs) (c : Call) :
    Ext w (L.call c) (cs ++ [c]) :=
  ⟨by simp [World.call, h.1], h.2.1, h.2.2.1, h.2.2.2⟩

theorem Ext.log {w L : World} {cs : List Call} (h : Ext w L cs) (p : Nat) (alloc : Bool)
    (base size : Nat) (sbuf : Option (List LibAddr)) :
    Ext w (L.log p alloc base size sbuf) cs :=
  ⟨h.1, h.2.1, h.2.2.1, (tables_log L.heap p alloc base size sbuf).trans h.2.2.2⟩

theorem Ext.ite {w A B : World} {cs : List Call} (c : Prop) [Decidable c]
    (hA : Ext w A cs) (hB : Ext w B cs) : Ext w (if c then A else B) cs := by
  split
  · exact hA
  · exact hB

/-- An operation that leaves the tables alone and whose calls change no holder. -/
theorem Keeps.of_ext {w L : World} {cs : List Call} (hE : Ext w L cs)
    (hmain : ∀ H : Holder, traceAll Call.fresh H cs = true → Inv w.heap H →
      w.MEMKIND_DEFAULT ≠ 0 →
      traceAll Call.routed H cs = true ∧ ∀ a, holdAfter H cs a = H a) :
    Keeps w L := by
  refine Keeps.of_calls cs hE.2.1 hE.2.2.1 hE.1 ?_
  intro H hf hi hdef
  obtain ⟨h1, h2⟩ := hmain H hf hi hdef
  exact ⟨(hi.same_tables (allRecords_of_tables hE.2.2.2)).congr h2, h1⟩

/-- An operation that moves one record from `old` to `new`. -/
theorem Keeps.of_move {w L : World} {cs : List Call} (hE : Ext w L cs)
    {home self old n : Nat} {hh h : Handler} {oldinfo : Alloc} (info : Alloc)
    (hhome : w.heap[home]? = some hh) (hfind : mapFind hh.m_allocs old = some oldinfo)
    (hself : w.heap[self]? = some h)
    (hmain : ∀ H : Holder, traceAll Call.fresh H cs = true → Inv w.heap H →
      w.MEMKIND_DEFAULT ≠ 0 →
      traceAll Call.routed H cs = true ∧ (n = old ∨ H n = none) ∧
        ∀ a, holdAfter H cs a = ((H.put old none).put n (some (backingOf info.kind))) a) :
    Keeps w ((L.allocRemove home old).allocInsert self n info) := by
  refine Keeps.of_calls cs hE.2.1 hE.2.2.1 hE.1 ?_
  intro H hf hi hdef
  obtain ⟨h1, h2, h3⟩ := hmain H hf hi hdef
  exact ⟨(hi.move info hE.2.2.2 hhome hfind hself h2).congr h3, h1⟩

theorem Keeps_realloc (w : World) (self pptr size : Nat) (o : Oracle) :
    Keeps w (Handler.realloc w self pptr size o).1 := by
  unfold Handler.realloc
  cases hs : w.heap[self]? with
  | none => exact Keeps_refl w
  | some h =>
    simp only
    cases hl : w.allocLookup self pptr with
    | none => exact Keeps_refl w
    | some r =>
      obtain ⟨home, oldinfo⟩ := r
      obtain ⟨hh, hhome, hfind⟩ := allocLookup_some hl
      simp only
      by_cases hthr : size < h.m_threshold
      · simp only [hthr, if_true]
        by_cases hk : oldinfo.kind = 0
        · simp only [hk, ne_eq, not_true_eq_false, if_false]
          by_cases hret : o.ret = 0
          · simp only [hret, not_true_eq_false, if_false]
            refine Keeps.of_ext ((Ext_refl w).call _) ?_
            intro H _ hi _
            have hheld := hi.held hhome hfind
            simp [traceAll, Call.routed, holdStep, hheld, hk, backingOf_zero]
          · simp only [hret, not_false_eq_true, if_true]
            have hE := Ext.ite (oldinfo.size ≥ h.m_threshold)
              ((((Ext_refl w).call (Call.orig_realloc pptr size o.ret))).log self false pptr
                oldinfo.size (h.stack o.bt)) ((Ext_refl w).call _)
            have := Keeps.of_move hE (n := o.ret) ⟨size, 0⟩ hhome hfind hs ?_
            · exact this
            · intro H hf hi _
              have hheld := hi.held hhome hfind
              simp only [List.nil_append, traceAll, Call.fresh, hret, false_or, Bool.and_true,
                decide_eq_true_eq] at hf
              simp [traceAll, Call.routed, holdStep, hheld, hk, backingOf_zero, hret, hf]
        · simp only [hk, ne_eq, not_false_eq_true, if_true]
          by_cases hret : o.ret = 0
          · simp only [hret, not_true_eq_false, if_false]
            refine Keeps.of_ext ((Ext_refl w).call _) ?_
            intro H _ hi _
            have hheld := hi.held hhome hfind
            simp [traceAll, Call.routed, holdStep, hheld, hk, backingOf_ne_zero hk]
          · simp only [hret, not_false_eq_true, if_true]
            have hE := Ext.ite (oldinfo.size ≥ h.m_threshold)
              ((((Ext_refl w).call (Call.memkind_realloc oldinfo.kind pptr size o.ret))).log
                self false pptr oldinfo.size (h.stack o.bt)) ((Ext_refl w).call _)
            have := Keeps.of_move hE (n := o.ret) ⟨size, oldinfo.kind⟩ hhome hfind hs ?_
            · exact this
            · intro H hf hi _
              have hheld := hi.held hhome hfind
              simp only [List.nil_append, traceAll, Call.fresh, hret, false_or, Bool.and_true,
                decide_eq_true_eq] at hf
              simp [traceAll, Call.routed, holdStep, hheld, hk, backingOf_ne_zero hk, hret, hf]
      · simp only [hthr, if_false]
        have hnk := fun hdef => select_ne_zero w hdef size (h.stack o.bt)
        by_cases hk : oldinfo.kind = w.select size (h.stack o.bt)
        · simp only [hk, if_true]
          by_cases hret : o.ret = 0
          · simp only [hret, ne_eq, not_true_eq_false, if_false]
            refine Keeps.of_ext ((Ext_refl w).call _) ?_
            intro H _ hi hdef
            have hheld := hi.held hhome hfind
            rw [hk, backingOf_ne_zero (hnk hdef)] at hheld
            simp [traceAll, Call.routed, holdStep, hheld]
          · simp only [hret, ne_eq, not_false_eq_true, if_true]
            have hE := (Ext.ite (oldinfo.size ≥ h.m_threshold)
              ((((Ext_refl w).call (Call.memkind_realloc (w.select size (h.stack o.bt)) pptr
                size o.ret))).log self false pptr oldinfo.size (h.stack o.bt))
              ((Ext_refl w).call _)).log self true o.ret size (h.stack o.bt)
            have := Keeps.of_move hE (n := o.ret) ⟨size, w.select size (h.stack o.bt)⟩
              hhome hfind hs ?_
            · exact this
            · intro H hf hi hdef
              have hheld := hi.held hhome hfind
              rw [hk, backingOf_ne_zero (hnk hdef)] at hheld
              simp only [List.nil_append, traceAll, Call.fresh, hret, false_or, Bool.and_true,
                decide_eq_true_eq] at hf
              simp [traceAll, Call.routed, holdStep, hheld, hret, hf,
                backingOf_ne_zero (hnk hdef)]
        · simp only [hk, if_false]
          by_cases hret : o.ret = 0
          · simp only [hret, ne_eq, not_true_eq_false, if_false]
            refine Keeps.of_ext ((Ext_refl w).call _) ?_
            intro H _ hi hdef
            simp [traceAll, Call.routed, holdStep]
          · simp only [hret, ne_eq, not_false_eq_true, if_true]
            have hmain : ∀ (c : Call), (c = Call.memkind_free oldinfo.kind pptr ∧
                oldinfo.kind ≠ 0 ∨ c = Call.orig_free pptr ∧ oldinfo.kind = 0) →
                ∀ H : Holder, traceAll Call.fresh H
                  [Call.memkind_malloc (w.select size (h.stack o.bt)) size o.ret,
                   Call.memcpy o.ret pptr (if oldinfo.size < size then oldinfo.size else size),
                   c] = true →
                Inv w.heap H → w.MEMKIND_DEFAULT ≠ 0 →
                traceAll Call.routed H
                  [Call.memkind_malloc (w.select size (h.stack o.bt)) size o.ret,
                   Call.memcpy o.ret pptr (if oldinfo.size < size then oldinfo.size else size),
                   c] = true ∧ (o.ret = pptr ∨ H o.ret = none) ∧
                ∀ a, holdAfter H
                  [Call.memkind_malloc (w.select size (h.stack o.bt)) size o.ret,
                   Call.memcpy o.ret pptr (if oldinfo.size < size then oldinfo.size else size),
                   c] a = ((H.put pptr none).put o.ret
                     (some (backingOf (w.select size (h.stack o.bt))))) a := by
              intro c hc H hf hi hdef
              have hheld := hi.held hhome hfind
              simp only [traceAll, Call.fresh, hret, false_or, Bool.and_eq_true,
                decide_eq_true_eq] at hf
              have hfr := hf.1
              have hne : pptr ≠ o.ret := by
                intro e
                rw [e, hfr] at hheld
                exact absurd hheld (by simp)
              have hput : (H.put o.ret (some (Backing.kind (w.select size (h.stack o.bt)))))
                  pptr = H pptr := by
                simp [Holder.put, hne]
              refine ⟨?_, Or.inr hfr, ?_⟩
              · rcases hc with ⟨rfl, hk0⟩ | ⟨rfl, hk0⟩
                · simp [traceAll, Call.routed, holdStep, hret, hput, hheld,
                    backingOf_ne_zero hk0]
                · simp [traceAll, Call.routed, holdStep, hret, hput, hheld, hk0,
                    backingOf_zero]
              · intro a
                have hs2 : holdAfter H
                    [Call.memkind_malloc (w.select size (h.stack o.bt)) size o.ret,
                     Call.memcpy o.ret pptr
                       (if oldinfo.size < size then oldinfo.size else size), c] =
                    (H.put o.ret (some (Backing.kind (w.select size (h.stack o.bt))))).put
                      pptr none := by
                  rcases hc with ⟨rfl, _⟩ | ⟨rfl, _⟩ <;> simp [holdStep, hret]
                rw [hs2, backingOf_ne_zero (hnk hdef)]
                exact put_comm H _ _ (Ne.symm hne) a
            by_cases hk0 : oldinfo.kind = 0
            · simp only [hk0, not_true_eq_false, if_false]
              have hE := (Ext.ite (oldinfo.size ≥ h.m_threshold)
                ((((((Ext_refl w).call (Call.memkind_malloc (w.select size (h.stack o.bt))
                  size o.ret)).call (Call.memcpy o.ret pptr
                    (if oldinfo.size < size then oldinfo.size else size))).call
                    (Call.orig_free pptr))).log self false pptr oldinfo.size (h.stack o.bt))
                ((((Ext_refl w).call _).call _).call _)).log self true o.ret size
                  (h.stack o.bt)
              exact Keeps.of_move hE (n := o.ret) ⟨size, w.select size (h.stack o.bt)⟩
                hhome hfind hs (hmain _ (Or.inr ⟨rfl, hk0⟩))
            · simp only [hk0, not_false_eq_true, if_true]
              have hE := (Ext.ite (oldinfo.size ≥ h.m_threshold)
                ((((((Ext_refl w).call (Call.memkind_malloc (w.select size (h.stack o.bt))
                  size o.ret)).call (Call.memcpy o.ret pptr
                    (if oldinfo.size < size then oldinfo.size else size))).call
                    (Call.memkind_free oldinfo.kind pptr))).log self false pptr oldinfo.size
                      (h.stack o.bt))
                ((((Ext_refl w).call _).call _).call _)).log self true o.ret size
                  (h.stack o.bt)
              exact Keeps.of_move hE (n := o.ret) ⟨size, w.select size (h.stack o.bt)⟩
                hhome hfind hs (hmain _ (Or.inl ⟨rfl, hk0⟩))

theorem Keeps_step (w : World) (op : Op) : Keeps w (step w op) := by
  cases op with
  | malloc self size o => exact Keeps_malloc w self size o
  | calloc self count unit o => exact Keeps_calloc w self count unit o
  | memalign self pptr bound size o => exact Keeps_memalign w self pptr bound size o
  | realloc self pptr size o => exact Keeps_realloc w self pptr size o
  | free self ptr o => exact Keeps_free w self ptr o

theorem run_cons (w : World) (op : Op) (ops : List Op) :
    run w (op :: ops) = run (step w op) ops := rfl

/-- Operations only append to the record of calls. -/
theorem run_calls (ops : List Op) : ∀ w : World, ∃ more, (run w ops).calls = w.calls ++ more := by
  induction ops with
  | nil => intro w; exact ⟨[], by simp [run]⟩
  | cons op ops ih =>
    intro w
    obtain ⟨more, hm⟩ := ih (step w op)
    obtain ⟨_, _, new, hn, _⟩ := Keeps_step w op
    exact ⟨new ++ more, by rw [run_cons, hm, hn, List.append_assoc]⟩

/-- The answers of the backings during the first operation of a run. -/
theorem fresh_first {w : World} {op : Op} {ops : List Op} {new : List Call}
    (hn : (step w op).calls = w.calls ++ new)
    (hf : traceAll Call.fresh Holder.empty (run w (op :: ops)).calls = true) :
    traceAll Call.fresh (holdAfter Holder.empty w.calls) new = true := by
  obtain ⟨more, hm⟩ := run_calls ops (step w op)
  rw [run_cons, hm, hn, traceAll_append, traceAll_append] at hf
  simp only [Bool.and_eq_true] at hf
  exact hf.1.2

theorem run_inv (ops : List Op) : ∀ w : World,
    Inv w.heap (holdAfter Holder.empty w.calls) →
    traceAll Call.routed Holder.empty w.calls = true →
    w.MEMKIND_DEFAULT ≠ 0 →
    traceAll Call.fresh Holder.empty (run w ops).calls = true →
    Inv (run w ops).heap (holdAfter Holder.empty (run w ops).calls) ∧
      traceAll Call.routed Holder.empty (run w ops).calls = true := by
  induction ops with
  | nil => intro w hi hr _ _; exact ⟨hi, hr⟩
  | cons op ops ih =>
    intro w hi hr hdef hf
    obtain ⟨hd, _, new, hn, hmain⟩ := Keeps_step w op
    obtain ⟨hi2, hr2⟩ := hmain (fresh_first hn hf) hi hdef
    rw [run_cons] at hf ⊢
    refine ih (step w op) hi2 ?_ (by rw [hd]; exact hdef) hf
    rw [hn, traceAll_append, hr, hr2]
    rfl

theorem allRecords_empty {heap : List Handler} (h : ∀ x ∈ heap, x.m_allocs = []) :
    allRecords heap = [] := by
  unfold allRecords
  induction heap with
  | nil => rfl
  | cons x t ih =>
    simp only [List.flatMap_cons, h x (List.mem_cons_self _ _), List.nil_append]
    exact ih (fun y hy => h y (List.mem_cons_of_mem _ hy))

theorem Inv.start {w : World} (h : ∀ x ∈ w.heap, x.m_allocs = []) :
    Inv w.heap (holdAfter Holder.empty w.calls) := by
  unfold Inv
  rw [allRecords_empty h]
  simp

/-- Claim C1.  Routing invariant: start from any set of handlers with empty
tables and no backing call made, and run any sequence of `malloc`, `calloc`,
`memalign`, `realloc` and `free` on any of them (a handler made later has an
empty table until its first operation, so it may be taken to be there from
the start).  If the backings answer well (an address they return is held by
no backing at that moment, a reallocation may return its own argument, and a
null answer of a reallocation leaves the old block allocated) and the handle
`MEMKIND_DEFAULT` is not null, then every record of every table names the
backing that holds its address at the end (record kind `nullptr` for the
passthrough, kind `K` for memkind kind `K`), and every free and reallocation
call that was made handed its pointer to the backing holding it at that
moment. -/
theorem routing_invariant (w0 : World) (ops : List Op)
    (hempty : ∀ x ∈ w0.heap, x.m_allocs = []) (hcalls : w0.calls = [])
    (hdef : w0.MEMKIND_DEFAULT ≠ 0)
    (hfresh : traceAll Call.fresh Holder.empty (run w0 ops).calls = true) :
    (∀ (p : Nat) (h : Handler) (a : Nat) (info : Alloc),
        (run w0 ops).heap[p]? = some h → (a, info) ∈ h.m_allocs →
        holdAfter Holder.empty (run w0 ops).calls a = some (backingOf info.kind)) ∧
      traceAll Call.routed Holder.empty (run w0 ops).calls = true := by
  obtain ⟨hi, hr⟩ := run_inv ops w0 (Inv.start hempty) (by rw [hcalls]; rfl) hdef hfresh
  exact ⟨fun p h a info hp hm => hi.2 (a, info) (mem_allRecords hp hm), hr⟩

/-! ## The ledger of live allocations -/

theorem eraseP_key {live : List (Nat × Nat)} (p : Nat) (h : (live.map Prod.fst).Nodup) :
    live.eraseP (fun e => decide (e.1 = p)) = live.filter (fun e => decide (e.1 ≠ p)) := by
  induction live with
  | nil => rfl
  | cons e l ih =>
    simp only [List.map_cons, List.nodup_cons] at h
    by_cases he : e.1 = p
    · have hall : ∀ x ∈ l, decide (x.1 ≠ p) = true := by
        intro x hx
        have : x.1 ≠ p := by
          intro hxp
          exact h.1 (List.mem_map.mpr ⟨x, hx, hxp.trans he.symm⟩)
        simpa using this
      have hl := List.filter_eq_self.mpr hall
      simp only [List.eraseP_cons, he, decide_True, if_true, List.filter_cons, ne_eq,
        not_true_eq_false, decide_False, Bool.false_eq_true, if_false]
      exact hl.symm
    · simp only [List.eraseP_cons, he, decide_False, Bool.false_eq_true, if_false,
        List.filter_cons, ne_eq, not_false_eq_true, decide_True, if_true, ih h.2, cond_false]

theorem filter_key_single {F : List (Nat × Alloc)} {a : Nat} {x : Nat × Alloc}
    (hall : ∀ e ∈ F, e.1 = a) (hnd : (F.map Prod.fst).Nodup) (hx : x ∈ F) : F = [x] := by
  cases F with
  | nil => simp at hx
  | cons e F2 =>
    cases F2 with
    | nil =>
      rw [List.mem_singleton.mp hx]
    | cons e2 F3 =>
      exfalso
      simp only [List.map_cons, List.nodup_cons, List.mem_cons, not_or] at hnd
      have h1 := hall e (List.mem_cons_self _ _)
      have h2 := hall e2 (List.mem_cons_of_mem _ (List.mem_cons_self _ _))
      exact hnd.1.1 (h1.trans h2.symm)

theorem liveRecords_insert {heap heap1 : List Handler} {H : Holder} (hi : Inv heap H)
    {p a : Nat} {hd : Handler} (info : Alloc)
    (he : heap1.map Handler.m_allocs = heap.map Handler.m_allocs)
    (hp : heap1[p]? = some hd) (ha : H a = none) :
    (liveRecords (updHandler heap1 p (fun h => h.allocInsert a info))).Perm
      ((a, info.size) :: liveRecords heap) := by
  have hi1 := hi.same_tables (allRecords_of_tables he)
  have := allRecords_insert heap1 p a info hd hp (hi1.absent_table hp ha)
  unfold liveRecords
  rw [← allRecords_of_tables he]
  exact this.map _

theorem liveRecords_remove {heap heap1 : List Handler} {H : Holder} (hi : Inv heap H)
    {p a : Nat} {hd : Handler} {info : Alloc}
    (he : heap1.map Handler.m_allocs = heap.map Handler.m_allocs)
    (hp : heap[p]? = some hd) (hf : mapFind hd.m_allocs a = some info) :
    (liveRecords heap).Perm
      ((a, info.size) :: liveRecords (updHandler heap1 p (fun h => h.allocRemove a))) := by
  obtain ⟨hd1, hp1, ha1⟩ := get_of_tables he hp
  have hi1 := hi.same_tables (allRecords_of_tables he)
  have hperm := allRecords_remove heap1 p a hd1 hp1
  have hnd := ((hperm.map Prod.fst).nodup_iff).mp hi1.1
  rw [List.map_append, List.nodup_append] at hnd
  have hF : hd1.m_allocs.filter (fun e => decide (e.1 = a)) = [(a, info)] := by
    apply filter_key_single (a := a)
    · intro e hm
      simpa using (List.mem_filter.mp hm).2
    · exact hnd.1
    · simp [List.mem_filter, ha1, mapFind_mem hf]
  rw [hF] at hperm
  unfold liveRecords
  rw [← allRecords_of_tables he]
  exact hperm.map _

theorem led_malloc (w : World) (self size : Nat) (o : Oracle) (H : Holder) (new : List Call)
    (hn : (Handler.malloc w self size o).1.calls = w.calls ++ new)
    (hf : traceAll Call.fresh H new = true) (hi : Inv w.heap H) :
    (ledgerStep w (liveRecords w.heap) (.malloc self size o)).Perm
      (liveRecords (Handler.malloc w self size o).1.heap) := by
  cases hs : w.heap[self]? with
  | none => simp [ledgerStep, Handler.malloc, hs]
  | some h =>
    by_cases hret : o.ret = 0
    · by_cases hthr : size < h.m_threshold <;>
        simp [ledgerStep, Handler.malloc, hs, hthr, hret, World.call]
    · by_cases hthr : size < h.m_threshold
      · simp only [Handler.malloc, hs, hthr, if_true, hret, ne_eq, not_false_eq_true,
          World.allocInsert, World.call, List.append_cancel_left_eq] at hn
        subst hn
        simp only [traceAll, Call.fresh, hret, false_or, Bool.and_true, decide_eq_true_eq] at hf
        simp only [ledgerStep, Handler.malloc, hs, hthr, if_true, hret, ne_eq,
          not_false_eq_true, World.allocInsert, World.call]
        exact (liveRecords_insert hi ⟨size, 0⟩ rfl hs hf).symm
      · simp only [Handler.malloc, hs, hthr, if_false, hret, ne_eq, not_false_eq_true, if_true,
          World.allocInsert, World.call, World.log, List.append_cancel_left_eq] at hn
        subst hn
        simp only [traceAll, Call.fresh, hret, false_or, Bool.and_true, decide_eq_true_eq] at hf
        simp only [ledgerStep, Handler.malloc, hs, hthr, if_false, hret, ne_eq,
          not_false_eq_true, if_true, World.allocInsert, World.call, World.log]
        exact (liveRecords_insert hi ⟨size, _⟩ (tables_log _ _ _ _ _ _)
          (log_get w.heap self h true o.ret size (h.stack o.bt) hs) hf).symm

theorem led_calloc (w : World) (self count unit : Nat) (o : Oracle) (H : Holder)
    (new : List Call)
    (hn : (Handler.calloc w self count unit o).1.calls = w.calls ++ new)
    (hf : traceAll Call.fresh H new = true) (hi : Inv w.heap H) :
    (ledgerStep w (liveRecords w.heap) (.calloc self count unit o)).Perm
      (liveRecords (Handler.calloc w self count unit o).1.heap) := by
  cases hs : w.heap[self]? with
  | none => simp [ledgerStep, Handler.calloc, hs]
  | some h =>
    by_cases hret : o.ret = 0
    · by_cases hthr : mulSize count unit < h.m_threshold <;>
        simp [ledgerStep, Handler.calloc, hs, hthr, hret, World.call]
    · by_cases hthr : mulSize count unit < h.m_threshold
      · simp only [Handler.calloc, hs, hthr, if_true, hret, ne_eq, not_false_eq_true,
          World.allocInsert, World.call, List.append_cancel_left_eq] at hn
        subst hn
        simp only [traceAll, Call.fresh, hret, false_or, Bool.and_true, decide_eq_true_eq] at hf
        simp only [ledgerStep, Handler.calloc, hs, hthr, if_true, hret, ne_eq,
          not_false_eq_true, World.allocInsert, World.call]
        exact (liveRecords_insert hi ⟨mulSize count unit, 0⟩ rfl hs hf).symm
      · simp only [Handler.calloc, hs, hthr, if_false, hret, ne_eq, not_false_eq_true, if_true,
          World.allocInsert, World.call, World.log, List.append_cancel_left_eq] at hn
        subst hn
        simp only [traceAll, Call.fresh, hret, false_or, Bool.and_true, decide_eq_true_eq] at hf
        simp only [ledgerStep, Handler.calloc, hs, hthr, if_false, hret, ne_eq,
          not_false_eq_true, if_true, World.allocInsert, World.call, World.log]
        exact (liveRecords_insert hi ⟨mulSize count unit, _⟩ (tables_log _ _ _ _ _ _)
          (log_get w.heap self h true o.ret (mulSize count unit) (h.stack o.bt) hs) hf).symm

theorem led_memalign (w : World) (self pptr bound size : Nat) (o : Oracle) (H : Holder)
    (new : List Call)
    (hn : (Handler.memalign w self pptr bound size o).1.calls = w.calls ++ new)
    (hf : traceAll Call.fresh H new = true) (hi : Inv w.heap H)
    (hself : w.heap[self]? ≠ none) :
    (ledgerStep w (liveRecords w.heap) (.memalign self pptr bound size o)).Perm
      (liveRecords (Handler.memalign w self pptr bound size o).1.heap) := by
  cases hs : w.heap[self]? with
  | none => exact absurd hs hself
  | some h =>
    by_cases herr : o.err = 0
    · by_cases hthr : size < h.m_threshold
      · simp only [Handler.memalign, hs, hthr, if_true, herr, World.allocInsert, World.call,
          List.append_cancel_left_eq] at hn
        subst hn
        simp only [traceAll, Call.fresh, ne_eq, not_true_eq_false, false_or, Bool.and_true,
          decide_eq_true_eq] at hf
        simp only [ledgerStep, Handler.memalign, hs, hthr, if_true, herr, World.allocInsert,
          World.call]
        exact (liveRecords_insert hi ⟨size, 0⟩ rfl hs hf).symm
      · simp only [Handler.memalign, hs, hthr, if_false, herr, if_true, World.allocInsert,
          World.call, World.log, List.append_cancel_left_eq] at hn
        subst hn
        simp only [traceAll, Call.fresh, ne_eq, not_true_eq_false, false_or, Bool.and_true,
          decide_eq_true_eq] at hf
        simp only [ledgerStep, Handler.memalign, hs, hthr, if_false, herr, if_true,
          World.allocInsert, World.call, World.log]
        exact (liveRecords_insert hi ⟨size, _⟩ (tables_log _ _ _ _ _ _)
          (log_get w.heap self h true o.ret size (h.stack o.bt) hs) hf).symm
    · by_cases hthr : size < h.m_threshold <;>
        simp [ledgerStep, Handler.memalign, hs, hthr, herr, World.call]

theorem liveRecords_keys (heap : List Handler) :
    (liveRecords heap).map Prod.fst = (allRecords heap).map Prod.fst := by
  simp [liveRecords, List.map_map, Function.comp_def]

theorem led_free (w : World) (self ptr : Nat) (o : Oracle) (H : Holder) (hi : Inv w.heap H) :
    (ledgerStep w (liveRecords w.heap) (.free self ptr o)).Perm
      (liveRecords (Handler.free w self ptr o).1.heap) := by
  cases hs : w.heap[self]? with
  | none => simp [ledgerStep, Handler.free, hs]
  | some h =>
    cases hl : w.allocLookup self ptr with
    | none => simp [ledgerStep, Handler.free, hs, hl]
    | some r =>
      obtain ⟨home, info⟩ := r
      obtain ⟨hh, hhome, hfind⟩ := allocLookup_some hl
      simp only [ledgerStep, Handler.free, hs, hl, if_true, World.allocRemove]
      have hnd : ((liveRecords w.heap).map Prod.fst).Nodup := by
        rw [liveRecords_keys]
        exact hi.1
      rw [eraseP_key ptr hnd]
      have key : ∀ L : List Handler, L.map Handler.m_allocs = w.heap.map Handler.m_allocs →
          ((liveRecords w.heap).filter (fun e => decide (e.1 ≠ ptr))).Perm
            (liveRecords (updHandler L home (fun h => h.allocRemove ptr))) := by
        intro L hL
        have hp := liveRecords_remove hi hL hhome hfind
        have hout := (hi.remove_in hL hhome hfind).2
        rw [← liveRecords_keys] at hout
        have hall : ∀ x ∈ liveRecords (updHandler L home (fun h => h.allocRemove ptr)),
            decide (x.1 ≠ ptr) = true := by
          intro x hx
          have : x.1 ≠ ptr := fun e => hout (List.mem_map.mpr ⟨x, hx, e⟩)
          simpa using this
        have h2 := hp.filter (fun e => decide (e.1 ≠ ptr))
        have hc : List.filter (fun e : Nat × Nat => decide (e.1 ≠ ptr))
            ((ptr, info.size) :: liveRecords (updHandler L home (fun h => h.allocRemove ptr))) =
            List.filter (fun e : Nat × Nat => decide (e.1 ≠ ptr))
              (liveRecords (updHandler L home (fun h => h.allocRemove ptr))) := by
          rw [List.filter_cons]
          simp
        rw [hc, List.filter_eq_self.mpr hall] at h2
        exact h2
      apply key
      split <;> split <;> first | rfl | exact tables_log _ _ _ _ _ _

/-- No operation creates or destroys a handler object. -/
theorem step_length (w : World) (op : Op) : (step w op).heap.length = w.heap.length := by
  cases op <;>
    simp only [step, Handler.malloc, Handler.calloc, Handler.memalign, Handler.realloc,
      Handler.free] <;>
    (repeat' split) <;>
    simp [World.call, World.log, World.allocInsert, World.allocRemove, updHandler_length]

theorem led_step (w : World) (op : Op) (H : Holder) (new : List Call)
    (hn : (step w op).calls = w.calls ++ new) (hf : traceAll Call.fresh H new = true)
    (hi : Inv w.heap H) (hnr : op.isRealloc = false) (hself : op.self < w.heap.length) :
    (ledgerStep w (liveRecords w.heap) op).Perm (liveRecords (step w op).heap) := by
  cases op with
  | malloc self size o => exact led_malloc w self size o H new hn hf hi
  | calloc self count unit o => exact led_calloc w self count unit o H new hn hf hi
  | memalign self pptr bound size o =>
    refine led_memalign w self pptr bound size o H new hn hf hi ?_
    simp only [Op.self] at hself
    simp [List.getElem?_eq_getElem hself]
  | realloc self pptr size o => simp [Op.isRealloc] at hnr
  | free self ptr o => exact led_free w self ptr o H hi

theorem ledgerStep_perm (w : World) (op : Op) {live live2 : List (Nat × Nat)}
    (hp : live.Perm live2) (hnd : (live2.map Prod.fst).Nodup) :
    (ledgerStep w live op).Perm (ledgerStep w live2 op) := by
  cases op with
  | malloc self size o =>
    simp only [ledgerStep]
    split
    · exact hp.cons _
    · exact hp
  | calloc self count unit o =>
    simp only [ledgerStep]
    split
    · exact hp.cons _
    · exact hp
  | memalign self pptr bound size o =>
    simp only [ledgerStep]
    split
    · exact hp.cons _
    · exact hp
  | realloc self pptr size o => exact hp
  | free self ptr o =>
    simp only [ledgerStep]
    split
    · rw [eraseP_key ptr hnd, eraseP_key ptr (((hp.map Prod.fst).nodup_iff).mpr hnd)]
      exact hp.filter _
    · exact hp

theorem run_ledger (ops : List Op) : ∀ (w : World) (live : List (Nat × Nat)),
    Inv w.heap (holdAfter Holder.empty w.calls) → w.MEMKIND_DEFAULT ≠ 0 →
    traceAll Call.fresh Holder.empty (run w ops).calls = true →
    (∀ op ∈ ops, op.isRealloc = false ∧ op.self < w.heap.length) →
    live.Perm (liveRecords w.heap) →
    (ledger w live ops).Perm (liveRecords (run w ops).heap) ∧
      ((allRecords (run w ops).heap).map Prod.fst).Nodup := by
  induction ops with
  | nil => intro w live hi _ _ _ hp; exact ⟨hp, hi.1⟩
  | cons op ops ih =>
    intro w live hi hdef hf hops hp
    obtain ⟨hd, _, new, hn, hmain⟩ := Keeps_step w op
    have hf1 := fresh_first hn hf
    obtain ⟨hi2, _⟩ := hmain hf1 hi hdef
    obtain ⟨hnr, hself⟩ := hops op (List.mem_cons_self _ _)
    have hnd : ((liveRecords w.heap).map Prod.fst).Nodup := by
      rw [liveRecords_keys]
      exact hi.1
    have hl := (ledgerStep_perm w op hp hnd).trans (led_step w op _ new hn hf1 hi hnr hself)
    rw [run_cons] at hf ⊢
    refine ih (step w op) _ hi2 (by rw [hd]; exact hdef) hf ?_ hl
    intro op2 h2
    rw [step_length]
    exact hops op2 (List.mem_cons_of_mem _ h2)

/-- Distinct keys over the whole heap: no address is a key of two tables. -/
theorem keys_unique : ∀ (heap : List Handler),
    ((allRecords heap).map Prod.fst).Nodup →
    ∀ (p q : Nat) (hp hq : Handler) (a : Nat), heap[p]? = some hp → heap[q]? = some hq →
      a ∈ hp.m_allocs.map Prod.fst → a ∈ hq.m_allocs.map Prod.fst → p = q := by
  intro heap
  induction heap with
  | nil => intro _ p q hp hq a h1; simp at h1
  | cons x t ih =>
    intro hnd p q hp hq a h1 h2 ha1 ha2
    have hsplit : allRecords (x :: t) = x.m_allocs ++ allRecords t := by
      simp [allRecords]
    rw [hsplit, List.map_append, List.nodup_append] at hnd
    have hin : ∀ (n : Nat) (y : Handler), t[n]? = some y → a ∈ y.m_allocs.map Prod.fst →
        a ∈ (allRecords t).map Prod.fst := by
      intro n y hy hay
      obtain ⟨e, he, rfl⟩ := List.mem_map.mp hay
      exact List.mem_map.mpr ⟨e, mem_allRecords hy he, rfl⟩
    cases p with
    | zero =>
      cases q with
      | zero => rfl
      | succ q =>
        simp only [List.getElem?_cons_zero, Option.some.injEq] at h1
        simp only [List.getElem?_cons_succ] at h2
        subst h1
        exact absurd (hin q hq h2 ha2) (fun h => hnd.2.2 ha1 h)
    | succ p =>
      cases q with
      | zero =>
        simp only [List.getElem?_cons_zero, Option.some.injEq] at h2
        simp only [List.getElem?_cons_succ] at h1
        subst h2
        exact absurd (hin p hp h1 ha1) (fun h => hnd.2.2 ha2 h)
      | succ q =>
        simp only [List.getElem?_cons_succ] at h1 h2
        rw [ih hnd.2.1 p q hp hq a h1 h2 ha1 ha2]

/-- Claim C3.  Start from handlers with empty tables and no backing call made,
and run any sequence of `malloc`, `calloc`, `memalign` and `free` on them
(each may succeed or fail).  If the backings never return an address that is
held at that moment (and `MEMKIND_DEFAULT` is not null), then the multiset of (address, size) pairs recorded over
all tables equals the ledger of the specification (pairs returned by the
successful allocations, less the pairs of the addresses passed to successful
frees), and no address is a key of two tables. -/
theorem live_records_ledger (w0 : World) (ops : List Op)
    (hempty : ∀ x ∈ w0.heap, x.m_allocs = []) (hdef : w0.MEMKIND_DEFAULT ≠ 0)
    (hops : ∀ op ∈ ops, op.isRealloc = false ∧ op.self < w0.heap.length)
    (hfresh : traceAll Call.fresh Holder.empty (run w0 ops).calls = true) :
    ((liveRecords (run w0 ops).heap : Multiset (Nat × Nat)) = (ledger w0 [] ops : List _)) ∧
      ∀ (p q : Nat) (hp hq : Handler) (a : Nat),
        (run w0 ops).heap[p]? = some hp → (run w0 ops).heap[q]? = some hq →
        a ∈ hp.m_allocs.map Prod.fst → a ∈ hq.m_allocs.map Prod.fst → p = q := by
  have hstart : ([] : List (Nat × Nat)).Perm (liveRecords w0.heap) := by
    simp [liveRecords, allRecords_empty hempty]
  obtain ⟨h1, h2⟩ := run_ledger ops w0 [] (Inv.start hempty) hdef hfresh hops hstart
  exact ⟨Multiset.coe_eq_coe.mpr h1.symm, keys_unique _ h2⟩

/-! ## The effect of one operation, handler object by handler object -/

theorem updHandler_get_map (heap : List Handler) (p q : Nat) (f : Handler → Handler) :
    (updHandler heap p f)[q]? = (heap[q]?).map (fun h => if q = p then f h else h) := by
  rw [updHandler_get]
  by_cases hq : q = p
  · subst hq
    simp
  · simp [hq]

theorem Handler.log_eq (h : Handler) (alloc : Bool) (base size : Nat)
    (sbuf : Option (List LibAddr)) :
    h.log alloc base size sbuf =
      { h with m_log := h.m_log.map (fun l => l ++ [⟨alloc, base, size, sbuf.getD []⟩]) } := by
  unfold Handler.log
  cases hl : h.m_log with
  | none =>
    cases h
    simp only [Option.map_none']
    simp only at hl
    rw [hl]
  | some l => simp

/-- The lookup of a handler misses exactly when neither its own table nor the
table of any other registered handler has the address. -/
theorem allocLookup_eq_none {w : World} {self ptr : Nat} {hs : Handler}
    (hself : w.heap[self]? = some hs) :
    w.allocLookup self ptr = none ↔
      (mapFind hs.m_allocs ptr = none ∧ ∀ q ∈ w.s_handlers, q ≠ self → ∀ hq,
        w.heap[q]? = some hq → mapFind hq.m_allocs ptr = none) := by
  unfold World.allocLookup World.globalAllocLookup
  simp only [hself, Option.some_bind, Handler.localAllocLookup]
  cases hl : mapFind hs.m_allocs ptr with
  | some i => simp
  | none =>
    simp only [globalLookupIn_none, true_and]
    constructor
    · intro h q hq hne hd hg
      exact h q hq (by simpa using hne) hd hg
    · intro h q hq hne hd hg
      exact h q hq (by simpa using hne) hd hg

/-- What the lookup of a handler finds is a record of its own table, or else
of the table of another registered handler. -/
theorem allocLookup_found {w : World} {self ptr home : Nat} {hs : Handler} {info : Alloc}
    (hself : w.heap[self]? = some hs) (h : w.allocLookup self ptr = some (home, info)) :
    (∃ hh, w.heap[home]? = some hh ∧ mapFind hh.m_allocs ptr = some info) ∧
      ((home = self ∧ mapFind hs.m_allocs ptr = some info) ∨
        (home ≠ self ∧ home ∈ w.s_handlers ∧ mapFind hs.m_allocs ptr = none)) := by
  refine ⟨allocLookup_some h, ?_⟩
  unfold World.allocLookup World.globalAllocLookup at h
  simp only [hself, Option.some_bind, Handler.localAllocLookup] at h
  cases hl : mapFind hs.m_allocs ptr with
  | some i =>
    simp only [hl, Option.some.injEq, Prod.mk.injEq] at h
    exact Or.inl ⟨h.1.symm, by rw [h.2]⟩
  | none =>
    simp only [hl] at h
    obtain ⟨h1, h2, _⟩ := globalLookupIn_some h
    exact Or.inr ⟨fun e => h2 (by rw [e]), h1, rfl⟩

/-- The effect of `Handler::free` on a pointer its lookup finds. -/
theorem free_known {w : World} {self ptr home : Nat} {hs : Handler} {info : Alloc} (o : Oracle)
    (hself : w.heap[self]? = some hs) (hl : w.allocLookup self ptr = some (home, info)) :
    (Handler.free w self ptr o).2 = true ∧
      (Handler.free w self ptr o).1.calls = w.calls ++
        [if info.kind ≠ 0 then Call.memkind_free info.kind ptr else Call.orig_free ptr] ∧
      (Handler.free w self ptr o).1.heap.length = w.heap.length ∧
      ∀ (q : Nat) (hq : Handler), w.heap[q]? = some hq →
        (Handler.free w self ptr o).1.heap[q]? = some
          { hq with
            m_log :=
              if q = self ∧ info.size ≥ hs.m_threshold then
                hq.m_log.map (fun l => l ++ [⟨false, ptr, info.size, (hs.stack o.bt).getD []⟩])
              else hq.m_log
            m_allocs := if q = home then mapErase hq.m_allocs ptr else hq.m_allocs } := by
  refine ⟨?_, ?_, ?_, ?_⟩
  · simp [Handler.free, hself, hl]
  · simp only [Handler.free, hself, hl, World.allocRemove]
    split <;> split <;> rfl
  · simp only [Handler.free, hself, hl, World.allocRemove, updHandler_length]
    split <;> split <;> simp [World.log, World.call, updHandler_length]
  · intro q hq hget
    simp only [Handler.free, hself, hl, World.allocRemove]
    by_cases hsz : info.size ≥ hs.m_threshold
    · simp only [hsz, if_true, and_true, World.log, updHandler_get_map, Handler.log_eq,
        Handler.allocRemove]
      by_cases hk : info.kind = 0 <;>
        simp only [hk, ne_eq, not_true_eq_false, not_false_eq_true, if_true, if_false,
          World.call, hget, Option.map_some'] <;>
        split_ifs <;> simp_all
    · simp only [hsz, if_false, and_false, updHandler_get_map, Handler.allocRemove]
      by_cases hk : info.kind = 0 <;>
        simp only [hk, ne_eq, not_true_eq_false, not_false_eq_true, if_true, if_false,
          World.call, hget, Option.map_some'] <;>
        split_ifs <;> simp_all

/-- Claim C4.  `Handler::free(ptr)` on the handler `self`.  When `ptr` is
recorded in the table of `self` or of another registered handler, the lookup
settles on one such record (the own table first) in a handler `home` with
record `info`; the call returns `true`, makes exactly one backing call, the
free of `info.kind` (the passthrough free for the null kind), appends the
line `-` for (`ptr`, `info.size`) to the stream of the calling handler exactly
when `info.size >= m_threshold` (a handler without stream writes nothing),
erases `ptr` from the table of `home`, and leaves every other table and log as
it was.  When `ptr` is in none of these tables the call returns `false` and
the state is unchanged: no backing call, no table or log change. -/
theorem Handler_free_contract (w : World) (self ptr : Nat) (o : Oracle) (hs : Handler)
    (hself : w.heap[self]? = some hs) :
    ((mapFind hs.m_allocs ptr ≠ none ∨ ∃ q ∈ w.s_handlers, q ≠ self ∧ ∃ hq,
        w.heap[q]? = some hq ∧ mapFind hq.m_allocs ptr ≠ none) →
      ∃ (home : Nat) (hh : Handler) (info : Alloc),
        w.heap[home]? = some hh ∧ mapFind hh.m_allocs ptr = some info ∧
        (home = self ∨ home ∈ w.s_handlers) ∧
        (mapFind hs.m_allocs ptr ≠ none → home = self) ∧
        (Handler.free w self ptr o).2 = true ∧
        (Handler.free w self ptr o).1.calls = w.calls ++
          [if info.kind ≠ 0 then Call.memkind_free info.kind ptr else Call.orig_free ptr] ∧
        (Handler.free w self ptr o).1.heap.length = w.heap.length ∧
        ∀ (q : Nat) (hq : Handler), w.heap[q]? = some hq →
          (Handler.free w self ptr o).1.heap[q]? = some
            { hq with
              m_log :=
                if q = self ∧ info.size ≥ hs.m_threshold then
                  hq.m_log.map (fun l => l ++ [⟨false, ptr, info.size, (hs.stack o.bt).getD []⟩])
                else hq.m_log
              m_allocs := if q = home then mapErase hq.m_allocs ptr else hq.m_allocs }) ∧
    (mapFind hs.m_allocs ptr = none →
      (∀ q ∈ w.s_handlers, q ≠ self → ∀ hq, w.heap[q]? = some hq →
        mapFind hq.m_allocs ptr = none) →
      Handler.free w self ptr o = (w, false)) := by
  constructor
  · intro hrec
    cases hl : w.allocLookup self ptr with
    | none =>
      exfalso
      obtain ⟨h1, h2⟩ := (allocLookup_eq_none hself).mp hl
      rcases hrec with h | ⟨q, hq, hne, hd, hg, hf⟩
      · exact h h1
      · exact hf (h2 q hq hne hd hg)
    | some r =>
      obtain ⟨home, info⟩ := r
      obtain ⟨⟨hh, hhome, hfind⟩, hwhere⟩ := allocLookup_found hself hl
      obtain ⟨e1, e2, e3, e4⟩ := free_known o hself hl
      refine ⟨home, hh, info, hhome, hfind, ?_, ?_, e1, e2, e3, e4⟩
      · rcases hwhere with h | h
        · exact Or.inl h.1
        · exact Or.inr h.2.1
      · intro hne
        rcases hwhere with h | h
        · exact h.1
        · exact absurd h.2.2 hne
  · intro h1 h2
    have := (allocLookup_eq_none hself).mpr ⟨h1, h2⟩
    simp [Handler.free, hself, this]

/-- A pointer recorded only in the table of a registered handler `A` is found
there by the lookup of every handler. -/
theorem allocLookup_only {w : World} {A B p : Nat} {hA hB : Handler} {info : Alloc}
    (hgetB : w.heap[B]? = some hB) (hgetA : w.heap[A]? = some hA) (hreg : A ∈ w.s_handlers)
    (hrec : mapFind hA.m_allocs p = some info)
    (honly : ∀ (q : Nat) (hq : Handler), q ≠ A → w.heap[q]? = some hq →
      mapFind hq.m_allocs p = none) :
    w.allocLookup B p = some (A, info) := by
  cases hl : w.allocLookup B p with
  | none =>
    exfalso
    obtain ⟨h1, h2⟩ := (allocLookup_eq_none hgetB).mp hl
    by_cases hAB : A = B
    · subst hAB
      rw [hgetA] at hgetB
      cases hgetB
      rw [hrec] at h1
      exact absurd h1 (by simp)
    · have := h2 A hreg hAB hA hgetA
      rw [hrec] at this
      exact absurd this (by simp)
  | some r =>
    obtain ⟨home, i2⟩ := r
    obtain ⟨hh, hhome, hfind⟩ := allocLookup_some hl
    by_cases hhA : home = A
    · subst hhA
      rw [hgetA] at hhome
      cases hhome
      rw [hrec] at hfind
      cases hfind
      rfl
    · have := honly home hh hhA hhome
      rw [this] at hfind
      exact absurd hfind (by simp)

/-- Claim C9, as the code has it.  Handler `B` frees a pointer `p` that is
recorded only in the table of another registered handler `A`, with a size of
at least the threshold of `B`: the call returns `true`, the one backing call
is the free of the recorded kind, `p` is erased from the table of `A`, the
line `-` for (`p`, size) goes to the stream of `B`, the calling handler, and
the log of `A` is left as it was. -/
theorem cross_free_logs_on_caller (w : World) (A B p : Nat) (o : Oracle) (hA hB : Handler)
    (info : Alloc) (hAB : A ≠ B) (hgetA : w.heap[A]? = some hA) (hgetB : w.heap[B]? = some hB)
    (hreg : A ∈ w.s_handlers) (hrec : mapFind hA.m_allocs p = some info)
    (honly : ∀ (q : Nat) (hq : Handler), q ≠ A → w.heap[q]? = some hq →
      mapFind hq.m_allocs p = none)
    (hsize : info.size ≥ hB.m_threshold) :
    (Handler.free w B p o).2 = true ∧
      (Handler.free w B p o).1.calls = w.calls ++
        [if info.kind ≠ 0 then Call.memkind_free info.kind p else Call.orig_free p] ∧
      (Handler.free w B p o).1.heap[B]? = some
        { hB with m_log :=
            hB.m_log.map (fun l => l ++ [⟨false, p, info.size, (hB.stack o.bt).getD []⟩]) } ∧
      (Handler.free w B p o).1.heap[A]? = some { hA with m_allocs := mapErase hA.m_allocs p } ∧
      mapFind (mapErase hA.m_allocs p) p = none := by
  have hl := allocLookup_only hgetB hgetA hreg hrec honly
  obtain ⟨e1, e2, _, e4⟩ := free_known o hgetB hl
  refine ⟨e1, e2, ?_, ?_, ?_⟩
  · rw [e4 B hB hgetB]
    simp [hsize, Ne.symm hAB]
  · rw [e4 A hA hgetA]
    simp [hAB]
  · simp [mapFind_erase]

/-- Claim C9 fails as stated: `B` (handler 1) frees the block `100` of 128
bytes that `A` (handler 0) recorded; the log of `A`, the owner, stays empty
and the line `-` is in the log of `B`. -/
theorem cross_free_counterexample :
    ((Handler.free Sample.world 1 100 (Sample.answer 0)).1.heap[0]?).map Handler.m_log =
        some (some []) ∧
      ((Handler.free Sample.world 1 100 (Sample.answer 0)).1.heap[1]?).map Handler.m_log =
        some (some [⟨false, 100, 128, []⟩]) := by
  decide

theorem cross_free_logs_on_caller_witness :
    ((Handler.free Sample.world 1 100 (Sample.answer 0)).1.heap[1]?) = some
        { Sample.hB with m_log := some [⟨false, 100, 128, []⟩] } ∧
      ((Handler.free Sample.world 1 100 (Sample.answer 0)).1.heap[0]?) = some
        { Sample.hA with m_allocs := [] } := by
  have h := cross_free_logs_on_caller Sample.world 0 1 100 (Sample.answer 0) Sample.hA
    Sample.hB ⟨128, 7⟩ (by decide) rfl rfl (by decide) rfl
    (by
      intro q hq hne hget
      match q, hne, hget with
      | 1, _, hget =>
        cases hget
        rfl
      | q + 2, _, hget => simp [Sample.world] at hget)
    (by decide)
  exact ⟨h.2.2.1, h.2.2.2.1⟩

/-- Claim C5.  `Handler::malloc(size)` follows the allocation policy with the
calls `orig_malloc(size)` and `memkind_malloc(kind, size)`, and
`Handler::calloc(count, unit)` follows the same policy for the size
`count * unit` (the `size_t` product) with the calls `orig_calloc(count, unit)`
and `memkind_calloc(kind, count, unit)`. -/
theorem Handler_malloc_contract (w : World) (self : Nat) (o : Oracle) (hs : Handler)
    (hself : w.heap[self]? = some hs) :
    (∀ size : Nat, AllocPolicy w self hs o size (Call.orig_malloc size o.ret)
      (fun k => Call.memkind_malloc k size o.ret) (Handler.malloc w self size o)) ∧
    (∀ count unit : Nat, AllocPolicy w self hs o (mulSize count unit)
      (Call.orig_calloc count unit o.ret) (fun k => Call.memkind_calloc k count unit o.ret)
      (Handler.calloc w self count unit o)) := by
  have hemp : ∀ info : Alloc, mapFind hs.m_allocs o.ret = none →
      mapFind (mapEmplace hs.m_allocs o.ret info) o.ret = some info := by
    intro info h
    simp [mapFind_emplace, h]
  constructor
  · intro size
    refine ⟨?_, ?_, ?_, ?_, hemp⟩
    · simp only [Handler.malloc, hself]
      split <;> split <;> rfl
    · simp only [Handler.malloc, hself]
      split <;> split <;> rfl
    · intro h0
      simp only [Handler.malloc, hself, h0]
      split <;> rfl
    · intro h0 q hq hget
      simp only [Handler.malloc, hself, h0, ne_eq, not_false_eq_true, if_true]
      by_cases hthr : size < hs.m_threshold
      · simp only [hthr, if_true, World.allocInsert, World.call, updHandler_get_map, hget,
          Option.map_some', Handler.allocInsert]
      · simp only [hthr, if_false, World.allocInsert, World.call, World.log,
          updHandler_get_map, hget, Option.map_some', Handler.allocInsert, Handler.log_eq]
        split_ifs <;> rfl
  · intro count unit
    refine ⟨?_, ?_, ?_, ?_, hemp⟩
    · simp only [Handler.calloc, hself]
      split <;> split <;> rfl
    · simp only [Handler.calloc, hself]
      split <;> split <;> rfl
    · intro h0
      simp only [Handler.calloc, hself, h0]
      split <;> rfl
    · intro h0 q hq hget
      simp only [Handler.calloc, hself, h0, ne_eq, not_false_eq_true, if_true]
      by_cases hthr : mulSize count unit < hs.m_threshold
      · simp only [hthr, if_true, World.allocInsert, World.call, updHandler_get_map, hget,
          Option.map_some', Handler.allocInsert]
      · simp only [hthr, if_false, World.allocInsert, World.call, World.log,
          updHandler_get_map, hget, Option.map_some', Handler.allocInsert, Handler.log_eq]
        split_ifs <;> rfl

/-! ## The effect of `Handler::realloc` -/

theorem realloc_unknown {w : World} {self pptr : Nat} {hs : Handler} (size : Nat) (o : Oracle)
    (hself : w.heap[self]? = some hs) (hl : w.allocLookup self pptr = none) :
    Handler.realloc w self pptr size o = (w, false, pptr) := by
  simp [Handler.realloc, hself, hl]

theorem realloc_result {w : World} {self pptr home : Nat} {hs : Handler} {oldinfo : Alloc}
    (size : Nat) (o : Oracle) (hself : w.heap[self]? = some hs)
    (hl : w.allocLookup self pptr = some (home, oldinfo)) :
    (Handler.realloc w self pptr size o).2 = (true, o.ret) := by
  simp only [Handler.realloc, hself, hl]
  split <;> split <;> rfl

theorem realloc_failed {w : World} {self pptr home : Nat} {hs : Handler} {oldinfo : Alloc}
    (size : Nat) (o : Oracle) (hself : w.heap[self]? = some hs)
    (hl : w.allocLookup self pptr = some (home, oldinfo)) (hret : o.ret = 0) :
    (Handler.realloc w self pptr size o).1.heap = w.heap := by
  simp only [Handler.realloc, hself, hl, hret, ne_eq, not_true_eq_false, if_false]
  split
  · split <;> rfl
  · split <;> rfl

/-- The handler objects after a `Handler::realloc` that succeeds. -/
theorem realloc_heap {w : World} {self pptr home : Nat} {hs : Handler} {oldinfo : Alloc}
    (size : Nat) (o : Oracle) (hself : w.heap[self]? = some hs)
    (hl : w.allocLookup self pptr = some (home, oldinfo)) (hret : o.ret ≠ 0) :
    ∀ (q : Nat) (hq : Handler), w.heap[q]? = some hq →
      (Handler.realloc w self pptr size o).1.heap[q]? = some
        { hq with
          m_log :=
            if q = self then
              hq.m_log.map (fun l => l ++
                ((if oldinfo.size ≥ hs.m_threshold then
                    [⟨false, pptr, oldinfo.size, (hs.stack o.bt).getD []⟩] else []) ++
                 (if size < hs.m_threshold then []
                  else [⟨true, o.ret, size, (hs.stack o.bt).getD []⟩])))
            else hq.m_log
          m_allocs :=
            if q = self then
              mapEmplace (if q = home then mapErase hq.m_allocs pptr else hq.m_allocs) o.ret
                ⟨size, if size < hs.m_threshold then oldinfo.kind
                  else w.select size (hs.stack o.bt)⟩
            else if q = home then mapErase hq.m_allocs pptr else hq.m_allocs } := by
  intro q hq hget
  simp only [Handler.realloc, hself, hl, hret, ne_eq, not_false_eq_true, if_true]
  by_cases hthr : size < hs.m_threshold <;> by_cases hsz : oldinfo.size ≥ hs.m_threshold <;>
    by_cases hk0 : oldinfo.kind = 0 <;>
    by_cases hk : oldinfo.kind = w.select size (hs.stack o.bt) <;>
    simp only [hthr, hsz, hk0, hk, if_true, if_false, not_true_eq_false, not_false_eq_true,
      World.allocRemove, World.allocInsert, World.log, World.call, updHandler_get_map, hget,
      Option.map_some', Handler.allocInsert, Handler.allocRemove, Handler.log_eq,
      List.nil_append, List.append_nil, Option.map_map, Function.comp_def] <;>
    split_ifs <;> simp_all <;> cases hq.m_log <;> simp

/-- Claim C6.  `Handler::realloc` on a pointer its lookup knows, with record
`oldinfo` and new size `size`, makes these backing calls and no others:
below the threshold the passthrough `realloc` for an untagged record and the
`realloc` of the recorded kind for a kind-backed one; from the threshold on,
with the recorded kind equal to the selected kind, the `realloc` of that kind;
and in every other case a `malloc` of `size` bytes on the selected kind,
followed, when that gave a block, by a copy of `min(old size, size)` bytes from
the old block and the free of the old block by its own backing (the free of
the recorded kind, the passthrough free for an untagged record). -/
theorem Handler_realloc_backing (w : World) (self pptr size home : Nat) (o : Oracle)
    (hs : Handler) (oldinfo : Alloc) (hself : w.heap[self]? = some hs)
    (hl : w.allocLookup self pptr = some (home, oldinfo)) :
    (size < hs.m_threshold → oldinfo.kind = 0 →
      (Handler.realloc w self pptr size o).1.calls =
        w.calls ++ [Call.orig_realloc pptr size o.ret]) ∧
    (size < hs.m_threshold → oldinfo.kind ≠ 0 →
      (Handler.realloc w self pptr size o).1.calls =
        w.calls ++ [Call.memkind_realloc oldinfo.kind pptr size o.ret]) ∧
    (¬ size < hs.m_threshold → oldinfo.kind = w.select size (hs.stack o.bt) →
      (Handler.realloc w self pptr size o).1.calls =
        w.calls ++ [Call.memkind_realloc (w.select size (hs.stack o.bt)) pptr size o.ret]) ∧
    (¬ size < hs.m_threshold → oldinfo.kind ≠ w.select size (hs.stack o.bt) →
      (o.ret ≠ 0 →
        (Handler.realloc w self pptr size o).1.calls =
          w.calls ++ [Call.memkind_malloc (w.select size (hs.stack o.bt)) size o.ret,
            Call.memcpy o.ret pptr (min oldinfo.size size),
            if oldinfo.kind ≠ 0 then Call.memkind_free oldinfo.kind pptr
            else Call.orig_free pptr]) ∧
      (o.ret = 0 →
        (Handler.realloc w self pptr size o).1.calls =
          w.calls ++ [Call.memkind_malloc (w.select size (hs.stack o.bt)) size 0])) := by
  have hmin : (if oldinfo.size < size then oldinfo.size else size) = min oldinfo.size size := by
    split
    · omega
    · omega
  refine ⟨?_, ?_, ?_, ?_⟩
  · intro hthr hk
    simp only [Handler.realloc, hself, hl, hthr, hk, if_true, ne_eq, not_true_eq_false,
      if_false]
    split
    · split <;> rfl
    · rfl
  · intro hthr hk
    simp only [Handler.realloc, hself, hl, hthr, hk, if_true, ne_eq, not_false_eq_true]
    split
    · split <;> rfl
    · rfl
  · intro hthr hk
    simp only [Handler.realloc, hself, hl, hthr, hk, if_true, if_false]
    split
    · split <;> rfl
    · rfl
  · intro hthr hk
    constructor
    · intro hret
      simp only [Handler.realloc, hself, hl, hthr, hk, hret, if_false, ne_eq,
        not_false_eq_true, if_true, hmin]
      by_cases hk0 : oldinfo.kind = 0 <;> by_cases hsz : oldinfo.size ≥ hs.m_threshold <;>
        simp [hk0, hsz, World.call, World.log, World.allocInsert, World.allocRemove]
    · intro hret
      simp [Handler.realloc, hself, hl, hthr, hk, hret, World.call]

theorem Handler_realloc_backing_witness :
    (Handler.realloc Sample.world 0 200 256 (Sample.answer 300)).1.calls =
      [Call.memkind_malloc 7 256 300, Call.memcpy 300 200 32, Call.orig_free 200] := by
  have h := (Handler_realloc_backing Sample.world 0 200 256 1 (Sample.answer 300) Sample.hA
    ⟨32, 0⟩ rfl (by decide)).2.2.2 (by decide) (by decide)
  exact h.1 (by decide)

/-- Claim C7.  The tables after `Handler::realloc`.  For a pointer the lookup
knows, in handler `home` with record `oldinfo`: the result is `true` with
`*pptr` the answer of the backing; on success (a non-null answer) the table of
`home` loses the old address, then the table of the calling handler gets the
new address emplaced with `{size, kind}`, where the kind is the recorded kind
below the threshold and the selected kind from the threshold on, and no other
table changes; when the new address is the old one, or is not yet a key of the
calling handler, it maps to `{size, kind}` afterwards, and the old address is
gone from the table of `home` unless it is that very key; when the backing
fails (null) no handler object changes.  For a pointer that is in no table of
the calling or of another registered handler the result is `false` and neither
`*pptr` nor the state changes. -/
theorem Handler_realloc_tables (w : World) (self pptr size : Nat) (o : Oracle) (hs : Handler)
    (hself : w.heap[self]? = some hs) :
    (∀ (home : Nat) (oldinfo : Alloc), w.allocLookup self pptr = some (home, oldinfo) →
      (∃ hh, w.heap[home]? = some hh ∧ mapFind hh.m_allocs pptr = some oldinfo) ∧
      (Handler.realloc w self pptr size o).2 = (true, o.ret) ∧
      (o.ret = 0 → (Handler.realloc w self pptr size o).1.heap = w.heap) ∧
      (o.ret ≠ 0 →
        (∀ (q : Nat) (hq : Handler), w.heap[q]? = some hq →
          ∃ hq2, (Handler.realloc w self pptr size o).1.heap[q]? = some hq2 ∧
            hq2.m_allocs =
              if q = self then
                mapEmplace (if q = home then mapErase hq.m_allocs pptr else hq.m_allocs) o.ret
                  ⟨size, if size < hs.m_threshold then oldinfo.kind
                    else w.select size (hs.stack o.bt)⟩
              else if q = home then mapErase hq.m_allocs pptr else hq.m_allocs) ∧
        ((o.ret = pptr ∨ mapFind hs.m_allocs o.ret = none) →
          ∃ hs2, (Handler.realloc w self pptr size o).1.heap[self]? = some hs2 ∧
            mapFind hs2.m_allocs o.ret =
              some ⟨size, if size < hs.m_threshold then oldinfo.kind
                else w.select size (hs.stack o.bt)⟩) ∧
        ((home ≠ self ∨ o.ret ≠ pptr) →
          ∃ hh2, (Handler.realloc w self pptr size o).1.heap[home]? = some hh2 ∧
            mapFind hh2.m_allocs pptr = none))) ∧
    (mapFind hs.m_allocs pptr = none →
      (∀ q ∈ w.s_handlers, q ≠ self → ∀ hq, w.heap[q]? = some hq →
        mapFind hq.m_allocs pptr = none) →
      Handler.realloc w self pptr size o = (w, false, pptr)) := by
  constructor
  · intro home oldinfo hl
    obtain ⟨⟨hh, hhome, hfind⟩, hwhere⟩ := allocLookup_found hself hl
    refine ⟨⟨hh, hhome, hfind⟩, realloc_result size o hself hl,
      realloc_failed size o hself hl, ?_⟩
    intro hret
    have hheap := realloc_heap size o hself hl hret
    refine ⟨?_, ?_, ?_⟩
    · intro q hq hget
      exact ⟨_, hheap q hq hget, rfl⟩
    · intro hnew
      refine ⟨_, hheap self hs hself, ?_⟩
      simp only [if_true, mapFind_emplace]
      by_cases hhs : self = home
      · simp only [hhs, if_true, mapFind_erase]
        rcases hnew with h | h
        · simp [h]
        · by_cases e : pptr = o.ret <;> simp [e, h]
      · have hmiss : mapFind hs.m_allocs pptr = none := by
          rcases hwhere with h | h
          · exact absurd h.1.symm hhs
          · exact h.2.2
        simp only [hhs, if_false]
        rcases hnew with h | h
        · simp [h, hmiss]
        · simp [h]
    · intro hne
      refine ⟨_, hheap home hh hhome, ?_⟩
      by_cases hhs : home = self
      · have hr : o.ret ≠ pptr := by
          rcases hne with h | h
          · exact absurd hhs h
          · exact h
        simp [hhs, mapFind_emplace, mapFind_erase, hr]
      · simp [hhs, mapFind_erase]
  · intro h1 h2
    exact realloc_unknown size o hself ((allocLookup_eq_none hself).mpr ⟨h1, h2⟩)

theorem Handler_realloc_tables_witness :
    ((Handler.realloc Sample.world 1 100 32 (Sample.answer 100)).1.heap[1]?).map
        Handler.m_allocs = some [(100, ⟨32, 7⟩), (200, ⟨32, 0⟩)] ∧
      ((Handler.realloc Sample.world 1 100 32 (Sample.answer 100)).1.heap[0]?).map
        Handler.m_allocs = some [] := by
  have h := ((Handler_realloc_tables Sample.world 1 100 32 (Sample.answer 100) Sample.hB
    rfl).1 0 ⟨128, 7⟩ (by decide)).2.2.2 (by decide)
  obtain ⟨h1, ha⟩ := h.1 1 Sample.hB rfl
  obtain ⟨h0, hb⟩ := h.1 0 Sample.hA rfl
  rw [ha.1, hb.1]
  simp only [Option.map_some', ha.2, hb.2]
  decide

/-- Claim C10, as the code has it.  A `Handler::realloc` of a known pointer
that succeeds writes to the stream of the calling handler, in this order, the
line `-` for (old address, old size) exactly when the old size is at least the
threshold, and the line `+` for (new address, new size) exactly when the new
size is at least the threshold; with both sizes below the threshold it writes
nothing; and it writes to no other log. -/
theorem Handler_realloc_trace (w : World) (self pptr size home : Nat) (o : Oracle)
    (hs : Handler) (oldinfo : Alloc) (hself : w.heap[self]? = some hs)
    (hl : w.allocLookup self pptr = some (home, oldinfo)) (hret : o.ret ≠ 0) :
    ∀ (q : Nat) (hq : Handler), w.heap[q]? = some hq →
      ∃ hq2, (Handler.realloc w self pptr size o).1.heap[q]? = some hq2 ∧
        hq2.m_log =
          if q = self then
            hq.m_log.map (fun l => l ++
              ((if oldinfo.size ≥ hs.m_threshold then
                  [⟨false, pptr, oldinfo.size, (hs.stack o.bt).getD []⟩] else []) ++
               (if size ≥ hs.m_threshold then
                  [⟨true, o.ret, size, (hs.stack o.bt).getD []⟩] else [])))
          else hq.m_log := by
  intro q hq hget
  refine ⟨_, realloc_heap size o hself hl hret q hq hget, ?_⟩
  by_cases hthr : size < hs.m_threshold
  · have : ¬ size ≥ hs.m_threshold := by omega
    simp [hthr, this]
  · have : size ≥ hs.m_threshold := by omega
    simp [hthr, this]

/-- Claim C10 fails as stated: handler `B` (threshold 64) reallocates its own
untagged block `200` of 32 bytes to 128 bytes; the new size is at least the
threshold, yet the log gets the line `+` only, no line `-` for the old block. -/
theorem realloc_trace_counterexample :
    ((Handler.realloc Sample.world 1 200 128 (Sample.answer 300)).1.heap[1]?).map
        Handler.m_log = some (some [⟨true, 300, 128, []⟩]) ∧
      (Handler.realloc Sample.world 1 200 128 (Sample.answer 300)).2 = (true, 300) := by
  decide

theorem Handler_realloc_trace_witness :
    ((Handler.realloc Sample.world 1 100 32 (Sample.answer 300)).1.heap[1]?).map
        Handler.m_log = some (some [⟨false, 100, 128, []⟩]) := by
  obtain ⟨h2, h⟩ := Handler_realloc_trace Sample.world 1 100 32 0 (Sample.answer 300)
    Sample.hB ⟨128, 7⟩ rfl (by decide) (by decide) 1 Sample.hB rfl
  rw [h.1]
  simp only [Option.map_some', h.2]
  decide

theorem routing_invariant_witness :
    holdAfter Holder.empty (run Sample.fresh Sample.ops).calls 300 = some (Backing.kind 7) ∧
      traceAll Call.routed Holder.empty (run Sample.fresh Sample.ops).calls = true := by
  have h := routing_invariant Sample.fresh Sample.ops (by decide) rfl (by decide) (by decide)
  exact ⟨h.1 1 ⟨1, [(300, ⟨32, 7⟩)], some [⟨false, 100, 128, []⟩], 64, 0, 3⟩ 300 ⟨32, 7⟩
    (by decide) (by decide), h.2⟩

theorem live_records_ledger_witness :
    ((liveRecords (run Sample.fresh Sample.opsAF).heap : Multiset (Nat × Nat)) =
      ([(100, 256), (200, 16)] : List (Nat × Nat))) := by
  have h := (live_records_ledger Sample.fresh Sample.opsAF (by decide) (by decide)
    (by decide) (by decide)).1
  rw [h]
  decide

theorem Handler_free_contract_witness :
    Handler.free Sample.world 1 300 (Sample.answer 0) = (Sample.world, false) ∧
      ∃ (home : Nat) (info : Alloc),
        (Handler.free Sample.world 1 100 (Sample.answer 0)).1.calls =
          Sample.world.calls ++
            [if info.kind ≠ 0 then Call.memkind_free info.kind 100 else Call.orig_free 100] ∧
        home = 0 ∧ info = ⟨128, 7⟩ := by
  constructor
  · refine (Handler_free_contract Sample.world 1 300 (Sample.answer 0) Sample.hB rfl).2
      (by decide) ?_
    intro q hq hne hd hg
    simp only [Sample.world, List.mem_cons, List.mem_singleton, List.not_mem_nil,
      or_false] at hq
    rcases hq with rfl | rfl
    · cases hg
      decide
    · exact absurd rfl hne
  · obtain ⟨home, hh, info, h1, h2, _, _, _, h6, _⟩ :=
      (Handler_free_contract Sample.world 1 100 (Sample.answer 0) Sample.hB rfl).1
        (Or.inr ⟨0, by decide, by decide, Sample.hA, rfl, by decide⟩)
    refine ⟨0, ⟨128, 7⟩, ?_, rfl, rfl⟩
    have hcalls : (Handler.free Sample.world 1 100 (Sample.answer 0)).1.calls =
        [Call.memkind_free 7 100] := by decide
    rw [hcalls]
    decide

theorem Handler_malloc_contract_witness :
    (Handler.malloc Sample.fresh 0 256 (Sample.answer 100)).1.calls =
        [Call.memkind_malloc 7 256 100] ∧
      (Handler.calloc Sample.fresh 0 4 4 (Sample.answer 100)).1.calls =
        [Call.orig_calloc 4 4 100] := by
  have h := Handler_malloc_contract Sample.fresh 0 (Sample.answer 100)
    { Sample.hA with m_allocs := [] } rfl
  refine ⟨?_, ?_⟩
  · rw [(h.1 256).2.1]
    decide
  · rw [(h.2 4 4).2.1]
    decide

end trac

/-! ## The shims on the two defective paths -/

namespace interposer

open trac

/-- On the path of the shim `free` for a thread without handler, whatever the
tables say: the pointer goes to the passthrough free and no table changes. -/
theorem free_without_handler (w : World) (t : Thread) (ptr : Nat) (o : Oracle)
    (hp : ptr ≠ 0) (ha : check_fallback w ptr = false) (ht : t.t_handler = none) :
    free w t ptr o = (w.call (Call.orig_free ptr), t) := by
  simp [free, hp, ha, ht]

/-- On the path of the shim `realloc` for a pointer no handler knows, when the
allocation of the new block fails: usable size, the failed allocation, a copy
to the null pointer, and the passthrough free of the old block. -/
theorem realloc_unknown_failed (w : World) (t : Thread) (ptr size hd : Nat) (o : Oracle)
    (hs : Handler) (hr : w.g_ready = true) (hn : t.t_nested = false)
    (ht : t.t_handler = some hd) (hself : w.heap[hd]? = some hs) (hp : ptr ≠ 0)
    (hl : w.allocLookup hd ptr = none) (hret : o.ret = 0) :
    (realloc w t ptr size o).2.2 = 0 ∧
      (realloc w t ptr size o).1.calls = w.calls ++
        [Call.orig_malloc_usable_size ptr o.usable,
          if size < hs.m_threshold then Call.orig_malloc size 0
          else Call.memkind_malloc (w.select size (hs.stack o.bt)) size 0,
          Call.memcpy 0 ptr (if o.usable < size then o.usable else size),
          Call.orig_free ptr] := by
  have hl2 : (w.call (Call.orig_malloc_usable_size ptr o.usable)).heap[hd]? = some hs := hself
  simp only [realloc, hr, hn, install, ht, hp, realloc_unknown size o hself hl,
    Handler.malloc, hl2, hret]
  by_cases hthr : size < hs.m_threshold <;>
    simp [hthr, World.call, World.select, World.getMemkind]

/-- Claim C2, the failing input.  The library is ready, the call is not
nested, and the calling thread has no handler yet; the pointer `100` is
recorded by handler `A` with kind `7`.  The shim `free` hands it to the
passthrough free, not to kind `7`, and the record stays in the table. -/
theorem free_shim_without_handler :
    (free Sample.world ⟨false, none⟩ 100 (Sample.answer 0)).1.calls = [Call.orig_free 100] ∧
      ((free Sample.world ⟨false, none⟩ 100 (Sample.answer 0)).1.heap[0]?).map
        Handler.m_allocs = some [(100, ⟨128, 7⟩)] ∧
      Sample.world.allocLookup 0 100 = some (0, ⟨128, 7⟩) := by
  decide

/-- Claim C8, the failing input.  The library is ready, the call is not nested,
the thread has handler `B`; the pointer `300` is in no table, its usable size
is `16`, and the backing allocation for the new block fails.  The shim
`realloc` returns null, yet it has copied 16 bytes to the null pointer and
freed `300` through the passthrough. -/
theorem realloc_shim_failed_allocation :
    realloc Sample.world ⟨false, some 1⟩ 300 256 ⟨0, 0, 16, []⟩ =
      ({ Sample.world with
          calls := [Call.orig_malloc_usable_size 300 16, Call.memkind_malloc 7 256 0,
            Call.memcpy 0 300 16, Call.orig_free 300] },
        ⟨false, some 1⟩, 0) := by
  decide

end interposer

/-! ## Facts about `align` and the arena -/

namespace trac

theorem and_high_mask (x j : Nat) (hx : x < 2 ^ 64) (hj : j ≤ 64) :
    x &&& (2 ^ 64 - 1 - (2 ^ j - 1)) = x / 2 ^ j * 2 ^ j := by
  have e : 2 ^ 64 - 1 - (2 ^ j - 1) = (2 ^ (64 - j) - 1) <<< j := by
    have h1 : 2 ^ 64 = 2 ^ (64 - j) * 2 ^ j := by
      rw [← pow_add]
      congr 1
      omega
    have h2 : 1 ≤ 2 ^ j := Nat.one_le_two_pow
    have h3 : 1 ≤ 2 ^ (64 - j) := Nat.one_le_two_pow
    rw [Nat.shiftLeft_eq, Nat.sub_mul, one_mul, ← h1]
    omega
  have e3 : x / 2 ^ j * 2 ^ j = (x >>> j) <<< j := by
    rw [Nat.shiftLeft_eq, Nat.shiftRight_eq_div_pow]
  rw [e, e3]
  apply Nat.eq_of_testBit_eq
  intro i
  rw [Nat.testBit_and, Nat.testBit_shiftLeft, Nat.testBit_shiftLeft, Nat.testBit_two_pow_sub_one,
    Nat.testBit_shiftRight]
  by_cases hij : j ≤ i
  · have e2 : j + (i - j) = i := by omega
    have hge : i ≥ j := hij
    simp only [hge, decide_True, Bool.true_and, e2]
    by_cases hi : i < 64
    · have : i - j < 64 - j := by omega
      simp [this]
    · have : ¬ i - j < 64 - j := by omega
      simp only [this, decide_False, Bool.and_false]
      have h64 : 64 ≤ i := by omega
      have hpow : 2 ^ 64 ≤ 2 ^ i := Nat.pow_le_pow_right (by norm_num) h64
      exact (Nat.testBit_lt_two_pow (lt_of_lt_of_le hx hpow)).symm
  · have hge : ¬ i ≥ j := hij
    simp [hge]

theorem clzlAux_two_pow (fuel k : Nat) (hk : k < fuel) :
    clzlAux fuel (2 ^ k) = fuel - 1 - k := by
  induction fuel with
  | zero => omega
  | succ f ih =>
    unfold clzlAux
    by_cases hkf : k = f
    · subst hkf
      have : 2 ^ k / 2 ^ k % 2 = 1 := by
        rw [Nat.div_self (Nat.two_pow_pos k)]
      rw [if_pos this]
      omega
    · have hlt : k < f := by omega
      have h2 : 2 ^ k < 2 ^ f := Nat.pow_lt_pow_right (by norm_num) hlt
      have : ¬ 2 ^ k / 2 ^ f % 2 = 1 := by
        rw [Nat.div_eq_of_lt h2]
        decide
      rw [if_neg this, ih hlt]
      omega

theorem clzl_two_pow (k : Nat) (hk : k < 64) : clzl (2 ^ k) = 63 - k := by
  unfold clzl
  rw [clzlAux_two_pow 64 k hk]

/-- What `align` computes for a power-of-two bound `2 ^ k` below `2 ^ 63`: the
value rounded up to a multiple of twice the bound, in 64 bits. -/
theorem align_two_pow (value k : Nat) (hk : k < 63) :
    align value (2 ^ k) =
      wrap64 (value + (2 ^ (k + 1) - 1)) / 2 ^ (k + 1) * 2 ^ (k + 1) := by
  have hmask : wrap64 (wrap64 (1 <<< (64 - clzl (2 ^ k))) + (2 ^ 64 - 1)) = 2 ^ (k + 1) - 1 := by
    rw [clzl_two_pow k (by omega)]
    have e : 64 - (63 - k) = k + 1 := by omega
    rw [e, Nat.one_shiftLeft]
    have hlt : 2 ^ (k + 1) < 2 ^ 64 := Nat.pow_lt_pow_right (by norm_num) (by omega)
    have hpos : 1 ≤ 2 ^ (k + 1) := Nat.one_le_two_pow
    unfold wrap64
    rw [Nat.mod_eq_of_lt hlt]
    have e2 : 2 ^ (k + 1) + (2 ^ 64 - 1) = (2 ^ (k + 1) - 1) + 2 ^ 64 := by omega
    rw [e2, Nat.add_mod_right, Nat.mod_eq_of_lt (by omega)]
  unfold align
  simp only [hmask]
  exact and_high_mask _ (k + 1) (Nat.mod_lt _ (by norm_num)) (by omega)

end trac

namespace trac

theorem align_two_pow_bounds (value k : Nat) (hk : k < 63)
    (hnw : value + (2 ^ (k + 1) - 1) < 2 ^ 64) :
    value ≤ align value (2 ^ k) ∧ align value (2 ^ k) ≤ value + (2 ^ (k + 1) - 1) ∧
      align value (2 ^ k) % 2 ^ (k + 1) = 0 := by
  rw [align_two_pow value k hk]
  unfold wrap64
  rw [Nat.mod_eq_of_lt hnw]
  have hpos : 0 < 2 ^ (k + 1) := Nat.two_pow_pos _
  have h1 := Nat.div_add_mod (value + (2 ^ (k + 1) - 1)) (2 ^ (k + 1))
  have h2 := Nat.mod_lt (value + (2 ^ (k + 1) - 1)) hpos
  have h3 : (value + (2 ^ (k + 1) - 1)) / 2 ^ (k + 1) * 2 ^ (k + 1) =
      2 ^ (k + 1) * ((value + (2 ^ (k + 1) - 1)) / 2 ^ (k + 1)) := Nat.mul_comm _ _
  refine ⟨?_, ?_, ?_⟩
  · rw [h3]
    omega
  · rw [h3]
    omega
  · exact Nat.mul_mod_left _ _

/-- Where no sum wraps around `2 ^ 64`, `fallback_alloc` keeps the cursor
inside the arena: for a power-of-two bound below `2 ^ 63` and a cursor between
`g_fallbackBeg` and `g_fallbackEnd`, the cursor after the call is between them
too and not below the cursor before, and a pointer that is not null lies
between the old cursor and the new one. -/
theorem fallback_alloc_keeps_arena (b : Boot) (k size : Nat) (hk : k < 63)
    (hinv : b.g_fallbackBeg ≤ b.g_fallbackCur ∧ b.g_fallbackCur ≤ b.g_fallbackEnd)
    (hnw : b.g_fallbackCur + (2 ^ (k + 1) - 1) + size < 2 ^ 64) :
    b.g_fallbackCur ≤ (b.fallback_alloc (2 ^ k) size).1.g_fallbackCur ∧
      (b.fallback_alloc (2 ^ k) size).1.g_fallbackCur ≤ b.g_fallbackEnd ∧
      ((b.fallback_alloc (2 ^ k) size).2 ≠ 0 →
        b.g_fallbackCur ≤ (b.fallback_alloc (2 ^ k) size).2 ∧
        (b.fallback_alloc (2 ^ k) size).2 + size =
          (b.fallback_alloc (2 ^ k) size).1.g_fallbackCur) := by
  have hb := align_two_pow_bounds b.g_fallbackCur k hk (by omega)
  have hw : wrap64 (align b.g_fallbackCur (2 ^ k) + size) =
      align b.g_fallbackCur (2 ^ k) + size := by
    unfold wrap64
    exact Nat.mod_eq_of_lt (by omega)
  unfold Boot.fallback_alloc
  simp only [hw]
  by_cases hfit : align b.g_fallbackCur (2 ^ k) + size ≤ b.g_fallbackEnd
  · rw [if_pos hfit]
    simp only
    refine ⟨by omega, hfit, fun _ => ⟨hb.1, trivial⟩⟩
  · rw [if_neg hfit]
    simp only
    refine ⟨le_refl _, hinv.2, fun h => absurd rfl h⟩

end trac


/-! ## The arena and the passthrough layer on sample and bootstrap states -/

namespace trac

theorem fallback_alloc_under (b : Boot) (bound size : Nat) :
    (b.fallback_alloc bound size).1.under = b.under ∧
      (b.fallback_alloc bound size).1.held = b.held ∧
      (b.fallback_alloc bound size).1.g_haveOrig = b.g_haveOrig ∧
      (b.fallback_alloc bound size).1.g_recurse = b.g_recurse ∧
      (b.fallback_alloc bound size).1.g_fallbackBeg = b.g_fallbackBeg ∧
      (b.fallback_alloc bound size).1.g_fallbackEnd = b.g_fallbackEnd := by
  unfold Boot.fallback_alloc
  simp only
  split <;> simp

theorem fallback_alloc_lock (b : Boot) (bound size : Nat) :
    b.lock.fallback_alloc bound size =
      ((b.fallback_alloc bound size).1.lock, (b.fallback_alloc bound size).2) := by
  unfold Boot.fallback_alloc Boot.lock
  simp only
  split <;> rfl

/-- Claim C11, the failing input.  The arena is fresh, at address `4096`, and
the request is for `2 ^ 64 - 32` bytes with bound `16`: the sum of pointer and
size wraps to `4064`, below `arena_end`, so the call succeeds, returns `4096`
and leaves the cursor below `arena_begin`. -/
theorem fallback_alloc_cursor_escapes :
    (Boot.start 4096).g_fallbackBeg ≤ (Boot.start 4096).g_fallbackCur ∧
      (Boot.start 4096).g_fallbackCur ≤ (Boot.start 4096).g_fallbackEnd ∧
      ((Boot.start 4096).fallback_alloc 16 (2 ^ 64 - 32)).2 = 4096 ∧
      ((Boot.start 4096).fallback_alloc 16 (2 ^ 64 - 32)).1.g_fallbackCur = 4064 ∧
      ¬ ((Boot.start 4096).fallback_alloc 16 (2 ^ 64 - 32)).1.g_fallbackBeg ≤
        ((Boot.start 4096).fallback_alloc 16 (2 ^ 64 - 32)).1.g_fallbackCur := by
  decide

/-- Claim C12, the failing input.  The arena at address `4096` is filled by
one request for all its `1048576` bytes; a request for `0` bytes with bound
`16` then succeeds and returns `arena_end`, which `check_fallback` does not
take for an arena pointer. -/
theorem fallback_alloc_returns_end :
    ((Boot.start 4096).fallback_alloc 16 1048576).2 = 4096 ∧
      (((Boot.start 4096).fallback_alloc 16 1048576).1.fallback_alloc 16 0).2 = 1052672 ∧
      (((Boot.start 4096).fallback_alloc 16 1048576).1.fallback_alloc 16 0).1.check_fallback
        1052672 = false := by
  decide

/-- Claim C13, the failing input.  After a request for `1048560` bytes the
cursor of the arena at `4096` is `1052656`, a multiple of `16`, with `16` bytes
left; a request for `16` bytes with bound `16` fits there, yet the call
returns null: `align` moves the cursor on to `1052672`, the next multiple of
`32`. -/
theorem fallback_alloc_refuses_fitting_span :
    ((Boot.start 4096).fallback_alloc 16 1048560).1.g_fallbackCur = 1052656 ∧
      1052656 % 16 = 0 ∧ 1052656 + 16 ≤ (Boot.start 4096).g_fallbackEnd ∧
      (((Boot.start 4096).fallback_alloc 16 1048560).1.fallback_alloc 16 16).2 = 0 ∧
      align 1052656 16 = 1052672 := by
  decide

/-- Claim C14, the failing input.  The value `16` is a multiple of the bound
`16`, and `align` gives `32`; a size of one page of `4096` bytes is rounded to
two pages, which is what `pvalloc(4096)` then asks for. -/
theorem align_overshoots :
    align 16 16 = 32 ∧ align 1 16 = 32 ∧ align 4096 4096 = 8192 ∧
      (interposer.pvalloc Sample.fresh ⟨false, some 0⟩ 4096 4096 (Sample.answer 8192)).1.calls =
        [.memkind_posix_memalign 7 4096 8192 0 8192] := by
  decide

/-- Claim C15.  Fallback semantics.  In the state `g_haveOrig = false`,
`g_recurse = true` (with the arena not at address `0`), each of `orig_malloc`,
`orig_calloc`, `orig_posix_memalign` and `orig_realloc` takes the mutex and
returns at once from the arena, whatever the underlying allocator would
answer: `orig_malloc(n)` is `fallback_alloc(16, n)`, `orig_calloc(c, u)` is
`fallback_alloc(16, c * u)` with the `size_t` product, `orig_posix_memalign`
gives status `0` and the pointer of `fallback_alloc(b, n)` when that is not
null and else `ENOMEM` with `*pptr` as it was, `orig_realloc(p, n)` is
`fallback_alloc(16, n)` for a null `p` and null for every other `p`, leaving
the cursor alone; and no call through a pointer `g_orig_*` is made. -/
theorem fallback_semantics (b : Boot) (hres : b.g_haveOrig = false)
    (hrec : b.g_recurse = true) (hbeg : 0 < b.g_fallbackBeg) :
    (∀ (n : Nat) (o : Oracle) (linker : List Req),
      b.orig_malloc n o linker = b.lock.fallback_alloc 16 n) ∧
    (∀ (c u : Nat) (o : Oracle) (linker : List Req),
      b.orig_calloc c u o linker = b.lock.fallback_alloc 16 (mulSize c u)) ∧
    (∀ (pptr bd n : Nat) (o : Oracle) (linker : List Req),
      b.orig_posix_memalign pptr bd n o linker =
        if (b.lock.fallback_alloc bd n).2 ≠ 0 then
          ((b.lock.fallback_alloc bd n).1, 0, (b.lock.fallback_alloc bd n).2)
        else ((b.lock.fallback_alloc bd n).1, ENOMEM, pptr)) ∧
    (∀ (n : Nat) (o : Oracle) (linker : List Req),
      b.orig_realloc 0 n o linker = b.lock.fallback_alloc 16 n) ∧
    (∀ (p n : Nat) (o : Oracle) (linker : List Req), p ≠ 0 →
      (b.orig_realloc p n o linker).2 = 0 ∧
      (b.orig_realloc p n o linker).1.g_fallbackCur = b.g_fallbackCur ∧
      (b.orig_realloc p n o linker).1.under = b.under) ∧
    (∀ bd n : Nat,
      (b.lock.fallback_alloc bd n).2 = (b.fallback_alloc bd n).2 ∧
      (b.lock.fallback_alloc bd n).1.g_fallbackCur = (b.fallback_alloc bd n).1.g_fallbackCur ∧
      (b.lock.fallback_alloc bd n).1.under = b.under) := by
  have hl : b.lock.g_recurse = true := hrec
  have hl2 : b.lock.g_haveOrig = false := hres
  refine ⟨?_, ?_, ?_, ?_, ?_, ?_⟩
  · intro n o linker
    simp [Boot.orig_malloc, Boot.mallocWith, hres, hl]
  · intro c u o linker
    simp [Boot.orig_calloc, Boot.callocWith, hres, hl]
  · intro pptr bd n o linker
    simp only [Boot.orig_posix_memalign, Boot.memalignWith, hres, hl, Bool.false_eq_true,
      if_false, if_true]
  · intro n o linker
    have h0 : b.g_fallbackBeg ≠ 0 := by omega
    simp [Boot.orig_realloc, Boot.reallocWith, hres, hl, h0]
  · intro p n o linker hp
    by_cases ha : b.g_fallbackBeg ≤ p ∧ p < b.g_fallbackEnd
    · simp [Boot.orig_realloc, Boot.reallocWith, ha]
    · simp only [Boot.orig_realloc, Boot.reallocWith, ha, hres, hl, hp, if_false, if_true,
        Bool.false_eq_true]
      exact ⟨trivial, rfl, rfl⟩
  · intro bd n
    rw [fallback_alloc_lock]
    exact ⟨rfl, rfl, (fallback_alloc_under b bd n).1⟩

theorem fallback_semantics_witness :
    ({ Boot.start 4096 with g_recurse := true }).orig_calloc 1 120 ⟨0, 0, 0, []⟩ [] =
        ({ Boot.start 4096 with g_recurse := true, held := 1, g_fallbackCur := 4216 }, 4096) ∧
      ({ Boot.start 4096 with g_recurse := true }).orig_realloc 0 8 ⟨0, 0, 0, []⟩ [] =
        ({ Boot.start 4096 with g_recurse := true, held := 1, g_fallbackCur := 4104 }, 4096) := by
  have h := fallback_semantics { Boot.start 4096 with g_recurse := true } rfl rfl (by decide)
  refine ⟨?_, ?_⟩
  · rw [h.2.1]
    decide
  · rw [h.2.2.2.1]
    decide

end trac

namespace trac

/-- Claim C16.  Null and arena pointers never reach the underlying allocator.
For `p` null or inside the arena, whatever the flags `g_haveOrig`, `g_recurse`,
`g_ready`, `t_nested` and the handler of the thread: the shim `free` returns
with the process state as it was (no call, every handler table as before),
`orig_free` returns with the globals as they were (no underlying call, cursor
and mutex as before), `orig_malloc_usable_size` gives `0` the same way, and
`orig_realloc` of an arena pointer gives null the same way. -/
theorem null_and_arena_pointers (b : Boot) (w : World) (t : Thread) (p : Nat)
    (hbeg : w.g_fallbackBeg = b.g_fallbackBeg) (hend : w.g_fallbackEnd = b.g_fallbackEnd)
    (hp : p = 0 ∨ (b.g_fallbackBeg ≤ p ∧ p < b.g_fallbackEnd)) :
    (∀ o : Oracle, interposer.free w t p o = (w, t)) ∧
    (∀ linker : List Req, b.orig_free p linker = b) ∧
    (∀ (o : Oracle) (linker : List Req), b.orig_malloc_usable_size p o linker = (b, 0)) ∧
    ((b.g_fallbackBeg ≤ p ∧ p < b.g_fallbackEnd) →
      ∀ (n : Nat) (o : Oracle) (linker : List Req), b.orig_realloc p n o linker = (b, 0)) := by
  refine ⟨?_, ?_, ?_, ?_⟩
  · intro o
    have h : p = 0 ∨ interposer.check_fallback w p = true := by
      rcases hp with h0 | ⟨h1, h2⟩
      · exact Or.inl h0
      · right
        simp [interposer.check_fallback, hbeg, hend, h1, h2]
    simp only [interposer.free]
    rw [if_pos h]
  · intro linker
    simp only [Boot.orig_free, Boot.freeWith]
    rw [if_pos hp]
  · intro o linker
    simp only [Boot.orig_malloc_usable_size, Boot.usableWith]
    rw [if_pos hp]
  · intro ha n o linker
    simp only [Boot.orig_realloc, Boot.reallocWith]
    rw [if_pos ha]

theorem null_and_arena_pointers_witness :
    interposer.free Sample.world ⟨false, some 0⟩ 5040 (Sample.answer 0) =
        (Sample.world, ⟨false, some 0⟩) ∧
      Sample.boot.orig_free 5040 [] = Sample.boot ∧
      Sample.boot.orig_malloc_usable_size 5040 (Sample.answer 0) [] = (Sample.boot, 0) ∧
      Sample.boot.orig_realloc 5040 64 (Sample.answer 7000) [] = (Sample.boot, 0) :=
  have h := null_and_arena_pointers Sample.boot Sample.world ⟨false, some 0⟩ 5040 rfl rfl
    (Or.inr (by decide))
  ⟨h.1 _, h.2.1 _, h.2.2.1 _ _, h.2.2.2 (by decide) _ _ _⟩

/-- Claim C20.  The shim `realloc` called with a null pointer against the
shim `malloc`, with the same answers of the outside world for both and the
arena not at address `0`.  On the handler path (ready and not nested) the two
are the same function of the state: same result, same tables, same trace
lines, same backing calls.  On the passthrough path both return the answer of
the passthrough and the states differ in the name of the one call only,
`orig_realloc(nullptr, n)` for `orig_malloc(n)`.  In the passthrough layer
`orig_realloc(nullptr, n)` and `orig_malloc(n)` return the same pointer; in
the bootstrap state with `g_recurse` set they are the same function of the
globals (same arena cursor, no underlying call); otherwise the globals differ
in the name of the one underlying call only, `realloc(nullptr, n)` for
`malloc(n)`. -/
theorem realloc_null_is_malloc (w : World) (t : Thread) (b : Boot) (n : Nat) (o : Oracle)
    (linker : List Req) (hbeg : 0 < b.g_fallbackBeg) :
    (interposer.realloc w t 0 n o).2 = (interposer.malloc w t n o).2 ∧
    (interposer.realloc w t 0 n o).1.relabel = (interposer.malloc w t n o).1.relabel ∧
    ((w.g_ready = true ∧ t.t_nested = false) →
      interposer.realloc w t 0 n o = interposer.malloc w t n o) ∧
    (¬ (w.g_ready = true ∧ t.t_nested = false) →
      interposer.realloc w t 0 n o = (w.call (.orig_realloc 0 n o.ret), t, o.ret) ∧
      interposer.malloc w t n o = (w.call (.orig_malloc n o.ret), t, o.ret)) ∧
    (b.orig_realloc 0 n o linker).2 = (b.orig_malloc n o linker).2 ∧
    (b.orig_realloc 0 n o linker).1.relabel = (b.orig_malloc n o linker).1.relabel ∧
    (b.g_haveOrig = false → b.g_recurse = true →
      b.orig_realloc 0 n o linker = b.orig_malloc n o linker) := by
  have hshim : (w.g_ready = true ∧ t.t_nested = false) →
      interposer.realloc w t 0 n o = interposer.malloc w t n o := by
    rintro ⟨h1, h2⟩
    simp [interposer.realloc, interposer.malloc, h1, h2]
  have hpass : ¬ (w.g_ready = true ∧ t.t_nested = false) →
      interposer.realloc w t 0 n o = (w.call (.orig_realloc 0 n o.ret), t, o.ret) ∧
      interposer.malloc w t n o = (w.call (.orig_malloc n o.ret), t, o.ret) := by
    intro h
    have hc : (!w.g_ready || t.t_nested) = true := by
      cases hr : w.g_ready <;> cases hn : t.t_nested <;> simp_all
    simp only [interposer.realloc, interposer.malloc]
    rw [if_pos hc, if_pos hc]
    exact ⟨rfl, rfl⟩
  have h0 : ¬ (b.g_fallbackBeg ≤ 0 ∧ 0 < b.g_fallbackEnd) := by omega
  have hboot : (b.orig_realloc 0 n o linker).2 = (b.orig_malloc n o linker).2 ∧
      (b.orig_realloc 0 n o linker).1.relabel = (b.orig_malloc n o linker).1.relabel ∧
      (b.g_haveOrig = false → b.g_recurse = true →
      b.orig_realloc 0 n o linker = b.orig_malloc n o linker) := by
    simp only [Boot.orig_realloc, Boot.orig_malloc, Boot.reallocWith, Boot.mallocWith]
    rw [if_neg h0]
    cases hh : b.g_haveOrig
    · have hl : b.lock.g_recurse = b.g_recurse := rfl
      cases hr : b.g_recurse
      · simp [hl, hr, Boot.relabel, Boot.call, UCall.asMalloc]
      · simp [hl, hr]
    · cases hr : b.g_recurse
      · simp [Boot.relabel, Boot.call, UCall.asMalloc]
      · simp [Boot.relabel, Boot.call, UCall.asMalloc]
  refine ⟨?_, ?_, hshim, hpass, hboot.1, hboot.2.1, hboot.2.2⟩
  · by_cases h : w.g_ready = true ∧ t.t_nested = false
    · rw [hshim h]
    · rw [(hpass h).1, (hpass h).2]
  · by_cases h : w.g_ready = true ∧ t.t_nested = false
    · rw [hshim h]
    · rw [(hpass h).1, (hpass h).2]
      simp [World.relabel, World.call, Call.asMalloc]

theorem realloc_null_is_malloc_witness :
    0 < Sample.boot.g_fallbackBeg ∧
      interposer.realloc Sample.fresh ⟨false, some 0⟩ 0 128 (Sample.answer 100) =
        interposer.malloc Sample.fresh ⟨false, some 0⟩ 128 (Sample.answer 100) ∧
      (Sample.boot.orig_realloc 0 128 (Sample.answer 100) []).2 = 100 :=
  have h := realloc_null_is_malloc Sample.fresh ⟨false, some 0⟩ Sample.boot 128
    (Sample.answer 100) [] (by decide)
  ⟨by decide, h.2.2.1 ⟨rfl, rfl⟩, h.2.2.2.2.1.trans (by decide)⟩

end trac

/-! ## Facts about the module map -/

namespace trac

theorem libsFind_append_some {l : List (String × Nat)} {name : String} {id : Nat}
    (ext : List (String × Nat)) (h : libsFind l name = some id) :
    libsFind (l ++ ext) name = some id := by
  induction l with
  | nil => simp [libsFind] at h
  | cons x l ih =>
    obtain ⟨k, v⟩ := x
    simp only [List.cons_append, libsFind] at h ⊢
    by_cases hk : k = name
    · rw [if_pos hk] at h ⊢
      exact h
    · rw [if_neg hk] at h ⊢
      exact ih h

theorem libsFind_none_iff {l : List (String × Nat)} {name : String} :
    libsFind l name = none ↔ name ∉ l.map Prod.fst := by
  induction l with
  | nil => simp [libsFind]
  | cons x l ih =>
    obtain ⟨k, v⟩ := x
    simp only [libsFind, List.map_cons, List.mem_cons, not_or]
    by_cases hk : k = name
    · rw [if_pos hk]
      simp [hk]
    · rw [if_neg hk, ih]
      constructor
      · intro h
        exact ⟨fun e => hk e.symm, h⟩
      · intro h
        exact h.2

theorem libsFind_mem {l : List (String × Nat)} {name : String} {id : Nat}
    (h : libsFind l name = some id) : (name, id) ∈ l := by
  induction l with
  | nil => simp [libsFind] at h
  | cons x l ih =>
    obtain ⟨k, v⟩ := x
    simp only [libsFind] at h
    by_cases hk : k = name
    · rw [if_pos hk] at h
      simp only [Option.some.injEq] at h
      subst hk
      subst h
      exact List.mem_cons_self _ _
    · rw [if_neg hk] at h
      exact List.mem_cons_of_mem _ (ih h)

theorem libsFind_append_none {l : List (String × Nat)} {name : String} (id : Nat)
    (h : libsFind l name = none) : libsFind (l ++ [(name, id)]) name = some id := by
  induction l with
  | nil => simp [libsFind]
  | cons x l ih =>
    obtain ⟨k, v⟩ := x
    simp only [List.cons_append, libsFind] at h ⊢
    by_cases hk : k = name
    · rw [if_pos hk] at h
      exact absurd h (by simp)
    · rw [if_neg hk] at h ⊢
      exact ih h

theorem getIndex_entries (m : Mappings) (name : String) :
    (m.getIndex name).1.m_entries = m.m_entries := by
  unfold Mappings.getIndex
  split <;> rfl

theorem getIndex_find (m : Mappings) (name : String) :
    libsFind (m.getIndex name).1.m_libs name = some (m.getIndex name).2 := by
  unfold Mappings.getIndex
  split
  · next id h => exact h
  · next h => exact libsFind_append_none _ h

theorem getIndex_libs_ext (m : Mappings) (name : String) :
    ∃ ext, (m.getIndex name).1.m_libs = m.m_libs ++ ext := by
  unfold Mappings.getIndex
  split
  · exact ⟨[], by simp⟩
  · exact ⟨_, rfl⟩

theorem getIndex_known (m : Mappings) (name : String) (h : libsFind m.m_libs name ≠ none) :
    (m.getIndex name).1 = m := by
  unfold Mappings.getIndex
  split
  · rfl
  · next h2 => exact absurd h2 h

theorem getIndex_names (m : Mappings) (name : String) :
    (m.getIndex name).1.m_libs.map Prod.fst = noteName (m.m_libs.map Prod.fst) name := by
  unfold Mappings.getIndex noteName
  split
  · next id h =>
    have hm : name ∈ m.m_libs.map Prod.fst := by
      by_contra hc
      rw [libsFind_none_iff.mpr hc] at h
      exact absurd h (by simp)
    rw [if_pos hm]
  · next h =>
    rw [if_neg (libsFind_none_iff.mp h)]
    simp

theorem getIndex_ids (m : Mappings) (name : String)
    (h : m.m_libs.map Prod.snd = List.range' 1 m.m_libs.length) :
    (m.getIndex name).1.m_libs.map Prod.snd =
      List.range' 1 (m.getIndex name).1.m_libs.length := by
  unfold Mappings.getIndex
  split
  · exact h
  · simp only [List.map_append, List.map_cons, List.map_nil, List.length_append,
      List.length_singleton, h, List.range'_concat]
    simp [Nat.add_comm]

theorem getIndex_libs_of_entries (m : Mappings) (es : List Entry) (name : String) :
    ({ m with m_entries := es }.getIndex name).1.m_libs = (m.getIndex name).1.m_libs ∧
      ({ m with m_entries := es }.getIndex name).1.m_log = (m.getIndex name).1.m_log ∧
      ({ m with m_entries := es }.getIndex name).2 = (m.getIndex name).2 := by
  unfold Mappings.getIndex
  simp only
  split <;> exact ⟨rfl, rfl, rfl⟩

theorem putSegments_eq (m : Mappings) (index addr : Nat) (phs : List Phdr) :
    m.putSegments index addr phs =
      { m with m_entries := placeSegments m.m_entries index addr phs } := by
  induction phs generalizing m with
  | nil => rfl
  | cons ph phs ih =>
    unfold Mappings.putSegments placeSegments
    simp only
    rw [ih]
    by_cases hp : ph.p_type = PT_LOAD
    · simp [hp, Mappings.putMapping]
    · simp [hp]

theorem updateCallback_eq (m : Mappings) (info : PhdrInfo) :
    m.updateCallback info =
      { (m.getIndex info.dlpi_name).1 with
        m_entries := placeSegments m.m_entries (m.getIndex info.dlpi_name).2 info.dlpi_addr
          info.dlpi_phdr } := by
  unfold Mappings.updateCallback
  simp only
  rw [putSegments_eq, getIndex_entries]

end trac

namespace trac

theorem Mappings_eq_of_fields {a b : Mappings} (h1 : a.m_libs = b.m_libs)
    (h2 : a.m_entries = b.m_entries) (h3 : a.m_log = b.m_log) : a = b := by
  cases a
  cases b
  simp only at h1 h2 h3
  subst h1
  subst h2
  subst h3
  rfl

theorem updateCallback_libs_ext (m : Mappings) (info : PhdrInfo) :
    ∃ ext, (m.updateCallback info).m_libs = m.m_libs ++ ext := by
  rw [updateCallback_eq]
  exact getIndex_libs_ext m info.dlpi_name

theorem walk_libs_ext (R : List PhdrInfo) (m : Mappings) :
    ∃ ext, (R.foldl Mappings.updateCallback m).m_libs = m.m_libs ++ ext := by
  induction R generalizing m with
  | nil => exact ⟨[], by simp⟩
  | cons info R ih =>
    obtain ⟨e1, h1⟩ := updateCallback_libs_ext m info
    obtain ⟨e2, h2⟩ := ih (m.updateCallback info)
    refine ⟨e1 ++ e2, ?_⟩
    rw [List.foldl_cons, h2, h1, List.append_assoc]

theorem walk_known (R : List PhdrInfo) (m : Mappings)
    (h : ∀ info ∈ R, libsFind m.m_libs info.dlpi_name ≠ none) :
    (R.foldl Mappings.updateCallback m).m_libs = m.m_libs ∧
      (R.foldl Mappings.updateCallback m).m_log = m.m_log := by
  induction R generalizing m with
  | nil => exact ⟨rfl, rfl⟩
  | cons info R ih =>
    have hk := getIndex_known m info.dlpi_name (h info (List.mem_cons_self _ _))
    have hl : (m.updateCallback info).m_libs = m.m_libs := by
      rw [updateCallback_eq, hk]
    have hg : (m.updateCallback info).m_log = m.m_log := by
      rw [updateCallback_eq, hk]
    have h2 : ∀ i ∈ R, libsFind (m.updateCallback info).m_libs i.dlpi_name ≠ none := by
      intro i hi
      rw [hl]
      exact h i (List.mem_cons_of_mem _ hi)
    rw [List.foldl_cons, (ih _ h2).1, (ih _ h2).2, hl, hg]
    exact ⟨rfl, rfl⟩

theorem walk_finds (R : List PhdrInfo) (m : Mappings) :
    ∀ info ∈ R, libsFind (R.foldl Mappings.updateCallback m).m_libs info.dlpi_name ≠ none := by
  induction R generalizing m with
  | nil => intro info hi; simp at hi
  | cons x R ih =>
    intro info hi
    rw [List.foldl_cons]
    rcases List.mem_cons.mp hi with he | hr
    · subst he
      obtain ⟨ext, hext⟩ := walk_libs_ext R (m.updateCallback info)
      have hf : libsFind (m.updateCallback info).m_libs info.dlpi_name =
          some (m.getIndex info.dlpi_name).2 := by
        rw [updateCallback_eq]
        exact getIndex_find m info.dlpi_name
      rw [hext, libsFind_append_some ext hf]
      simp
    · exact ih _ info hr

theorem placeAll_cons (ids : String → Nat) (es : List Entry) (info : PhdrInfo)
    (R : List PhdrInfo) :
    placeAll ids es (info :: R) =
      placeAll ids (placeSegments es (ids info.dlpi_name) info.dlpi_addr info.dlpi_phdr) R := by
  unfold placeAll
  rfl

theorem walk_entries (R : List PhdrInfo) (m : Mappings) :
    (R.foldl Mappings.updateCallback m).m_entries =
      placeAll (libsId (R.foldl Mappings.updateCallback m).m_libs) m.m_entries R := by
  induction R generalizing m with
  | nil => rfl
  | cons info R ih =>
    rw [List.foldl_cons, ih, placeAll_cons]
    obtain ⟨ext, hext⟩ := walk_libs_ext R (m.updateCallback info)
    have hf : libsFind (m.updateCallback info).m_libs info.dlpi_name =
        some (m.getIndex info.dlpi_name).2 := by
      rw [updateCallback_eq]
      exact getIndex_find m info.dlpi_name
    have hid : libsId (R.foldl Mappings.updateCallback (m.updateCallback info)).m_libs
        info.dlpi_name = (m.getIndex info.dlpi_name).2 := by
      unfold libsId
      rw [hext, libsFind_append_some ext hf]
      rfl
    rw [hid]
    congr 1
    rw [updateCallback_eq]

theorem doUpdate_idem (m : Mappings) (R : List PhdrInfo) :
    (m.doUpdate R).doUpdate R = m.doUpdate R := by
  have hk := walk_known R { m.doUpdate R with m_entries := [] }
    (walk_finds R { m with m_entries := [] })
  have e1 := walk_entries R { m with m_entries := [] }
  have e2 := walk_entries R { m.doUpdate R with m_entries := [] }
  apply Mappings_eq_of_fields
  · exact hk.1
  · have : (m.doUpdate R).doUpdate R =
        R.foldl Mappings.updateCallback { m.doUpdate R with m_entries := [] } := rfl
    rw [this, e2, hk.1]
    exact e1.symm
  · exact hk.2

end trac

namespace trac

theorem entriesEmplace_mem {es : List Entry} {e x : Entry} (h : x ∈ entriesEmplace es e) :
    x = e ∨ x ∈ es := by
  induction es with
  | nil =>
    simp only [entriesEmplace, List.mem_singleton] at h
    exact Or.inl h
  | cons y es ih =>
    unfold entriesEmplace at h
    by_cases h1 : e.base < y.base
    · rw [if_pos h1] at h
      rcases List.mem_cons.mp h with he | hr
      · exact Or.inl he
      · exact Or.inr hr
    · rw [if_neg h1] at h
      by_cases h2 : e.base = y.base
      · rw [if_pos h2] at h
        exact Or.inr h
      · rw [if_neg h2] at h
        rcases List.mem_cons.mp h with he | hr
        · exact Or.inr (he ▸ List.mem_cons_self _ _)
        · rcases ih hr with h3 | h3
          · exact Or.inl h3
          · exact Or.inr (List.mem_cons_of_mem _ h3)

theorem entriesEmplace_sorted {es : List Entry} (e : Entry)
    (h : es.Pairwise (fun a b => a.base < b.base)) :
    (entriesEmplace es e).Pairwise (fun a b => a.base < b.base) := by
  induction es with
  | nil => simp [entriesEmplace]
  | cons y es ih =>
    rw [List.pairwise_cons] at h
    unfold entriesEmplace
    by_cases h1 : e.base < y.base
    · rw [if_pos h1]
      refine List.pairwise_cons.mpr ⟨?_, List.pairwise_cons.mpr h⟩
      intro a ha
      rcases List.mem_cons.mp ha with he | hr
      · rw [he]
        exact h1
      · exact lt_trans h1 (h.1 a hr)
    · rw [if_neg h1]
      by_cases h2 : e.base = y.base
      · rw [if_pos h2]
        exact List.pairwise_cons.mpr h
      · rw [if_neg h2]
        refine List.pairwise_cons.mpr ⟨?_, ih h.2⟩
        intro a ha
        rcases entriesEmplace_mem ha with he | hr
        · rw [he]
          omega
        · exact h.1 a hr

theorem placeSegments_sorted (index addr : Nat) (phs : List Phdr) {es : List Entry}
    (h : es.Pairwise (fun a b => a.base < b.base)) :
    (placeSegments es index addr phs).Pairwise (fun a b => a.base < b.base) := by
  induction phs generalizing es with
  | nil => exact h
  | cons ph phs ih =>
    unfold placeSegments
    apply ih
    by_cases hp : ph.p_type = PT_LOAD
    · rw [if_pos hp]
      exact entriesEmplace_sorted _ h
    · rw [if_neg hp]
      exact h

theorem placeAll_sorted (ids : String → Nat) (R : List PhdrInfo) {es : List Entry}
    (h : es.Pairwise (fun a b => a.base < b.base)) :
    (placeAll ids es R).Pairwise (fun a b => a.base < b.base) := by
  induction R generalizing es with
  | nil => exact h
  | cons info R ih =>
    rw [placeAll_cons]
    exact ih (placeSegments_sorted _ _ _ h)

theorem placeSegments_mem {index addr : Nat} {phs : List Phdr} {es : List Entry} {e : Entry}
    (h : e ∈ placeSegments es index addr phs) :
    e ∈ es ∨ ∃ ph ∈ phs, ph.p_type = PT_LOAD ∧
      e = ⟨index, wrap64 (addr + ph.p_vaddr), ph.p_memsz, ph.p_offset⟩ := by
  induction phs generalizing es with
  | nil => exact Or.inl h
  | cons ph phs ih =>
    unfold placeSegments at h
    rcases ih h with h1 | ⟨q, hq, hq2⟩
    · by_cases hp : ph.p_type = PT_LOAD
      · rw [if_pos hp] at h1
        rcases entriesEmplace_mem h1 with he | hr
        · exact Or.inr ⟨ph, List.mem_cons_self _ _, hp, he⟩
        · exact Or.inl hr
      · rw [if_neg hp] at h1
        exact Or.inl h1
    · exact Or.inr ⟨q, List.mem_cons_of_mem _ hq, hq2⟩

theorem placeAll_mem {ids : String → Nat} {R : List PhdrInfo} {es : List Entry} {e : Entry}
    (h : e ∈ placeAll ids es R) :
    e ∈ es ∨ ∃ info ∈ R, ∃ ph ∈ info.dlpi_phdr, ph.p_type = PT_LOAD ∧
      e = ⟨ids info.dlpi_name, wrap64 (info.dlpi_addr + ph.p_vaddr), ph.p_memsz,
        ph.p_offset⟩ := by
  induction R generalizing es with
  | nil => exact Or.inl h
  | cons info R ih =>
    rw [placeAll_cons] at h
    rcases ih h with h1 | ⟨i, hi, hi2⟩
    · rcases placeSegments_mem h1 with h2 | ⟨ph, hph, hph2⟩
      · exact Or.inl h2
      · exact Or.inr ⟨info, List.mem_cons_self _ _, ph, hph, hph2⟩
    · exact Or.inr ⟨i, List.mem_cons_of_mem _ hi, hi2⟩

theorem doUpdate_entries (m : Mappings) (R : List PhdrInfo) :
    (m.doUpdate R).m_entries = placeAll (libsId (m.doUpdate R).m_libs) [] R :=
  walk_entries R { m with m_entries := [] }

theorem doUpdate_mem {m : Mappings} {R : List PhdrInfo} {e : Entry}
    (h : e ∈ (m.doUpdate R).m_entries) :
    ∃ info ∈ R, ∃ ph ∈ info.dlpi_phdr, ph.p_type = PT_LOAD ∧
      e = ⟨libsId (m.doUpdate R).m_libs info.dlpi_name,
        wrap64 (info.dlpi_addr + ph.p_vaddr), ph.p_memsz, ph.p_offset⟩ := by
  rw [doUpdate_entries] at h
  rcases placeAll_mem h with h1 | h2
  · simp at h1
  · exact h2

theorem doUpdate_sorted (m : Mappings) (R : List PhdrInfo) :
    (m.doUpdate R).m_entries.Pairwise (fun a b => a.base < b.base) := by
  rw [doUpdate_entries]
  exact placeAll_sorted _ R List.Pairwise.nil

theorem walk_ids (R : List PhdrInfo) (m : Mappings)
    (h : m.m_libs.map Prod.snd = List.range' 1 m.m_libs.length) :
    (R.foldl Mappings.updateCallback m).m_libs.map Prod.snd =
      List.range' 1 (R.foldl Mappings.updateCallback m).m_libs.length := by
  induction R generalizing m with
  | nil => exact h
  | cons info R ih =>
    rw [List.foldl_cons]
    apply ih
    rw [updateCallback_eq]
    exact getIndex_ids m info.dlpi_name h

theorem libsFind_pos {l : List (String × Nat)} {name : String} {id : Nat}
    (hl : l.map Prod.snd = List.range' 1 l.length) (h : libsFind l name = some id) :
    1 ≤ id ∧ id ≤ l.length := by
  have hm : id ∈ l.map Prod.snd := List.mem_map.mpr ⟨(name, id), libsFind_mem h, rfl⟩
  rw [hl, List.mem_range'_1] at hm
  omega

theorem doUpdate_good (m : Mappings) (R : List PhdrInfo) (h : m.Good) : (m.doUpdate R).Good := by
  have hids : (m.doUpdate R).m_libs.map Prod.snd = List.range' 1 (m.doUpdate R).m_libs.length :=
    walk_ids R { m with m_entries := [] } h.1
  refine ⟨hids, doUpdate_sorted m R, ?_⟩
  intro e he
  obtain ⟨info, hi, ph, _, _, rfl⟩ := doUpdate_mem he
  have hf := walk_finds R { m with m_entries := [] } info hi
  cases hq : libsFind (m.doUpdate R).m_libs info.dlpi_name with
  | none => exact absurd hq hf
  | some id =>
    have := (libsFind_pos hids hq).1
    simp only [libsId, hq, Option.getD_some]
    omega

theorem blank_good (logOpen : Bool) : (Mappings.blank logOpen).Good := by
  refine ⟨rfl, List.Pairwise.nil, ?_⟩
  intro e he
  simp [Mappings.blank] at he

theorem refreshAll_good (Rs : List (List PhdrInfo)) (m : Mappings) (h : m.Good) :
    (m.refreshAll Rs).Good := by
  induction Rs generalizing m with
  | nil => exact h
  | cons R Rs ih => exact ih _ (doUpdate_good m R h)

end trac

namespace trac

theorem entriesBefore_some {es : List Entry} {v : Nat} {e : Entry}
    (h : entriesBefore es v = some e) : e ∈ es ∧ e.base ≤ v := by
  induction es with
  | nil => simp [entriesBefore] at h
  | cons x es ih =>
    unfold entriesBefore at h
    by_cases hx : x.base ≤ v
    · rw [if_pos hx] at h
      cases hr : entriesBefore es v with
      | none =>
        rw [hr] at h
        simp only [Option.some.injEq] at h
        subst h
        exact ⟨List.mem_cons_self _ _, hx⟩
      | some y =>
        rw [hr] at h
        simp only [Option.some.injEq] at h
        subst h
        exact ⟨List.mem_cons_of_mem _ (ih hr).1, (ih hr).2⟩
    · rw [if_neg hx] at h
      exact absurd h (by simp)

theorem entriesBefore_none {es : List Entry} {v : Nat}
    (hs : es.Pairwise (fun a b => a.base < b.base)) (h : entriesBefore es v = none) :
    ∀ x ∈ es, v < x.base := by
  cases es with
  | nil => intro x hx; simp at hx
  | cons y es =>
    rw [List.pairwise_cons] at hs
    unfold entriesBefore at h
    by_cases hy : y.base ≤ v
    · rw [if_pos hy] at h
      cases hr : entriesBefore es v with
      | none => rw [hr] at h; exact absurd h (by simp)
      | some z => rw [hr] at h; exact absurd h (by simp)
    · intro x hx
      rcases List.mem_cons.mp hx with he | hm
      · rw [he]
        omega
      · have := hs.1 x hm
        omega

theorem entriesBefore_max {es : List Entry} {v : Nat} {e : Entry}
    (hs : es.Pairwise (fun a b => a.base < b.base)) (h : entriesBefore es v = some e) :
    ∀ x ∈ es, x.base ≤ v → x.base ≤ e.base := by
  induction es with
  | nil => simp [entriesBefore] at h
  | cons y es ih =>
    rw [List.pairwise_cons] at hs
    unfold entriesBefore at h
    by_cases hy : y.base ≤ v
    · rw [if_pos hy] at h
      cases hr : entriesBefore es v with
      | none =>
        rw [hr] at h
        simp only [Option.some.injEq] at h
        subst h
        intro x hx hxv
        rcases List.mem_cons.mp hx with he | hm
        · rw [he]
        · have := entriesBefore_none hs.2 hr x hm
          omega
      | some z =>
        rw [hr] at h
        simp only [Option.some.injEq] at h
        subst h
        intro x hx hxv
        rcases List.mem_cons.mp hx with he | hm
        · rw [he]
          exact le_of_lt (hs.1 z (entriesBefore_some hr).1)
        · exact ih hs.2 hr x hm hxv
    · rw [if_neg hy] at h
      exact absurd h (by simp)

theorem sorted_base_inj {es : List Entry} (hs : es.Pairwise (fun a b => a.base < b.base))
    {a b : Entry} (ha : a ∈ es) (hb : b ∈ es) (h : a.base = b.base) : a = b := by
  induction es with
  | nil => simp at ha
  | cons y es ih =>
    rw [List.pairwise_cons] at hs
    rcases List.mem_cons.mp ha with ha1 | ha2
    · rcases List.mem_cons.mp hb with hb1 | hb2
      · rw [ha1, hb1]
      · have := hs.1 b hb2
        rw [ha1] at h
        omega
    · rcases List.mem_cons.mp hb with hb1 | hb2
      · have := hs.1 a ha2
        rw [hb1] at h
        omega
      · exact ih hs.2 ha2 hb2

theorem entriesBefore_covering {es : List Entry} {v : Nat} {e : Entry}
    (hs : es.Pairwise (fun a b => a.base < b.base))
    (hsep : ∀ e1 ∈ es, ∀ e2 ∈ es, e1.base < e2.base → e1.base + e1.size ≤ e2.base)
    (he : e ∈ es) (hc : e.covers v) : entriesBefore es v = some e := by
  cases hr : entriesBefore es v with
  | none =>
    have := entriesBefore_none hs hr e he
    have := hc.1
    omega
  | some z =>
    have hz := entriesBefore_some hr
    have hle := entriesBefore_max hs hr e he hc.1
    have heq : e.base = z.base := by
      by_contra hne
      have hlt : e.base < z.base := by omega
      have := hsep e he z hz.1 hlt
      have := hc.2
      have := hz.2
      omega
    rw [sorted_base_inj hs he hz.1 heq]

theorem doLookup_covered {m : Mappings} {v : Nat} {e : Entry}
    (hs : m.m_entries.Pairwise (fun a b => a.base < b.base)) (hsep : m.Separated)
    (he : e ∈ m.m_entries) (hc : e.covers v) :
    m.doLookup v = ⟨e.index, wrap64 (v - e.base + e.offset)⟩ := by
  unfold Mappings.doLookup
  rw [entriesBefore_covering hs hsep he hc]
  have : v - e.base < e.size := by
    have := hc.1
    have := hc.2
    omega
  simp only
  rw [if_pos this]

theorem doLookup_uncovered {m : Mappings} {v : Nat}
    (h : ¬ ∃ e ∈ m.m_entries, e.covers v) : m.doLookup v = ⟨0, v⟩ := by
  unfold Mappings.doLookup
  cases hr : entriesBefore m.m_entries v with
  | none => rfl
  | some e =>
    have he := entriesBefore_some hr
    have : ¬ v - e.base < e.size := by
      intro hlt
      apply h
      refine ⟨e, he.1, he.2, ?_⟩
      omega
    simp only
    rw [if_neg this]

/-- Claim C17, the counterexample.  One object with two loadable segments, the
second inside the first: the index holds both, the first covers the address
`500`, and the lookup of `500` gives `{0, 500}`, because only the entry with
the greatest base at or below the address is tested. -/
theorem lookup_overlap_counterexample :
    (Mappings.new false [⟨"a", 0, [⟨1, 100, 900, 0⟩, ⟨1, 200, 10, 0⟩]⟩]).m_entries =
        [⟨1, 100, 900, 0⟩, ⟨1, 200, 10, 0⟩] ∧
      Entry.covers ⟨1, 100, 900, 0⟩ 500 ∧
      (Mappings.new false [⟨"a", 0, [⟨1, 100, 900, 0⟩, ⟨1, 200, 10, 0⟩]⟩]).doLookup 500 =
        ⟨0, 500⟩ := by
  decide

/-- Claim C17, amended.  In every state of the module map reached by
refreshes from its construction, provided each segment of the index ends at
or before the base of every later one: the lookup of `v` gives `{0, v}` if and
only if no entry covers `v`, and for an entry that covers `v` it gives the id
of that entry and `v - base + offset` of that entry, in 64 bits. -/
theorem lookup_separated (logOpen : Bool) (Rs : List (List PhdrInfo)) (v : Nat)
    (hsep : ((Mappings.blank logOpen).refreshAll Rs).Separated) :
    (((Mappings.blank logOpen).refreshAll Rs).doLookup v = ⟨0, v⟩ ↔
      ¬ ∃ e ∈ ((Mappings.blank logOpen).refreshAll Rs).m_entries, e.covers v) ∧
    ∀ e ∈ ((Mappings.blank logOpen).refreshAll Rs).m_entries, e.covers v →
      ((Mappings.blank logOpen).refreshAll Rs).doLookup v =
        ⟨e.index, wrap64 (v - e.base + e.offset)⟩ := by
  have hg := refreshAll_good Rs _ (blank_good logOpen)
  refine ⟨⟨?_, doLookup_uncovered⟩, fun e he hc => doLookup_covered hg.2.1 hsep he hc⟩
  rintro h ⟨e, he, hc⟩
  rw [doLookup_covered hg.2.1 hsep he hc] at h
  have := hg.2.2 e he
  simp only [LibAddr.mk.injEq] at h
  exact this h.1

theorem lookup_separated_witness :
    ((Mappings.blank false).refreshAll
        [[⟨"a", 4096, [⟨1, 0, 900, 0⟩, ⟨2, 50, 10, 0⟩, ⟨1, 1024, 100, 512⟩]⟩]]).doLookup 5130 =
      ⟨1, 522⟩ :=
  (lookup_separated false
    [[⟨"a", 4096, [⟨1, 0, 900, 0⟩, ⟨2, 50, 10, 0⟩, ⟨1, 1024, 100, 512⟩]⟩]] 5130
    (by decide)).2 ⟨1, 5120, 100, 512⟩ (by decide) (by decide)

end trac

namespace trac

theorem doUpdate_libs_ext (m : Mappings) (R : List PhdrInfo) :
    ∃ ext, (m.doUpdate R).m_libs = m.m_libs ++ ext :=
  walk_libs_ext R { m with m_entries := [] }

theorem refreshAll_libs_ext (Rs : List (List PhdrInfo)) (m : Mappings) :
    ∃ ext, (m.refreshAll Rs).m_libs = m.m_libs ++ ext := by
  induction Rs generalizing m with
  | nil => exact ⟨[], by simp [Mappings.refreshAll]⟩
  | cons R Rs ih =>
    obtain ⟨e1, h1⟩ := doUpdate_libs_ext m R
    obtain ⟨e2, h2⟩ := ih (m.doUpdate R)
    refine ⟨e1 ++ e2, ?_⟩
    have : (m.refreshAll (R :: Rs)) = (m.doUpdate R).refreshAll Rs := rfl
    rw [this, h2, h1, List.append_assoc]

theorem walk_names (R : List PhdrInfo) (m : Mappings) :
    (R.foldl Mappings.updateCallback m).m_libs.map Prod.fst =
      (R.map (fun info => info.dlpi_name)).foldl noteName (m.m_libs.map Prod.fst) := by
  induction R generalizing m with
  | nil => rfl
  | cons info R ih =>
    rw [List.foldl_cons, ih, List.map_cons, List.foldl_cons]
    congr 1
    rw [updateCallback_eq]
    exact getIndex_names m info.dlpi_name

theorem refreshAll_names (Rs : List (List PhdrInfo)) (m : Mappings) :
    (m.refreshAll Rs).m_libs.map Prod.fst =
      (seenNames Rs).foldl noteName (m.m_libs.map Prod.fst) := by
  induction Rs generalizing m with
  | nil => rfl
  | cons R Rs ih =>
    have h1 : (m.refreshAll (R :: Rs)) = (m.doUpdate R).refreshAll Rs := rfl
    have h2 : seenNames (R :: Rs) = R.map (fun info => info.dlpi_name) ++ seenNames Rs := by
      simp [seenNames]
    have h3 : (m.doUpdate R).m_libs.map Prod.fst =
        (R.map (fun info => info.dlpi_name)).foldl noteName (m.m_libs.map Prod.fst) :=
      walk_names R { m with m_entries := [] }
    rw [h1, ih, h2, List.foldl_append, h3]

theorem mem_foldl_noteName (l acc : List String) (x : String) :
    x ∈ l.foldl noteName acc ↔ x ∈ acc ∨ x ∈ l := by
  induction l generalizing acc with
  | nil => simp
  | cons y l ih =>
    rw [List.foldl_cons, ih]
    unfold noteName
    by_cases hy : y ∈ acc
    · rw [if_pos hy]
      constructor
      · rintro (h | h)
        · exact Or.inl h
        · exact Or.inr (List.mem_cons_of_mem _ h)
      · rintro (h | h)
        · exact Or.inl h
        · rcases List.mem_cons.mp h with he | hm
          · exact Or.inl (he ▸ hy)
          · exact Or.inr hm
    · rw [if_neg hy]
      simp only [List.mem_append, List.mem_singleton, List.mem_cons]
      tauto

theorem nodup_foldl_noteName (l acc : List String) (h : acc.Nodup) :
    (l.foldl noteName acc).Nodup := by
  induction l generalizing acc with
  | nil => exact h
  | cons y l ih =>
    rw [List.foldl_cons]
    apply ih
    unfold noteName
    by_cases hy : y ∈ acc
    · rw [if_pos hy]
      exact h
    · rw [if_neg hy]
      rw [List.nodup_append]
      refine ⟨h, List.nodup_singleton y, ?_⟩
      intro a ha hb
      rw [List.mem_singleton] at hb
      exact hy (hb ▸ ha)

theorem firstSeen_length (l : List String) : (firstSeen l).length = l.toFinset.card := by
  have hn : (firstSeen l).Nodup := nodup_foldl_noteName l [] List.nodup_nil
  rw [← List.toFinset_card_of_nodup hn]
  congr 1
  ext x
  simp [firstSeen, mem_foldl_noteName]

theorem libsFind_inj {l : List (String × Nat)} (hl : l.map Prod.snd = List.range' 1 l.length)
    {n1 n2 : String} {id : Nat} (h1 : libsFind l n1 = some id) (h2 : libsFind l n2 = some id) :
    n1 = n2 := by
  have hn : (l.map Prod.snd).Nodup := by
    rw [hl]
    exact List.nodup_range' 1 l.length
  have := List.inj_on_of_nodup_map hn (libsFind_mem h1) (libsFind_mem h2) rfl
  exact congrArg Prod.fst this

/-- Claim C18.  Module ids are stable.  After any sequence of refreshes of a
module map from its construction: the pathnames of `m_libs` are the distinct
pathnames of the reports in the order of first sight and their ids are
`1, 2, ...` in that order, so the id of a pathname is the number of distinct
pathnames seen before it plus one; a pathname not seen so far gets the number
of distinct pathnames seen plus one; every pathname seen has an id; an id is
never `0`; the id of a pathname is the same after any further refreshes,
whatever they report; and two pathnames with the same id are the same. -/
theorem module_ids_stable (logOpen : Bool) (Rs : List (List PhdrInfo)) :
    ((Mappings.blank logOpen).refreshAll Rs).m_libs.map Prod.fst = firstSeen (seenNames Rs) ∧
    ((Mappings.blank logOpen).refreshAll Rs).m_libs.map Prod.snd =
      List.range' 1 (firstSeen (seenNames Rs)).length ∧
    (firstSeen (seenNames Rs)).length = (seenNames Rs).toFinset.card ∧
    (∀ name : String, name ∉ seenNames Rs →
      (((Mappings.blank logOpen).refreshAll Rs).getIndex name).2 =
        (seenNames Rs).toFinset.card + 1) ∧
    (∀ name : String, name ∈ seenNames Rs →
      libsFind ((Mappings.blank logOpen).refreshAll Rs).m_libs name ≠ none) ∧
    (∀ (name : String) (id : Nat),
      libsFind ((Mappings.blank logOpen).refreshAll Rs).m_libs name = some id →
        id ≠ 0 ∧
        ∀ Rs2 : List (List PhdrInfo),
          libsFind (((Mappings.blank logOpen).refreshAll Rs).refreshAll Rs2).m_libs name =
            some id ∧
          ((((Mappings.blank logOpen).refreshAll Rs).refreshAll Rs2).getIndex name).2 = id) ∧
    (∀ (n1 n2 : String) (id : Nat),
      libsFind ((Mappings.blank logOpen).refreshAll Rs).m_libs n1 = some id →
      libsFind ((Mappings.blank logOpen).refreshAll Rs).m_libs n2 = some id → n1 = n2) := by
  have hg := refreshAll_good Rs _ (blank_good logOpen)
  have hnames : ((Mappings.blank logOpen).refreshAll Rs).m_libs.map Prod.fst =
      firstSeen (seenNames Rs) := refreshAll_names Rs (Mappings.blank logOpen)
  have hlen : ((Mappings.blank logOpen).refreshAll Rs).m_libs.length =
      (firstSeen (seenNames Rs)).length := by
    rw [← hnames, List.length_map]
  refine ⟨hnames, ?_, firstSeen_length _, ?_, ?_, ?_, ?_⟩
  · rw [← hlen]
    exact hg.1
  · intro name hname
    have hnone : libsFind ((Mappings.blank logOpen).refreshAll Rs).m_libs name = none := by
      rw [libsFind_none_iff, hnames]
      intro hc
      rw [firstSeen, mem_foldl_noteName] at hc
      rcases hc with hc | hc
      · simp at hc
      · exact hname hc
    simp only [Mappings.getIndex, hnone]
    rw [hlen, firstSeen_length]
  · intro name hname hc
    rw [libsFind_none_iff, hnames] at hc
    apply hc
    rw [firstSeen, mem_foldl_noteName]
    exact Or.inr hname
  · intro name id hf
    refine ⟨?_, ?_⟩
    · have := (libsFind_pos hg.1 hf).1
      omega
    · intro Rs2
      obtain ⟨ext, hext⟩ := refreshAll_libs_ext Rs2 ((Mappings.blank logOpen).refreshAll Rs)
      have hf2 : libsFind
          (((Mappings.blank logOpen).refreshAll Rs).refreshAll Rs2).m_libs name = some id := by
        rw [hext]
        exact libsFind_append_some ext hf
      refine ⟨hf2, ?_⟩
      simp only [Mappings.getIndex, hf2]
  · intro n1 n2 id h1 h2
    exact libsFind_inj hg.1 h1 h2

/-- Claim C19.  Refresh is idempotent.  For every state `m` of the module map
and every report `R`: a second `doUpdate` against `R` leaves the state as the
first left it (names, ids, entries and map log), so every lookup answers the
same; the same holds for the static `Mappings::update`, also when it first has
to construct the map; after a refresh every entry of the index is a loadable
segment of `R`; and an address that no loadable segment of `R` covers looks up
as `{0, address}`, whatever the index held before. -/
theorem refresh_idempotent (m : Mappings) (R : List PhdrInfo) :
    (m.doUpdate R).doUpdate R = m.doUpdate R ∧
    (∀ v : Nat, ((m.doUpdate R).doUpdate R).doLookup v = (m.doUpdate R).doLookup v) ∧
    (∀ (s : Option Mappings) (logOpen : Bool),
      Mappings.update (Mappings.update s logOpen R) logOpen R = Mappings.update s logOpen R) ∧
    (∀ e ∈ (m.doUpdate R).m_entries, ∃ info ∈ R, ∃ ph ∈ info.dlpi_phdr,
      ph.p_type = PT_LOAD ∧
      e = ⟨libsId (m.doUpdate R).m_libs info.dlpi_name,
        wrap64 (info.dlpi_addr + ph.p_vaddr), ph.p_memsz, ph.p_offset⟩) ∧
    (∀ v : Nat, ¬ reportCovers R v → (m.doUpdate R).doLookup v = ⟨0, v⟩) := by
  refine ⟨doUpdate_idem m R, ?_, ?_, fun e he => doUpdate_mem he, ?_⟩
  · intro v
    rw [doUpdate_idem]
  · intro s logOpen
    cases s with
    | none => simp only [Mappings.update, doUpdate_idem]
    | some x => simp only [Mappings.update, doUpdate_idem]
  · intro v hv
    apply doLookup_uncovered
    rintro ⟨e, he, hc⟩
    obtain ⟨info, hi, ph, hph, hpt, rfl⟩ := doUpdate_mem he
    exact hv ⟨info, hi, ph, hph, hpt, hc.1, hc.2⟩

theorem refresh_idempotent_witness :
    (Mappings.new false [⟨"a", 0, [⟨1, 100, 900, 0⟩]⟩]).doLookup 500 = ⟨1, 400⟩ ∧
      ((Mappings.new false [⟨"a", 0, [⟨1, 100, 900, 0⟩]⟩]).doUpdate
        [⟨"b", 0, [⟨1, 2000, 100, 0⟩]⟩]).doLookup 500 = ⟨0, 500⟩ :=
  ⟨by decide,
    (refresh_idempotent (Mappings.new false [⟨"a", 0, [⟨1, 100, 900, 0⟩]⟩])
      [⟨"b", 0, [⟨1, 2000, 100, 0⟩]⟩]).2.2.2.2 500 (by decide)⟩

theorem module_ids_stable_witness :
    libsFind ((Mappings.blank false).refreshAll
        [[⟨"a", 0, []⟩, ⟨"b", 0, []⟩], [⟨"b", 0, []⟩]]).m_libs "b" = some 2 ∧
      libsFind (((Mappings.blank false).refreshAll
        [[⟨"a", 0, []⟩, ⟨"b", 0, []⟩], [⟨"b", 0, []⟩]]).refreshAll
          [[⟨"c", 0, []⟩], [⟨"b", 0, []⟩, ⟨"c", 0, []⟩]]).m_libs "b" = some 2 :=
  ⟨by decide,
    (((module_ids_stable false [[⟨"a", 0, []⟩, ⟨"b", 0, []⟩], [⟨"b", 0, []⟩]]).2.2.2.2.2.1
      "b" 2 (by decide)).2 [[⟨"c", 0, []⟩], [⟨"b", 0, []⟩, ⟨"c", 0, []⟩]]).1⟩

end trac

/-! ## The bootstrap mutex -/

namespace trac

theorem fallback_alloc_frame (b : Boot) (bound size : Nat) :
    (b.fallback_alloc bound size).1 =
      { b with g_fallbackCur := (b.fallback_alloc bound size).1.g_fallbackCur } := by
  unfold Boot.fallback_alloc
  simp only
  split <;> rfl

/-- One request served while `g_recurse` is set: the mutex is taken and not
released, the flags, the arena bounds and the underlying calls stay. -/
theorem serve_held (b : Boot) (r : Req) (hres : b.g_haveOrig = false)
    (hrec : b.g_recurse = true) :
    (b.serve r).held =
        b.held + (if Req.takesMutex b.g_fallbackBeg b.g_fallbackEnd r = true then 1 else 0) ∧
      (b.serve r).g_haveOrig = false ∧ (b.serve r).g_recurse = true ∧
      (b.serve r).g_fallbackBeg = b.g_fallbackBeg ∧
      (b.serve r).g_fallbackEnd = b.g_fallbackEnd ∧ (b.serve r).under = b.under := by
  have hl : b.lock.g_recurse = true := hrec
  cases r with
  | malloc size =>
    simp only [Boot.serve, Boot.mallocWith, hres, hl, Req.takesMutex, if_true, if_false,
      Bool.false_eq_true]
    rw [fallback_alloc_frame]
    exact ⟨rfl, hres, hrec, rfl, rfl, rfl⟩
  | calloc count unit =>
    simp only [Boot.serve, Boot.callocWith, hres, hl, Req.takesMutex, if_true, if_false,
      Bool.false_eq_true]
    rw [fallback_alloc_frame]
    exact ⟨rfl, hres, hrec, rfl, rfl, rfl⟩
  | posix_memalign pptr bound size =>
    simp only [Boot.serve, Boot.memalignWith, hres, hl, Req.takesMutex, if_true, if_false,
      Bool.false_eq_true]
    have hf := fallback_alloc_frame b.lock bound size
    split <;> (rw [hf]; exact ⟨rfl, hres, hrec, rfl, rfl, rfl⟩)
  | realloc ptr size =>
    by_cases ha : b.g_fallbackBeg ≤ ptr ∧ ptr < b.g_fallbackEnd
    · simp [Boot.serve, Boot.reallocWith, Req.takesMutex, ha, hres, hrec]
    · simp only [Boot.serve, Boot.reallocWith, hres, hl, Req.takesMutex, ha, if_true, if_false,
        Bool.false_eq_true, decide_False, Bool.not_false]
      by_cases hp : ptr = 0
      · rw [if_pos hp, fallback_alloc_frame]
        exact ⟨rfl, hres, hrec, rfl, rfl, rfl⟩
      · rw [if_neg hp]
        exact ⟨rfl, hres, hrec, rfl, rfl, rfl⟩
  | free ptr =>
    by_cases ha : ptr = 0 ∨ (b.g_fallbackBeg ≤ ptr ∧ ptr < b.g_fallbackEnd)
    · simp [Boot.serve, Boot.freeWith, Req.takesMutex, ha, hres, hrec]
    · simp only [Boot.serve, Boot.freeWith, hres, hl, Req.takesMutex, ha, if_true, if_false,
        Bool.false_eq_true, decide_False, Bool.not_false]
      exact ⟨rfl, hres, trivial, rfl, rfl, rfl⟩
  | malloc_usable_size ptr =>
    by_cases ha : ptr = 0 ∨ (b.g_fallbackBeg ≤ ptr ∧ ptr < b.g_fallbackEnd)
    · simp [Boot.serve, Boot.usableWith, Req.takesMutex, ha, hres, hrec]
    · simp only [Boot.serve, Boot.usableWith, hres, hl, Req.takesMutex, ha, if_true, if_false,
        Bool.false_eq_true, decide_False, Bool.not_false]
      exact ⟨rfl, hres, trivial, rfl, rfl, rfl⟩

theorem serve_all_held (linker : List Req) (b : Boot) (hres : b.g_haveOrig = false)
    (hrec : b.g_recurse = true) :
    (linker.foldl Boot.serve b).held =
        b.held + (linker.filter (Req.takesMutex b.g_fallbackBeg b.g_fallbackEnd)).length ∧
      (linker.foldl Boot.serve b).under = b.under := by
  induction linker generalizing b with
  | nil => exact ⟨rfl, rfl⟩
  | cons r rs ih =>
    obtain ⟨h1, h2, h3, h4, h5, h6⟩ := serve_held b r hres hrec
    obtain ⟨i1, i2⟩ := ih (b.serve r) h2 h3
    rw [List.foldl_cons, i1, i2, h1, h4, h5, h6, List.filter_cons]
    refine ⟨?_, rfl⟩
    split
    · simp
      omega
    · simp

/-- The hold count after `initOrig`: one more for every request of the linker
that reached the lock. -/
theorem initOrig_held (linker : List Req) (b : Boot) (hres : b.g_haveOrig = false) :
    (Boot.initOrig linker b).held =
        b.held + (linker.filter (Req.takesMutex b.g_fallbackBeg b.g_fallbackEnd)).length ∧
      (Boot.initOrig linker b).under = b.under ∧
      (Boot.initOrig linker b).g_haveOrig = true := by
  have h := serve_all_held linker { b with g_recurse := true } hres rfl
  exact ⟨h.1, h.2, rfl⟩

/-- The hold count after the first `orig_malloc` of a process (symbols not
resolved, not inside `initOrig`): the count on entry plus one for every
request the linker made during resolution that reached the lock. -/
theorem orig_malloc_first_held (b : Boot) (n : Nat) (o : Oracle) (linker : List Req)
    (hres : b.g_haveOrig = false) (hrec : b.g_recurse = false) :
    (b.orig_malloc n o linker).1.held =
      b.held + (linker.filter (Req.takesMutex b.g_fallbackBeg b.g_fallbackEnd)).length := by
  have hl : b.lock.g_recurse = false := hrec
  have hl2 : b.lock.g_haveOrig = false := hres
  have h := initOrig_held linker b.lock hl2
  simp only [Boot.orig_malloc, Boot.mallocWith, hres, hl, Boot.resolve, hl2, Bool.false_eq_true,
    if_false, Bool.not_false, if_true, Boot.call, Boot.unlock]
  rw [h.1]
  simp only [Boot.lock]
  omega

/-- With the symbols resolved no passthrough operation touches the mutex. -/
theorem orig_resolved_held (b : Boot) (hres : b.g_haveOrig = true) (o : Oracle)
    (linker : List Req) :
    (∀ n, (b.orig_malloc n o linker).1.held = b.held) ∧
    (∀ c u, (b.orig_calloc c u o linker).1.held = b.held) ∧
    (∀ pptr bd n, (b.orig_posix_memalign pptr bd n o linker).1.held = b.held) ∧
    (∀ p n, (b.orig_realloc p n o linker).1.held = b.held) ∧
    (∀ p, (b.orig_free p linker).held = b.held) ∧
    (∀ p, (b.orig_malloc_usable_size p o linker).1.held = b.held) ∧
    (b.orig_dlopen o linker).1.held = b.held ∧
    (∀ hd, (b.orig_dlclose hd o linker).1.held = b.held) := by
  refine ⟨?_, ?_, ?_, ?_, ?_, ?_, ?_, ?_⟩
  · intro n
    simp [Boot.orig_malloc, Boot.mallocWith, hres, Boot.call]
  · intro c u
    simp [Boot.orig_calloc, Boot.callocWith, hres, Boot.call]
  · intro pptr bd n
    simp [Boot.orig_posix_memalign, Boot.memalignWith, hres, Boot.call]
  · intro p n
    simp only [Boot.orig_realloc, Boot.reallocWith, hres, if_true]
    split <;> rfl
  · intro p
    simp only [Boot.orig_free, Boot.freeWith, hres, if_true]
    split <;> rfl
  · intro p
    simp only [Boot.orig_malloc_usable_size, Boot.usableWith, hres, if_true]
    split <;> rfl
  · simp [Boot.orig_dlopen, Boot.dlopenWith, hres, Boot.call]
  · intro hd
    simp [Boot.orig_dlclose, Boot.dlcloseWith, hres, Boot.call]

/-- Claim C22, the failing input.  The first `orig_malloc` of a process whose
linker calls `calloc(1, 32)` once while `dlsym` runs: the mutex is free on
entry, the nested `orig_calloc` takes it a second time and returns from the
arena without releasing it, and when the outer `orig_malloc` has returned,
with the symbols resolved, the thread still holds the mutex once.  The same
for each operation entered in the bootstrap state with `g_recurse` set: the
hold count on return is one above the count on entry. -/
theorem mutex_left_held :
    (Boot.start 4096).held = 0 ∧
      ((Boot.start 4096).orig_malloc 8 (Sample.answer 100) [.calloc 1 32]).1.held = 1 ∧
      ((Boot.start 4096).orig_malloc 8 (Sample.answer 100) [.calloc 1 32]).1.g_haveOrig = true ∧
      ((Boot.start 4096).orig_malloc 8 (Sample.answer 100) []).1.held = 0 ∧
      ({ Boot.start 4096 with g_recurse := true }.orig_malloc 8 (Sample.answer 0) []).1.held = 1 ∧
      ({ Boot.start 4096 with g_recurse := true }.orig_calloc 1 32 (Sample.answer 0) []).1.held
        = 1 ∧
      ({ Boot.start 4096 with g_recurse := true }.orig_posix_memalign 0 16 32 (Sample.answer 0)
        []).1.held = 1 ∧
      ({ Boot.start 4096 with g_recurse := true }.orig_realloc 0 32 (Sample.answer 0) []).1.held
        = 1 ∧
      ({ Boot.start 4096 with g_recurse := true }.orig_free 8 []).held = 1 ∧
      ({ Boot.start 4096 with g_recurse := true }.orig_malloc_usable_size 8 (Sample.answer 0)
        []).1.held = 1 ∧
      ({ Boot.start 4096 with g_recurse := true }.orig_dlopen (Sample.answer 0) []).1.held = 1 ∧
      ({ Boot.start 4096 with g_recurse := true }.orig_dlclose 9 (Sample.answer 0) []).1.held
        = 1 := by
  decide

end trac

/-! ## `createMemkind`, `onEnd` and lookups among disjoint segments -/

namespace trac

/-- With `TRAC_PMEMSIZE` set, `createMemkind` asks for the number `strtoull`
reads from it, and for `2 ^ 32` bytes when that number is `0`. -/
theorem createMemkind_with_size (dir s : String) (err : Nat) (kind : memkind_t) :
    ∃ n, strtoull (some s) = some n ∧
      Handler.createMemkind (some dir) (some s) err kind =
        some (if err ≠ 0 then 0 else kind, [(dir, if n = 0 then 2 ^ 32 else n)]) := by
  cases h : strtoull (some s) with
  | none => simp [strtoull] at h
  | some n =>
    refine ⟨n, rfl, ?_⟩
    simp only [Handler.createMemkind, h]
    split <;> rfl

theorem createMemkind_sizes :
    Handler.createMemkind (some "/mnt/pmem") (some "0x100000000") 0 7 =
        some (7, [("/mnt/pmem", 4294967296)]) ∧
      Handler.createMemkind (some "/mnt/pmem") (some "8589934592") 0 7 =
        some (7, [("/mnt/pmem", 8589934592)]) ∧
      Handler.createMemkind (some "/mnt/pmem") (some "") 0 7 =
        some (7, [("/mnt/pmem", 4294967296)]) ∧
      Handler.createMemkind (some "/mnt/pmem") (some "big") 0 7 =
        some (7, [("/mnt/pmem", 4294967296)]) ∧
      Handler.createMemkind (some "/mnt/pmem") (some "0") 0 7 =
        some (7, [("/mnt/pmem", 4294967296)]) ∧
      Handler.createMemkind (some "/mnt/pmem") (some "010") 0 7 =
        some (7, [("/mnt/pmem", 8)]) ∧
      Handler.createMemkind none none 0 7 = some (0, []) := by
  refine ⟨?_, ?_, ?_, ?_, ?_, ?_, ?_⟩ <;> decide

/-- Claim C21, the failing input.  `TRAC_PMEMDIR` is set and `TRAC_PMEMSIZE`
is not: `getenv` gives a null pointer, `createMemkind` passes it to `strtoull`,
which reads through it, and the run leaves defined behaviour before any pool
is requested; the default of 4 GiB is reached only for a `TRAC_PMEMSIZE` that
is set and reads as `0`. -/
theorem createMemkind_without_size (dir : String) (err : Nat) (kind : memkind_t) :
    strtoull none = none ∧
      Handler.createMemkind (some dir) none err kind = none ∧
      Handler.createMemkind (some dir) (some "") err kind =
        some (if err ≠ 0 then 0 else kind, [(dir, 2 ^ 32)]) := by
  refine ⟨rfl, rfl, ?_⟩
  have h : strtoull (some "") = some 0 := by decide
  simp only [Handler.createMemkind, h]
  split <;> rfl

theorem onEndLoop_eq (allocs : List (Nat × Alloc)) (h : Handler) :
    h.onEndLoop allocs =
      { h with m_log := h.m_log.map (fun l => l ++ residualLines h.m_threshold allocs) } := by
  induction allocs generalizing h with
  | nil =>
    cases h with
    | mk id al lg th sl so =>
      cases lg <;> simp [Handler.onEndLoop, residualLines]
  | cons r rs ih =>
    obtain ⟨base, info⟩ := r
    cases h with
    | mk id al lg th sl so =>
      unfold Handler.onEndLoop
      rw [ih]
      by_cases hs : info.size > th
      · cases lg <;> simp [Handler.log, residualLines, hs]
      · cases lg <;> simp [Handler.log, residualLines, hs]

/-- What `onEnd` leaves: an empty table, and in the stream one `-` line more
for every entry whose size is above the threshold, none for an entry whose
size is the threshold or less. -/
theorem onEnd_eq (h : Handler) :
    h.onEnd =
      { h with
        m_allocs := []
        m_log := h.m_log.map (fun l => l ++ residualLines h.m_threshold h.m_allocs) } := by
  unfold Handler.onEnd
  rw [onEndLoop_eq]

/-- Claim C23, the failing input.  One handler with threshold `64` and a
stream; `malloc(64)` gives the block `100` and is traced with a `+` line, as
its size is not below the threshold; `onEnd` then writes no `-` line for it,
as its size is not above the threshold: the `+` record stays unmatched.  A
block of `65` bytes is matched at `onEnd`, and a block of `64` bytes is
matched when it is freed. -/
theorem onEnd_skips_threshold_size :
    ((run Sample.single [.malloc 0 64 (Sample.answer 100)]).onEnd 0).heap =
        [⟨0, [], some [⟨true, 100, 64, []⟩], 64, 0, 3⟩] ∧
      ((run Sample.single [.malloc 0 65 (Sample.answer 100)]).onEnd 0).heap =
        [⟨0, [], some [⟨true, 100, 65, []⟩, ⟨false, 100, 65, []⟩], 64, 0, 3⟩] ∧
      ((run Sample.single [.malloc 0 64 (Sample.answer 100),
          .free 0 100 (Sample.answer 0)]).onEnd 0).heap =
        [⟨0, [], some [⟨true, 100, 64, []⟩, ⟨false, 100, 64, []⟩], 64, 0, 3⟩] := by
  decide

theorem separated_of_disjoint {m : Mappings} (hne : m.NonEmpty) (hdis : m.Disjoint) :
    m.Separated := by
  intro e1 h1 e2 h2 hlt
  by_contra hc
  have hne2 := hne e2 h2
  have hd : e1 ≠ e2 := by
    intro he
    rw [he] at hlt
    exact lt_irrefl _ hlt
  apply hdis e1 h1 e2 h2 hd e2.base
  constructor
  · constructor
    · omega
    · omega
  · constructor
    · exact le_refl _
    · omega

/-- Claim C24, the counterexample.  One object with a loadable segment of
`900` bytes at `100` and an empty one at `200`: the two ranges have no address
in common and nothing wraps, the first segment covers the address `500` and
is the only one to do so, and the lookup of `500` gives `{0, 500}`: the
predecessor of `500` is the empty segment. -/
theorem lookup_empty_segment_counterexample :
    (Mappings.new false [⟨"a", 0, [⟨1, 100, 900, 0⟩, ⟨1, 200, 0, 0⟩]⟩]).m_entries =
        [⟨1, 100, 900, 0⟩, ⟨1, 200, 0, 0⟩] ∧
      (Mappings.new false [⟨"a", 0, [⟨1, 100, 900, 0⟩, ⟨1, 200, 0, 0⟩]⟩]).Disjoint ∧
      (∀ e ∈ (Mappings.new false [⟨"a", 0, [⟨1, 100, 900, 0⟩, ⟨1, 200, 0, 0⟩]⟩]).m_entries,
        e.base + e.size < 2 ^ 64) ∧
      Entry.covers ⟨1, 100, 900, 0⟩ 500 ∧
      entriesBefore (Mappings.new false
        [⟨"a", 0, [⟨1, 100, 900, 0⟩, ⟨1, 200, 0, 0⟩]⟩]).m_entries 500 = some ⟨1, 200, 0, 0⟩ ∧
      (Mappings.new false [⟨"a", 0, [⟨1, 100, 900, 0⟩, ⟨1, 200, 0, 0⟩]⟩]).doLookup 500 =
        ⟨0, 500⟩ := by
  have hE : (Mappings.new false [⟨"a", 0, [⟨1, 100, 900, 0⟩, ⟨1, 200, 0, 0⟩]⟩]).m_entries =
      [⟨1, 100, 900, 0⟩, ⟨1, 200, 0, 0⟩] := by decide
  refine ⟨hE, ?_, by decide, by decide, by decide, by decide⟩
  intro e1 h1 e2 h2 hd x hx
  rw [hE] at h1 h2
  simp only [List.mem_cons, List.mem_singleton, List.not_mem_nil, or_false] at h1 h2
  rcases h1 with rfl | rfl <;> rcases h2 with rfl | rfl
  · exact hd rfl
  · have := hx.2.1
    have := hx.2.2
    simp only at *
    omega
  · have := hx.1.1
    have := hx.1.2
    simp only at *
    omega
  · exact hd rfl

/-- Claim C24, amended.  After any refresh, when no entry of the index is
empty and the ranges `[base, base + size)` of different entries have no
address in common: for an entry that covers `v` the lookup of `v` gives the
id of that entry and `offset + (v - base)` in 64 bits (without the wrap when
`offset + size` stays within 64 bits), that entry is the predecessor found by
`upper_bound` and one step back, and no other entry covers `v`; when no entry
covers `v` the lookup gives `{0, v}`. -/
theorem lookup_disjoint_nonempty (m : Mappings) (R : List PhdrInfo) (v : Nat)
    (hne : (m.doUpdate R).NonEmpty) (hdis : (m.doUpdate R).Disjoint) :
    (∀ e ∈ (m.doUpdate R).m_entries, e.covers v →
      (m.doUpdate R).doLookup v = ⟨e.index, wrap64 (e.offset + (v - e.base))⟩ ∧
      entriesBefore (m.doUpdate R).m_entries v = some e ∧
      (∀ e2 ∈ (m.doUpdate R).m_entries, e2.covers v → e2 = e) ∧
      (e.offset + e.size ≤ 2 ^ 64 →
        (m.doUpdate R).doLookup v = ⟨e.index, e.offset + (v - e.base)⟩)) ∧
    ((¬ ∃ e ∈ (m.doUpdate R).m_entries, e.covers v) →
      (m.doUpdate R).doLookup v = ⟨0, v⟩) := by
  have hs := doUpdate_sorted m R
  have hsep := separated_of_disjoint hne hdis
  refine ⟨?_, doLookup_uncovered⟩
  intro e he hc
  have hl : (m.doUpdate R).doLookup v = ⟨e.index, wrap64 (e.offset + (v - e.base))⟩ := by
    rw [doLookup_covered hs hsep he hc, Nat.add_comm]
  refine ⟨hl, entriesBefore_covering hs hsep he hc, ?_, ?_⟩
  · intro e2 he2 hc2
    by_contra hd
    exact hdis e2 he2 e he hd v ⟨hc2, hc⟩
  · intro hoff
    rw [hl]
    have h1 := hc.1
    have h2 := hc.2
    have : e.offset + (v - e.base) < 2 ^ 64 := by omega
    simp only [wrap64, Nat.mod_eq_of_lt this]

theorem lookup_disjoint_nonempty_witness :
    (Mappings.new false
        [⟨"a", 4096, [⟨1, 0, 900, 0⟩, ⟨1, 1024, 100, 512⟩]⟩]).doLookup 5130 = ⟨1, 522⟩ ∧
      (Mappings.new false
        [⟨"a", 4096, [⟨1, 0, 900, 0⟩, ⟨1, 1024, 100, 512⟩]⟩]).doLookup 5000 = ⟨0, 5000⟩ := by
  have hE : ((Mappings.blank false).doUpdate
      [⟨"a", 4096, [⟨1, 0, 900, 0⟩, ⟨1, 1024, 100, 512⟩]⟩]).m_entries =
      [⟨1, 4096, 900, 0⟩, ⟨1, 5120, 100, 512⟩] := by decide
  have hdis : ((Mappings.blank false).doUpdate
      [⟨"a", 4096, [⟨1, 0, 900, 0⟩, ⟨1, 1024, 100, 512⟩]⟩]).Disjoint := by
    intro e1 h1 e2 h2 hd x hx
    rw [hE] at h1 h2
    simp only [List.mem_cons, List.mem_singleton, List.not_mem_nil, or_false] at h1 h2
    rcases h1 with rfl | rfl <;> rcases h2 with rfl | rfl
    · exact hd rfl
    · have := hx.1.2
      have := hx.2.1
      simp only at *
      omega
    · have := hx.1.1
      have := hx.2.2
      simp only at *
      omega
    · exact hd rfl
  have h := lookup_disjoint_nonempty (Mappings.blank false)
    [⟨"a", 4096, [⟨1, 0, 900, 0⟩, ⟨1, 1024, 100, 512⟩]⟩] 5130 (by decide) hdis
  have h2 := lookup_disjoint_nonempty (Mappings.blank false)
    [⟨"a", 4096, [⟨1, 0, 900, 0⟩, ⟨1, 1024, 100, 512⟩]⟩] 5000 (by decide) hdis
  refine ⟨(h.1 ⟨1, 5120, 100, 512⟩ (by decide) (by decide)).2.2.2 (by decide), ?_⟩
  apply h2.2
  rw [hE]
  decide

end trac
